import Mathlib

/-!
CacheSim: a shallow embedding of `Simulator.cpp`

The set-associative cache simulator of `src/Simulator.cpp` / `src/Simulator.h`,
embedded as pure state-passing functions on a `Simulator` record.

Modelling conventions.

* `uint32_t` / `unsigned int` values (`tag`, `load_ts`, `access_ts`, `loads`, `stores`,
  addresses) are `Nat`, reduced `% 2 ^ 32` wherever the C++ arithmetic can wrap
  (`loads + stores`, `loads++`, `stores++`, the conversion of the parsed address).
* `int` counters (`lhits`, `lmisses`, `shits`, `smisses`, `cycles`, `memoryMultiplier`) and the
  `int` results carrying the sentinel `-1` (`checkMem`, `emptyBlock`) are `Int`, unbounded:
  C++ leaves signed overflow undefined, and the statements count cycles and hits over the
  integers. The embedding is the program as long as every total stays a value of the 32-bit
  `int`; a statement about a total that can leave that range (a block transfer charge
  `100 * memoryMultiplier`, a count that grows with the length of the trace) carries the
  hypothesis `InIntRange` on the totals it names.
* `sets`, `blocks`, `size` are `Nat`: the constructor's `resize` cannot succeed on a negative
  count and `log2` of a non-positive size has no `unsigned` value.
* A set index is a `Nat` (the `unsigned int index` of `load` / `store`, passed as `int`).
* `std::vector` is `List`. An out-of-bounds read (undefined behaviour in C++) reads the
  value-initialised slot, an out-of-bounds write is a no-op; every theorem below is stated for
  in-range positions.
* Member functions that may write a field return the new `Simulator` next to their result.
* `std::stoul` is outside the embedding: `load` and `store` receive the parsed number.
* A shift is the shift of `Nat`. The C++ shift by 32 bits or more is undefined; which
  geometries keep the shift amounts below 32 is the subject of C11 and C16. Where
  `offsetBits + indexBits` reaches 32 the tag of the embedding is not the program's; a
  statement whose content depends on which addresses decode to the same tag carries the
  hypothesis `ShiftDefined`.
* `main.cpp` is embedded on the values that `std::atoi` returns, as `Int`; the statistics that
  `print` writes are the fields of the final `Simulator`.
* The reference LRU stack model (`refHit`, `lruStack`, `distinctTags`) is not code of the
  repository: it is written from the wording of the specification and compared with the
  simulator in C24.
-/

namespace CacheSim

/-! ## Policies (`Simulator.h`, lines 19-21) -/

/-- Enumeration `WriteMissPolicy` of `Simulator.h`. -/
inductive WriteMissPolicy where
  | WriteAllocate
  | NoWriteAllocate
  deriving DecidableEq, Repr

/-- Enumeration `EvictionPolicy` of `Simulator.h`. -/
inductive EvictionPolicy where
  | LRU
  | FIFO
  deriving DecidableEq, Repr

/-- Enumeration `WritePolicy` of `Simulator.h`. -/
inductive WritePolicy where
  | WriteThrough
  | WriteBack
  deriving DecidableEq, Repr

/-- The value of `static_cast<int>(p)` for a `WriteMissPolicy`. -/
def WriteMissPolicy.toInt : WriteMissPolicy → Int
  | .WriteAllocate => 0
  | .NoWriteAllocate => 1

/-- The value of `static_cast<int>(p)` for an `EvictionPolicy`. -/
def EvictionPolicy.toInt : EvictionPolicy → Int
  | .LRU => 0
  | .FIFO => 1

/-- The value of `static_cast<int>(p)` for a `WritePolicy`. -/
def WritePolicy.toInt : WritePolicy → Int
  | .WriteThrough => 0
  | .WriteBack => 1

/-! ## Data model (`Simulator.h`, lines 24-38 and 84-102) -/

/-- One cache line, `struct Slot`. -/
structure Slot where
  valid : Bool
  dirty : Bool
  tag : Nat
  policy : Int
  load_ts : Nat
  access_ts : Nat
  deriving DecidableEq, Repr

/-- The value-initialised slot produced by `std::vector::resize`. -/
instance : Inhabited Slot := ⟨⟨false, false, 0, 0, 0, 0⟩⟩

/-- One cache set, `struct Set`. -/
structure Set where
  slots : List Slot
  deriving DecidableEq, Repr

instance : Inhabited Set := ⟨⟨[]⟩⟩

/-- The grid of sets, `struct Cache`. -/
structure Cache where
  sets : List Set
  deriving DecidableEq, Repr

/-- The fields of `class Simulator` (without the unused `traceFile`). -/
structure Simulator where
  sets : Nat
  blocks : Nat
  size : Nat
  missPolicy : WriteMissPolicy
  writePolicy : WritePolicy
  evictionPolicy : EvictionPolicy
  loads : Nat
  stores : Nat
  lhits : Int
  lmisses : Int
  shits : Int
  smisses : Int
  cycles : Int
  memoryMultiplier : Int
  cache : Cache
  deriving DecidableEq, Repr

/-- The read `slots[i]` of a slot vector. -/
def getSlot (slots : List Slot) (i : Nat) : Slot :=
  slots.getD i default

/-- The read `cache.sets[index]`. -/
def Cache.setAt (c : Cache) (index : Nat) : Set :=
  c.sets.getD index default

/-- The read `cache.sets[index].slots[block]`. -/
def Cache.slotAt (c : Cache) (index block : Nat) : Slot :=
  getSlot (c.setAt index).slots block

/-- An in-place write to the fields of `cache.sets[index].slots[block]`. -/
def Cache.modifySlot (c : Cache) (index block : Nat) (f : Slot → Slot) : Cache :=
  ⟨c.sets.set index ⟨(c.setAt index).slots.set block (f (c.slotAt index block))⟩⟩

/-- The slot at a position of the grid, `none` outside the grid (used in statements). -/
def Cache.slot? (c : Cache) (index block : Nat) : Option Slot :=
  match c.sets[index]? with
  | some st => st.slots[block]?
  | none => none

/-- The `uint32_t` expression `loads + stores`, the logical clock read by `load` and `store`. -/
def Simulator.clock (s : Simulator) : Nat :=
  (s.loads + s.stores) % 2 ^ 32

/-! ## Constructor (`Simulator.cpp`, lines 42-56) -/

/-- The constructor `Simulator::Simulator`. -/
def Simulator.new (sets blocks size : Nat) (miss : WriteMissPolicy) (write : WritePolicy)
    (eviction : EvictionPolicy) : Simulator :=
  { sets := sets, blocks := blocks, size := size,
    missPolicy := miss, writePolicy := write, evictionPolicy := eviction,
    loads := 0, stores := 0, lhits := 0, lmisses := 0, shits := 0, smisses := 0, cycles := 0,
    memoryMultiplier := ((size / 4 : Nat) : Int),
    cache := ⟨List.replicate sets ⟨List.replicate blocks default⟩⟩ }

/-! ## `updateCache` (lines 128-135) -/

/-- The function `Simulator::updateCache`; `block` is an `int`, and a negative one is out of
bounds. -/
def updateCache (s : Simulator) (tag : Nat) (valid dirty : Bool) (load_ts access_ts : Nat)
    (index : Nat) (block : Int) : Simulator :=
  match block with
  | Int.ofNat b =>
    { s with cache := s.cache.modifySlot index b fun sl =>
        { sl with tag := tag, dirty := dirty, valid := valid,
                  access_ts := access_ts, load_ts := load_ts } }
  | Int.negSucc _ => s

/-! ## Eviction (lines 148-215) -/

/-- The `for` loop of `fifo`: `fuel` iterations remain, `i` is the loop variable. -/
def fifoLoop (slots : List Slot) : Nat → Nat → Nat → Nat → Nat
  | 0, _, _, evictBlock => evictBlock
  | fuel + 1, i, minLoadTs, evictBlock =>
    let curLoadTs := (getSlot slots i).load_ts
    if curLoadTs < minLoadTs then fifoLoop slots fuel (i + 1) curLoadTs i
    else fifoLoop slots fuel (i + 1) minLoadTs evictBlock

/-- The function `Simulator::fifo`. -/
def fifo (s : Simulator) (index : Nat) : Simulator × Int :=
  let slots := (s.cache.setAt index).slots
  let minLoadTs := (getSlot slots 0).load_ts
  let evictBlock := fifoLoop slots (s.blocks - 1) 1 minLoadTs 0
  if (getSlot slots evictBlock).dirty == true then
    ({ s with cycles := s.cycles + 100 * s.memoryMultiplier }, (evictBlock : Int))
  else
    (s, (evictBlock : Int))

/-- The `for` loop of `lru`: `fuel` iterations remain, `i` is the loop variable. -/
def lruLoop (slots : List Slot) : Nat → Nat → Nat → Nat → Nat
  | 0, _, _, evictBlock => evictBlock
  | fuel + 1, i, minAccessTs, evictBlock =>
    let curAccessTs := (getSlot slots i).access_ts
    if curAccessTs < minAccessTs then lruLoop slots fuel (i + 1) curAccessTs i
    else lruLoop slots fuel (i + 1) minAccessTs evictBlock

/-- The function `Simulator::lru`. -/
def lru (s : Simulator) (index : Nat) : Simulator × Int :=
  let slots := (s.cache.setAt index).slots
  let minAccessTs := (getSlot slots 0).access_ts
  let evictBlock := lruLoop slots (s.blocks - 1) 1 minAccessTs 0
  if (getSlot slots evictBlock).dirty == true then
    ({ s with cycles := s.cycles + 100 * s.memoryMultiplier }, (evictBlock : Int))
  else
    (s, (evictBlock : Int))

/-- The function `Simulator::evict`. -/
def evict (s : Simulator) (index : Nat) : Simulator × Int :=
  if s.evictionPolicy.toInt == 1 then fifo s index else lru s index

/-! ## Lookup (lines 370-397) -/

/-- The `for` loop of `checkMem` with the code after it: `fuel` iterations remain, `i` is the
loop variable. The result is the returned `int` and the final value of the reference
`emptyBlock`. -/
def checkMemLoop (slots : List Slot) (tag : Nat) (blocks : Nat) :
    Nat → Nat → Int → Int → Int × Int
  | 0, _, emptyBlock, numAllocated =>
    if numAllocated < (blocks : Int) then (-1, emptyBlock) else (numAllocated, emptyBlock)
  | fuel + 1, i, emptyBlock, numAllocated =>
    let block := getSlot slots i
    if !block.valid then checkMemLoop slots tag blocks fuel (i + 1) (i : Int) numAllocated
    else if block.tag == tag then ((i : Int), (i : Int))
    else checkMemLoop slots tag blocks fuel (i + 1) emptyBlock (numAllocated + 1)

/-- The function `Simulator::checkMem`: the simulator after the call, the returned `int`, and
the final value of the reference parameter `emptyBlock`. -/
def checkMem (s : Simulator) (tag : Nat) (index : Nat) (emptyBlock : Int) :
    Simulator × Int × Int :=
  if index ≥ s.cache.sets.length then (s, -1, emptyBlock)
  else
    let curSet := s.cache.setAt index
    (s, checkMemLoop curSet.slots tag s.blocks s.blocks 0 emptyBlock 0)

/-! ## Address decoding (the first lines of `load` and of `store`) -/

/-- The truncating conversion `(unsigned int) log2(n)` for a positive `int` `n`. -/
def log2Fuel : Nat → Nat → Nat
  | 0, _ => 0
  | fuel + 1, n => if 2 ≤ n then log2Fuel fuel (n / 2) + 1 else 0

/-- The value of `log2(n)` stored in an `unsigned int`, for `n > 0`. -/
def log2 (n : Nat) : Nat := log2Fuel n n

/-- The conversion of an `int` to `unsigned int`. -/
def toUnsigned (x : Int) : Nat := (x % 2 ^ 32).toNat

/-- The function `Simulator::toBinary`: the argument is truncated to `uint32_t`, and the
`unsigned long` of the bitset is returned as an `int`. -/
def toBinary (address : Nat) : Int :=
  let a : Nat := address % 2 ^ 32
  if a < 2 ^ 31 then (a : Int) else (a : Int) - 2 ^ 32

/-- The local `offsetBits` of `load` and `store`. -/
def Simulator.offsetBits (s : Simulator) : Nat := log2 s.size

/-- The local `indexBits` of `load` and `store`. -/
def Simulator.indexBits (s : Simulator) : Nat := log2 s.sets

/-- The local `indexMask` of `load` and `store`: the `int` `(1 << indexBits) - 1` stored in an
`unsigned int`. -/
def Simulator.indexMask (s : Simulator) : Nat :=
  toUnsigned (((1 <<< s.indexBits : Nat) : Int) - 1)

/-- The local `index` of `load` and `store`, from the 32-bit `address`. -/
def Simulator.index (s : Simulator) (address : Nat) : Nat :=
  (address >>> s.offsetBits) &&& s.indexMask

/-- The local `tag` of `load` and `store`, from the 32-bit `address`. -/
def Simulator.tag (s : Simulator) (address : Nat) : Nat :=
  address >>> (s.offsetBits + s.indexBits)

/-- The local `address` of `load`: `toBinary(stoul(sAddress, nullptr, 16))` stored in an
`unsigned int`. -/
def loadAddress (sAddress : Nat) : Nat := toUnsigned (toBinary sAddress)

/-- The local `address` of `store`: `stoul(sAddress, nullptr, 16)` stored in an
`unsigned int`. -/
def storeAddress (sAddress : Nat) : Nat := sAddress % 2 ^ 32

/-! ## `load` (lines 227-258) -/

/-- The function `Simulator::load`; `sAddress` is the number parsed from the hex string. -/
def load (s : Simulator) (sAddress : Nat) : Simulator :=
  let address := loadAddress sAddress
  let index := s.index address
  let tag := s.tag address
  let emptyBlock : Int := -1
  match checkMem s tag index emptyBlock with
  | (s, block, emptyBlock) =>
    if block < 0 || block == (s.blocks : Int) then
      let s := { s with cycles := s.cycles + 100 * s.memoryMultiplier }
      let s := { s with lmisses := s.lmisses + 1 }
      if block == (s.blocks : Int) then
        match evict s index with
        | (s, emptyBlock) => updateCache s tag true false s.clock s.clock index emptyBlock
      else
        updateCache s tag true false s.clock s.clock index emptyBlock
    else
      let s := { s with cycles := s.cycles + 1 }
      let s := { s with lhits := s.lhits + 1 }
      { s with cache := s.cache.modifySlot index block.toNat fun sl =>
          { sl with access_ts := s.clock } }

/-! ## `store`, `writeHit`, `writeMiss` (lines 269-355) -/

/-- The function `Simulator::writeHit`. -/
def writeHit (s : Simulator) (index : Nat) (inputBlock : Int) : Simulator :=
  let s := { s with cache := s.cache.modifySlot index inputBlock.toNat fun sl =>
      { sl with access_ts := s.clock } }
  if s.writePolicy.toInt == 1 then
    { s with cache := s.cache.modifySlot index inputBlock.toNat fun sl =>
        { sl with dirty := true } }
  else
    { s with cycles := s.cycles + 100 }

/-- The function `Simulator::writeMiss`. -/
def writeMiss (s : Simulator) (tag : Nat) (index : Nat) (inputBlock : Int) (emptyInd : Int) :
    Simulator :=
  if s.missPolicy.toInt == 1 then
    { s with cycles := s.cycles + 100 }
  else
    let s := { s with cycles := s.cycles + 100 * s.memoryMultiplier }
    match (if inputBlock == (s.blocks : Int) then evict s index else (s, emptyInd)) with
    | (s, emptyInd) =>
      if s.writePolicy.toInt == 1 then
        let s := updateCache s tag true true s.clock s.clock index emptyInd
        { s with cycles := s.cycles + 1 }
      else
        let s := { s with cycles := s.cycles + 100 }
        let s := { s with cycles := s.cycles + 1 }
        updateCache s tag true false s.clock s.clock index emptyInd

/-- The function `Simulator::store`; `sAddress` is the number parsed from the hex string. -/
def store (s : Simulator) (sAddress : Nat) : Simulator :=
  let address := storeAddress sAddress
  let index := s.index address
  let tag := s.tag address
  let emptyBlock : Int := -1
  match checkMem s tag index emptyBlock with
  | (s, block, emptyBlock) =>
    if block < 0 || block == (s.blocks : Int) then
      let s := writeMiss s tag index block emptyBlock
      { s with smisses := s.smisses + 1 }
    else
      let s := { s with cycles := s.cycles + 1 }
      let s := { s with shits := s.shits + 1 }
      writeHit s index block

/-! ## `simulate` (lines 74-100) -/

/-- One line of the trace after `iss >> type >> address`: the operation token and the number
that `stoul` reads from the address token. -/
structure Line where
  type : String
  address : Nat
  deriving DecidableEq, Repr

/-- The function `Simulator::simulate` over the lines read from standard input: the returned
`int` and the simulator when it returns. -/
def simulate (s : Simulator) : List Line → Int × Simulator
  | [] => (0, s)
  | line :: rest =>
    if line.type == "l" then
      let s := load s line.address
      simulate { s with loads := (s.loads + 1) % 2 ^ 32 } rest
    else if line.type == "s" then
      let s := store s line.address
      simulate { s with stores := (s.stores + 1) % 2 ^ 32 } rest
    else
      (1, s)

/-! ## Derived notions used by the proofs -/

/-- The common shape of the loops of `fifo` and `lru`: a scan for the first position with the
least value of `key`. -/
def minLoop (key : Nat → Nat) : Nat → Nat → Nat → Nat → Nat
  | 0, _, _, evictBlock => evictBlock
  | fuel + 1, i, m, evictBlock =>
    if key i < m then minLoop key fuel (i + 1) (key i) i
    else minLoop key fuel (i + 1) m evictBlock

/-- The position that `evict` returns, read off the bodies of `fifo` and `lru`. -/
def evictBlockOf (s : Simulator) (index : Nat) : Nat :=
  if s.evictionPolicy.toInt == 1 then
    fifoLoop (s.cache.setAt index).slots (s.blocks - 1) 1
      (getSlot (s.cache.setAt index).slots 0).load_ts 0
  else
    lruLoop (s.cache.setAt index).slots (s.blocks - 1) 1
      (getSlot (s.cache.setAt index).slots 0).access_ts 0

/-! ## A concrete state for the worked instances -/

/-- A two-set, two-way cache with 16-byte blocks, in the state that the trace
`s 20`, `l 40`, `l 30`, `l 20`, `s 30` produces under write-allocate and write-back:
set 0 is full (slot 0 clean, slot 1 dirty), set 1 has slot 0 invalid. The policies are left
open so that the same grid serves every policy combination. -/
def demoSim (miss : WriteMissPolicy) (write : WritePolicy) (eviction : EvictionPolicy) :
    Simulator :=
  { sets := 2, blocks := 2, size := 16,
    missPolicy := miss, writePolicy := write, evictionPolicy := eviction,
    loads := 3, stores := 2, lhits := 1, lmisses := 2, shits := 1, smisses := 1,
    cycles := 1203, memoryMultiplier := 4,
    cache := ⟨[⟨[⟨true, false, 2, 0, 1, 1⟩, ⟨true, true, 1, 0, 0, 3⟩]⟩,
               ⟨[⟨false, false, 0, 0, 0, 0⟩, ⟨true, true, 1, 0, 2, 4⟩]⟩]⟩ }

/-! ## `main.cpp` -/

/-- The function `convertMissPolicy`: the returned `bool` and the reference `missPolicy` after
the call. -/
def convertMissPolicy (miss : String) (missPolicy : WriteMissPolicy) :
    Bool × WriteMissPolicy :=
  if miss == "write-allocate" then (true, WriteMissPolicy.WriteAllocate)
  else if miss == "no-write-allocate" then (true, WriteMissPolicy.NoWriteAllocate)
  else (false, missPolicy)

/-- The function `convertWritePolicy`: the returned `bool` and the reference `writePolicy`
after the call. -/
def convertWritePolicy (write miss : String) (writePolicy : WritePolicy) :
    Bool × WritePolicy :=
  if write == "write-back" then
    if miss == "no-write-allocate" then (false, writePolicy)
    else (true, WritePolicy.WriteBack)
  else if write == "write-through" then (true, WritePolicy.WriteThrough)
  else (false, writePolicy)

/-- The function `convertEvictionPolicy`: the returned `bool` and the reference
`evictionPolicy` after the call. -/
def convertEvictionPolicy (eviction : String) (evictionPolicy : EvictionPolicy) :
    Bool × EvictionPolicy :=
  if eviction == "fifo" then (true, EvictionPolicy.FIFO)
  else if eviction == "lru" then (true, EvictionPolicy.LRU)
  else (false, evictionPolicy)

/-- The function `isPowerOfTwo`, `x && !(x & (x - 1))` on an `int`; the bitwise and of two's
complement integers is `Int.land`. -/
def isPowerOfTwo (x : Int) : Bool :=
  x != 0 && !(Int.land x (x - 1) != 0)

/-- The checks of `parseInputParameters` on the three numbers that `std::atoi` reads from
`argv[1]`, `argv[2]`, `argv[3]`. -/
def parseInputParameters (sets blocks size : Int) : Bool :=
  if size < 4 then false
  else if !isPowerOfTwo size then false
  else if !isPowerOfTwo sets || decide (sets ≤ 0) then false
  else if blocks ≤ 0 then false
  else true

/-- The function `validateArguments`. -/
def validateArguments (argc : Int) : Bool :=
  if argc < 7 then false else true

/-- The function `main`, on `argc`, the numbers read from `argv[1..3]`, the strings
`argv[4..6]` and the lines of standard input: the exit status, and the `Simulator sim` in its
final state when it was constructed (`none` when `main` returned before constructing it). The
locals `missPolicy`, `writePolicy`, `evictionPolicy` are uninitialised before the converters
run; the values passed for them here are never read. -/
def main (argc : Int) (sets blocks size : Int) (miss write eviction : String)
    (lines : List Line) : Int × Option Simulator :=
  if !validateArguments argc then (1, none)
  else if !parseInputParameters sets blocks size then (1, none)
  else
    match convertMissPolicy miss WriteMissPolicy.WriteAllocate with
    | (false, _) => (1, none)
    | (true, missPolicy) =>
      match convertWritePolicy write miss WritePolicy.WriteThrough with
      | (false, _) => (1, none)
      | (true, writePolicy) =>
        match convertEvictionPolicy eviction EvictionPolicy.LRU with
        | (false, _) => (1, none)
        | (true, evictionPolicy) =>
          let sim := Simulator.new sets.toNat blocks.toNat size.toNat
            missPolicy writePolicy evictionPolicy
          match simulate sim lines with
          | (r, sim) => if r == 1 then (1, some sim) else (0, some sim)

/-! ## Reachable states and the notions used to describe one operation -/

/-- The geometries that `main` lets through: the `int` values accepted by
`parseInputParameters`. -/
def ValidGeometry (sets blocks size : Nat) : Prop :=
  parseInputParameters (sets : Int) (blocks : Int) (size : Int) = true ∧
    sets < 2 ^ 31 ∧ blocks < 2 ^ 31 ∧ size < 2 ^ 31

/-- The values of the 32-bit `int` of the program. C++ leaves signed overflow undefined, so a
statement about a total that the source keeps in an `int` is made for totals in this range. -/
def InIntRange (x : Int) : Prop :=
  -(2 ^ 31) ≤ x ∧ x ≤ 2 ^ 31 - 1

instance (x : Int) : Decidable (InIntRange x) :=
  inferInstanceAs (Decidable (-(2 ^ 31) ≤ x ∧ x ≤ 2 ^ 31 - 1))

/-- The shift `address >> (offsetBits + indexBits)` of `load` and `store` is defined in C++:
its amount is below the 32 bits of `unsigned int`. `parseInputParameters` does not check this
(C16); where the amount reaches 32 the shift of the embedding is not the program's. -/
def ShiftDefined (sets size : Nat) : Prop :=
  log2 size + log2 sets < 32

instance (sets size : Nat) : Decidable (ShiftDefined sets size) :=
  inferInstanceAs (Decidable (log2 size + log2 sets < 32))

/-- State `s` is the state of the simulator when `simulate`, started in `s0`, returns on some
input (in particular at the end of any number of processed lines). -/
def Reachable (s0 s : Simulator) : Prop :=
  ∃ lines : List Line, (simulate s0 lines).2 = s

/-- The grid has `sets` sets of `blocks` slots each. -/
def Simulator.GridOK (s : Simulator) : Prop :=
  s.cache.sets.length = s.sets ∧
    ∀ i, i < s.sets → (s.cache.setAt i).slots.length = s.blocks

/-- The facts about a simulator that the constructor establishes for a validated geometry and
that no operation changes. -/
def Simulator.WellFormed (s : Simulator) : Prop :=
  s.GridOK ∧ (∃ o i, s.size = 2 ^ o ∧ s.sets = 2 ^ i ∧ i ≤ 32) ∧ 1 ≤ s.blocks ∧
    s.memoryMultiplier = ((s.size / 4 : Nat) : Int)

/-- The slot `new` that an operation with decoded `index` and `tag` writes at position `p`:
valid, holding the tag, stamped with the clock, and either the touched old slot (a hit) or a
freshly installed one (a miss into an invalid slot or into a full set). -/
def StepSlot (s : Simulator) (index tag p : Nat) (new : Slot) : Prop :=
  new.valid = true ∧ new.tag = tag ∧ new.access_ts = s.clock ∧
  (new.dirty = true →
    (s.cache.slotAt index p).dirty = true ∨ s.writePolicy = WritePolicy.WriteBack) ∧
  (((s.cache.slotAt index p).valid = true ∧ (s.cache.slotAt index p).tag = tag ∧
      new.load_ts = (s.cache.slotAt index p).load_ts) ∨
    ((∀ j, j < s.blocks →
        ¬ ((s.cache.slotAt index j).valid = true ∧ (s.cache.slotAt index j).tag = tag)) ∧
      new.load_ts = s.clock ∧
      ((s.cache.slotAt index p).valid = false ∨
        ∀ j, j < s.blocks → (s.cache.slotAt index j).valid = true)))

/-- The effect of one `load` or `store` call on the simulator: the configuration and the
operation counts are kept, and the cache is either unchanged (a miss under no-write-allocate)
or changed in one slot of the addressed set as `StepSlot` describes. -/
def OpStep (s s' : Simulator) (index tag : Nat) : Prop :=
  s'.sets = s.sets ∧ s'.blocks = s.blocks ∧ s'.size = s.size ∧
  s'.missPolicy = s.missPolicy ∧ s'.writePolicy = s.writePolicy ∧
  s'.evictionPolicy = s.evictionPolicy ∧ s'.memoryMultiplier = s.memoryMultiplier ∧
  s'.loads = s.loads ∧ s'.stores = s.stores ∧
  ((s'.cache = s.cache ∧ s.missPolicy = WriteMissPolicy.NoWriteAllocate ∧
      ∀ j, j < s.blocks →
        ¬ ((s.cache.slotAt index j).valid = true ∧ (s.cache.slotAt index j).tag = tag)) ∨
    ∃ (p : Nat) (new : Slot), p < s.blocks ∧
      s'.cache = s.cache.modifySlot index p (fun _ => new) ∧ StepSlot s index tag p new)

/-! ## `load` and `store` with the call to `evict` made a parameter -/

/-- The body of `load` with the call `evict(index)` replaced by a call of `ev`;
`loadWith evict` is `load`. -/
def loadWith (ev : Simulator → Nat → Simulator × Int) (s : Simulator) (sAddress : Nat) :
    Simulator :=
  let address := loadAddress sAddress
  let index := s.index address
  let tag := s.tag address
  let emptyBlock : Int := -1
  match checkMem s tag index emptyBlock with
  | (s, block, emptyBlock) =>
    if block < 0 || block == (s.blocks : Int) then
      let s := { s with cycles := s.cycles + 100 * s.memoryMultiplier }
      let s := { s with lmisses := s.lmisses + 1 }
      if block == (s.blocks : Int) then
        match ev s index with
        | (s, emptyBlock) => updateCache s tag true false s.clock s.clock index emptyBlock
      else
        updateCache s tag true false s.clock s.clock index emptyBlock
    else
      let s := { s with cycles := s.cycles + 1 }
      let s := { s with lhits := s.lhits + 1 }
      { s with cache := s.cache.modifySlot index block.toNat fun sl =>
          { sl with access_ts := s.clock } }

/-- The body of `writeMiss` with the call `evict(index)` replaced by a call of `ev`. -/
def writeMissWith (ev : Simulator → Nat → Simulator × Int) (s : Simulator) (tag : Nat)
    (index : Nat) (inputBlock : Int) (emptyInd : Int) : Simulator :=
  if s.missPolicy.toInt == 1 then
    { s with cycles := s.cycles + 100 }
  else
    let s := { s with cycles := s.cycles + 100 * s.memoryMultiplier }
    match (if inputBlock == (s.blocks : Int) then ev s index else (s, emptyInd)) with
    | (s, emptyInd) =>
      if s.writePolicy.toInt == 1 then
        let s := updateCache s tag true true s.clock s.clock index emptyInd
        { s with cycles := s.cycles + 1 }
      else
        let s := { s with cycles := s.cycles + 100 }
        let s := { s with cycles := s.cycles + 1 }
        updateCache s tag true false s.clock s.clock index emptyInd

/-- The body of `store` with `writeMiss` replaced by `writeMissWith ev`;
`storeWith evict` is `store`. -/
def storeWith (ev : Simulator → Nat → Simulator × Int) (s : Simulator) (sAddress : Nat) :
    Simulator :=
  let address := storeAddress sAddress
  let index := s.index address
  let tag := s.tag address
  let emptyBlock : Int := -1
  match checkMem s tag index emptyBlock with
  | (s, block, emptyBlock) =>
    if block < 0 || block == (s.blocks : Int) then
      let s := writeMissWith ev s tag index block emptyBlock
      { s with smisses := s.smisses + 1 }
    else
      let s := { s with cycles := s.cycles + 1 }
      let s := { s with shits := s.shits + 1 }
      writeHit s index block

/-! ## The timestamp invariant -/

/-- Every valid slot carries timestamps below the number of processed operations, and two
valid slots at different positions of the grid never share a `load_ts` or an `access_ts`. -/
def TsInv (s : Simulator) : Prop :=
  (∀ i j sl, s.cache.slot? i j = some sl → sl.valid = true →
    sl.load_ts < s.loads + s.stores ∧ sl.access_ts < s.loads + s.stores) ∧
  (∀ i j i' j' sl sl', ¬ (i = i' ∧ j = j') →
    s.cache.slot? i j = some sl → s.cache.slot? i' j' = some sl' →
    sl.valid = true → sl'.valid = true →
    sl.load_ts ≠ sl'.load_ts ∧ sl.access_ts ≠ sl'.access_ts)

/-! ## Notions for the claim on the most recently referenced slot -/

/-- Slot `p` of set `index` is the only slot that differs between `s` and `s'`; in `s'` it is
valid and holds `tag`, its `access_ts` is strictly above the `access_ts` of every other valid
slot of the set, and if every slot of the set is valid then `lru` returns a position other
than `p`. -/
def JustReferenced (s s' : Simulator) (index tag p : Nat) : Prop :=
  (∀ i j, ¬ (i = index ∧ j = p) → s'.cache.slot? i j = s.cache.slot? i j) ∧
  (s'.cache.slotAt index p).valid = true ∧ (s'.cache.slotAt index p).tag = tag ∧
  (∀ j, j < s'.blocks → j ≠ p → (s'.cache.slotAt index j).valid = true →
    (s'.cache.slotAt index j).access_ts < (s'.cache.slotAt index p).access_ts) ∧
  ((∀ j, j < s'.blocks → (s'.cache.slotAt index j).valid = true) →
    (lru s' index).2 ≠ (p : Int))

/-- A trace of `2 ^ 32` loads on the single-set two-way cache with 4-byte blocks: address `0`
once, then address `4` for the rest. -/
def wrapTrace : List Line :=
  ⟨"l", 0x0⟩ :: ⟨"l", 0x4⟩ :: List.replicate (2 ^ 32 - 2) ⟨"l", 0x4⟩

/-- The state of the single-set two-way LRU cache (write-allocate, write-through, 4-byte
blocks) after `l 0`, `l 4` and `k` further loads of address `4`. -/
def wrapFamily (k : Nat) : Simulator :=
  { sets := 1, blocks := 2, size := 4,
    missPolicy := WriteMissPolicy.WriteAllocate, writePolicy := WritePolicy.WriteThrough,
    evictionPolicy := EvictionPolicy.LRU,
    loads := (2 + k) % 2 ^ 32, stores := 0, lhits := (k : Int), lmisses := 2, shits := 0,
    smisses := 0, cycles := 200 + (k : Int), memoryMultiplier := 1,
    cache := ⟨[⟨[⟨true, false, 1, 0, 1, (1 + k) % 2 ^ 32⟩, ⟨true, false, 0, 0, 0, 0⟩]⟩]⟩ }

/-! ## Notions for the claims on the valid slots of a set -/

/-- The number of valid slots of set `index`. -/
def Cache.validCount (c : Cache) (index : Nat) : Nat :=
  (c.setAt index).slots.countP fun sl => sl.valid

/-- No two distinct valid slots of one set hold the same tag. -/
def NoDupTags (s : Simulator) : Prop :=
  ∀ i j j', j < s.blocks → j' < s.blocks →
    (s.cache.slotAt i j).valid = true → (s.cache.slotAt i j').valid = true →
    (s.cache.slotAt i j).tag = (s.cache.slotAt i j').tag → j = j'

/-! ## The reference LRU stack model, and the notions that compare it with the simulator -/

/-- The decoded reference `(tag, index)` of a trace line, as `load` and `store` compute it. -/
def Simulator.ref (s : Simulator) (line : Line) : Nat × Nat :=
  let address :=
    if line.type == "l" then loadAddress line.address else storeAddress line.address
  (s.tag address, s.index address)

/-- The operation of a load or store line is a hit in state `s`: the hit counter of its kind
goes up by one. -/
def opHit (s : Simulator) (line : Line) : Bool :=
  if line.type == "l" then decide ((load s line.address).lhits = s.lhits + 1)
  else decide ((store s line.address).shits = s.shits + 1)

/-- The distinct tags among the references to set `index` in `refs`. -/
def distinctTags (refs : List (Nat × Nat)) (index : Nat) : List Nat :=
  ((refs.filter fun r => r.2 == index).map Prod.fst).dedup

/-- The hit condition of the reference model, in the words of the specification. The earlier
references are listed most recent first: `cur` is a hit when some earlier reference equals it
and, counting from the most recent such one, fewer than `blocks` distinct tags with the same
index were referenced in between. -/
def refHit (blocks : Nat) (recent : List (Nat × Nat)) (cur : Nat × Nat) : Bool :=
  recent.contains cur &&
    decide ((distinctTags (recent.takeWhile fun r => r != cur) cur.2).length < blocks)

/-- The reference LRU stack of set `index` after the references `recent` (listed most recent
first): the distinct tags referenced with that index, the most recently referenced first. Each
reference moves its tag to the front. -/
def lruStack : List (Nat × Nat) → Nat → List Nat
  | [], _ => []
  | r :: older, index =>
    if r.2 = index then r.1 :: (lruStack older index).filter (fun x => x != r.1)
    else lruStack older index

/-- Set `i` of the simulator holds the first `blocks` tags of the stack `st`: the valid slots,
listed by decreasing `access_ts`, carry exactly these tags in this order. -/
def StackInv (s : Simulator) (i : Nat) (st : List Nat) : Prop :=
  ∃ ps : List Nat,
    ps.map (fun p => (s.cache.slotAt i p).tag) = st.take s.blocks ∧
    (∀ p, p ∈ ps ↔ (p < s.blocks ∧ (s.cache.slotAt i p).valid = true)) ∧
    ps.Pairwise (fun p q => (s.cache.slotAt i q).access_ts < (s.cache.slotAt i p).access_ts)

/-- The effect on the cache of one operation that references `tag` in set `index` and is not a
miss under no-write-allocate: slot `p` is rewritten with a valid slot that holds the tag and is
stamped with the clock, where `p` held the tag (a hit), or was invalid (a miss into a set with
room), or is the position that `evict` returns (a miss into a full set). -/
def AccessStep (s s' : Simulator) (index tag : Nat) : Prop :=
  ∃ (p : Nat) (new : Slot), p < s.blocks ∧
    s'.cache = s.cache.modifySlot index p (fun _ => new) ∧
    new.valid = true ∧ new.tag = tag ∧ new.access_ts = s.clock ∧
    (((s.cache.slotAt index p).valid = true ∧ (s.cache.slotAt index p).tag = tag) ∨
      ((∀ j, j < s.blocks →
          ¬ ((s.cache.slotAt index j).valid = true ∧ (s.cache.slotAt index j).tag = tag)) ∧
        (s.cache.slotAt index p).valid = false) ∨
      ((∀ j, j < s.blocks →
          ¬ ((s.cache.slotAt index j).valid = true ∧ (s.cache.slotAt index j).tag = tag)) ∧
        (∀ j, j < s.blocks → (s.cache.slotAt index j).valid = true) ∧
        p = evictBlockOf s index))

/-! ## Lemmas on the lookup loop -/

theorem checkMemLoop_spec (slots : List Slot) (tag blocks : Nat) :
    ∀ (fuel i : Nat) (e n : Int), i + fuel = blocks → n ≤ (i : Int) →
      (n = (i : Int) ↔ ∀ j, j < i → (getSlot slots j).valid = true) →
      (∀ j, j < i → ¬ ((getSlot slots j).valid = true ∧ (getSlot slots j).tag = tag)) →
      (∀ p, p < i → (getSlot slots p).valid = false →
        (∀ j, p < j → j < i → (getSlot slots j).valid = true) → e = (p : Int)) →
      ((∃ p, p < blocks ∧
          ((getSlot slots p).valid = true ∧ (getSlot slots p).tag = tag) ∧
          (∀ j, j < p →
            ¬ ((getSlot slots j).valid = true ∧ (getSlot slots j).tag = tag)) ∧
          checkMemLoop slots tag blocks fuel i e n = ((p : Int), (p : Int))) ∨
       ((∀ j, j < blocks →
            ¬ ((getSlot slots j).valid = true ∧ (getSlot slots j).tag = tag)) ∧
          ∃ p, p < blocks ∧ (getSlot slots p).valid = false ∧
            (∀ j, p < j → j < blocks → (getSlot slots j).valid = true) ∧
            checkMemLoop slots tag blocks fuel i e n = (-1, (p : Int))) ∨
       ((∀ j, j < blocks →
            ¬ ((getSlot slots j).valid = true ∧ (getSlot slots j).tag = tag)) ∧
          (∀ j, j < blocks → (getSlot slots j).valid = true) ∧
          checkMemLoop slots tag blocks fuel i e n = ((blocks : Int), e))) := by
  intro fuel
  induction fuel with
  | zero =>
    intro i e n hi hn hnv hnm he
    simp only [Nat.add_zero] at hi
    subst hi
    by_cases hall : ∀ j, j < i → (getSlot slots j).valid = true
    · right; right
      refine ⟨hnm, hall, ?_⟩
      have hni : n = (i : Int) := hnv.mpr hall
      simp [checkMemLoop, hni]
    · right; left
      refine ⟨hnm, ?_⟩
      have hlt : n < (i : Int) := lt_of_le_of_ne hn (fun h => hall (hnv.mp h))
      -- the highest invalid position below `i`
      have hex : ∃ p, p < i ∧ (getSlot slots p).valid = false ∧
          ∀ j, p < j → j < i → (getSlot slots j).valid = true := by
        clear hnv hnm he hn hlt
        induction i with
        | zero => exact absurd (fun j hj => absurd hj (Nat.not_lt_zero j)) hall
        | succ k ih =>
          by_cases hk : (getSlot slots k).valid = true
          · have : ¬ ∀ j, j < k → (getSlot slots j).valid = true := by
              intro h
              apply hall
              intro j hj
              rcases Nat.lt_succ_iff_lt_or_eq.mp hj with h1 | h1
              · exact h j h1
              · rw [h1]; exact hk
            obtain ⟨p, hp, hpv, hpj⟩ := ih this
            refine ⟨p, Nat.lt_succ_of_lt hp, hpv, ?_⟩
            intro j hpj1 hj
            rcases Nat.lt_succ_iff_lt_or_eq.mp hj with h1 | h1
            · exact hpj j hpj1 h1
            · rw [h1]; exact hk
          · refine ⟨k, Nat.lt_succ_self k, by simpa using hk, ?_⟩
            intro j h1 h2
            omega
      obtain ⟨p, hp, hpv, hpj⟩ := hex
      refine ⟨p, hp, hpv, hpj, ?_⟩
      have hep := he p hp hpv hpj
      simp [checkMemLoop, hlt, hep]
  | succ fuel ih =>
    intro i e n hi hn hnv hnm he
    by_cases hv : (getSlot slots i).valid = true
    · by_cases ht : (getSlot slots i).tag = tag
      · left
        refine ⟨i, by omega, ⟨hv, ht⟩, hnm, ?_⟩
        simp [checkMemLoop, hv, ht]
      · have hstep : checkMemLoop slots tag blocks (fuel + 1) i e n
            = checkMemLoop slots tag blocks fuel (i + 1) e (n + 1) := by
          simp [checkMemLoop, hv, ht]
        rw [hstep]
        apply ih (i + 1) e (n + 1) (by omega) (by push_cast; omega)
        · constructor
          · intro h j hj
            have hni : n = (i : Int) := by push_cast at h; omega
            rcases Nat.lt_succ_iff_lt_or_eq.mp hj with h1 | h1
            · exact hnv.mp hni j h1
            · rw [h1]; exact hv
          · intro h
            have : n = (i : Int) := hnv.mpr (fun j hj => h j (Nat.lt_succ_of_lt hj))
            push_cast; omega
        · intro j hj
          rcases Nat.lt_succ_iff_lt_or_eq.mp hj with h1 | h1
          · exact hnm j h1
          · rw [h1]; exact fun h => ht h.2
        · intro p hp hpv hpj
          rcases Nat.lt_succ_iff_lt_or_eq.mp hp with h1 | h1
          · exact he p h1 hpv (fun j a b => hpj j a (Nat.lt_succ_of_lt b))
          · rw [h1] at hpv; rw [hv] at hpv; exact absurd hpv (by decide)
    · have hv' : (getSlot slots i).valid = false := by simpa using hv
      have hstep : checkMemLoop slots tag blocks (fuel + 1) i e n
          = checkMemLoop slots tag blocks fuel (i + 1) (i : Int) n := by
        simp [checkMemLoop, hv']
      rw [hstep]
      have hrec := ih (i + 1) (i : Int) n (by omega) (by push_cast; omega)
        (by
          constructor
          · intro h; push_cast at h; omega
          · intro h; exact absurd (h i (Nat.lt_succ_self i)) hv)
        (by
          intro j hj
          rcases Nat.lt_succ_iff_lt_or_eq.mp hj with h1 | h1
          · exact hnm j h1
          · rw [h1]; exact fun h => hv h.1)
        (by
          intro p hp hpv hpj
          rcases Nat.lt_succ_iff_lt_or_eq.mp hp with h1 | h1
          · exact absurd (hpj i h1 (Nat.lt_succ_self i)) hv
          · rw [h1])
      rcases hrec with h | h | h
      · exact Or.inl h
      · exact Or.inr (Or.inl h)
      · exact absurd (h.2.1 i (by omega)) hv

/-- The three outcomes of `checkMem` on an in-range set, in terms of the slots of the set. -/
theorem checkMem_cases (s : Simulator) (tag index : Nat) (e : Int)
    (hidx : index < s.cache.sets.length) :
    (∃ p, p < s.blocks ∧
        ((s.cache.slotAt index p).valid = true ∧ (s.cache.slotAt index p).tag = tag) ∧
        (∀ j, j < p →
          ¬ ((s.cache.slotAt index j).valid = true ∧ (s.cache.slotAt index j).tag = tag)) ∧
        checkMem s tag index e = (s, (p : Int), (p : Int))) ∨
    ((∀ j, j < s.blocks →
          ¬ ((s.cache.slotAt index j).valid = true ∧ (s.cache.slotAt index j).tag = tag)) ∧
        ∃ p, p < s.blocks ∧ (s.cache.slotAt index p).valid = false ∧
          (∀ j, p < j → j < s.blocks → (s.cache.slotAt index j).valid = true) ∧
          checkMem s tag index e = (s, -1, (p : Int))) ∨
    ((∀ j, j < s.blocks →
          ¬ ((s.cache.slotAt index j).valid = true ∧ (s.cache.slotAt index j).tag = tag)) ∧
        (∀ j, j < s.blocks → (s.cache.slotAt index j).valid = true) ∧
        checkMem s tag index e = (s, (s.blocks : Int), e)) := by
  have hnot : ¬ index ≥ s.cache.sets.length := Nat.not_le.mpr hidx
  have hdef : checkMem s tag index e
      = (s, checkMemLoop (s.cache.setAt index).slots tag s.blocks s.blocks 0 e 0) := by
    simp only [checkMem, hnot, if_false]
  have hloop := checkMemLoop_spec (s.cache.setAt index).slots tag s.blocks s.blocks 0 e 0
    (Nat.zero_add _) (le_refl _)
    ⟨fun _ j hj => absurd hj (Nat.not_lt_zero j), fun _ => rfl⟩
    (fun j hj => absurd hj (Nat.not_lt_zero j))
    (fun p hp => absurd hp (Nat.not_lt_zero p))
  rw [hdef]
  simp only [Cache.slotAt]
  rcases hloop with ⟨p, hp, hm, hlow, hr⟩ | ⟨hnm, p, hp, hv, hhigh, hr⟩ | ⟨hnm, hall, hr⟩
  · exact Or.inl ⟨p, hp, hm, hlow, by rw [hr]⟩
  · exact Or.inr (Or.inl ⟨hnm, p, hp, hv, hhigh, by rw [hr]⟩)
  · exact Or.inr (Or.inr ⟨hnm, hall, by rw [hr]⟩)

/-! ## C1: the three-way outcome of `checkMem` -/

/-- C1. For a set of `blocks` slots at an in-range index, `checkMem`
(a) returns a position below `blocks` iff some valid slot holds the tag, and that position is
the lowest valid slot holding the tag;
(b) returns `-1` iff no valid slot holds the tag and some slot is invalid, and then `emptyBlock`
is the highest-indexed invalid position;
(c) returns `blocks` iff every slot is valid and none holds the tag.
The outcomes are exhaustive and mutually exclusive, and the simulator is returned unchanged. -/
theorem checkMem_three_way (s : Simulator) (tag index : Nat) (emptyBlock : Int)
    (hidx : index < s.cache.sets.length)
    (_hlen : (s.cache.setAt index).slots.length = s.blocks) :
    ((∃ i : Nat, i < s.blocks ∧ (checkMem s tag index emptyBlock).2.1 = (i : Int)) ↔
      ∃ j, j < s.blocks ∧
        (s.cache.slotAt index j).valid = true ∧ (s.cache.slotAt index j).tag = tag) ∧
    (∀ i : Nat, i < s.blocks → (checkMem s tag index emptyBlock).2.1 = (i : Int) →
      ((s.cache.slotAt index i).valid = true ∧ (s.cache.slotAt index i).tag = tag) ∧
      ∀ j, j < i →
        ¬ ((s.cache.slotAt index j).valid = true ∧ (s.cache.slotAt index j).tag = tag)) ∧
    ((checkMem s tag index emptyBlock).2.1 = -1 ↔
      (∀ j, j < s.blocks →
        ¬ ((s.cache.slotAt index j).valid = true ∧ (s.cache.slotAt index j).tag = tag)) ∧
      ∃ j, j < s.blocks ∧ (s.cache.slotAt index j).valid = false) ∧
    ((checkMem s tag index emptyBlock).2.1 = -1 →
      ∃ p : Nat, (checkMem s tag index emptyBlock).2.2 = (p : Int) ∧ p < s.blocks ∧
        (s.cache.slotAt index p).valid = false ∧
        ∀ j, p < j → j < s.blocks → (s.cache.slotAt index j).valid = true) ∧
    ((checkMem s tag index emptyBlock).2.1 = (s.blocks : Int) ↔
      ∀ j, j < s.blocks →
        (s.cache.slotAt index j).valid = true ∧ (s.cache.slotAt index j).tag ≠ tag) ∧
    ((∃ i : Nat, i < s.blocks ∧ (checkMem s tag index emptyBlock).2.1 = (i : Int)) ∨
      (checkMem s tag index emptyBlock).2.1 = -1 ∨
      (checkMem s tag index emptyBlock).2.1 = (s.blocks : Int)) ∧
    ¬ ((∃ i : Nat, i < s.blocks ∧ (checkMem s tag index emptyBlock).2.1 = (i : Int)) ∧
      (checkMem s tag index emptyBlock).2.1 = -1) ∧
    ¬ ((∃ i : Nat, i < s.blocks ∧ (checkMem s tag index emptyBlock).2.1 = (i : Int)) ∧
      (checkMem s tag index emptyBlock).2.1 = (s.blocks : Int)) ∧
    ¬ ((checkMem s tag index emptyBlock).2.1 = -1 ∧
      (checkMem s tag index emptyBlock).2.1 = (s.blocks : Int)) ∧
    (checkMem s tag index emptyBlock).1 = s := by
  rcases checkMem_cases s tag index emptyBlock hidx with
    ⟨p, hp, hm, hlow, hr⟩ | ⟨hnm, p, hp, hv, hhigh, hr⟩ | ⟨hnm, hall, hr⟩
  · rw [hr]
    dsimp only
    refine ⟨⟨fun _ => ⟨p, hp, hm⟩, fun _ => ⟨p, hp, rfl⟩⟩, ?_, ?_, ?_, ?_, ?_, ?_, ?_, ?_, rfl⟩
    · intro i _ hi
      have : p = i := by exact_mod_cast hi
      subst this
      exact ⟨hm, hlow⟩
    · constructor
      · intro h; omega
      · intro h; exact absurd hm (h.1 p hp)
    · intro h; omega
    · constructor
      · intro h; omega
      · intro h; exact absurd hm.2 (h p hp).2
    · exact Or.inl ⟨p, hp, rfl⟩
    · intro h; omega
    · intro h; omega
    · intro h; omega
  · rw [hr]
    dsimp only
    refine ⟨⟨?_, ?_⟩, ?_, ⟨fun _ => ⟨hnm, p, hp, hv⟩, fun _ => rfl⟩,
      fun _ => ⟨p, rfl, hp, hv, hhigh⟩, ⟨?_, ?_⟩, Or.inr (Or.inl rfl), ?_, ?_, ?_, rfl⟩
    · rintro ⟨i, _, hi⟩; omega
    · rintro ⟨j, hj, hmj⟩; exact absurd hmj (hnm j hj)
    · intro i _ hi; omega
    · intro h; omega
    · intro h
      have := (h p hp).1
      rw [hv] at this
      exact absurd this (by decide)
    · rintro ⟨⟨i, _, hi⟩, _⟩; omega
    · rintro ⟨⟨i, _, hi⟩, _⟩; omega
    · rintro ⟨_, h⟩; omega
  · rw [hr]
    dsimp only
    refine ⟨⟨?_, ?_⟩, ?_, ⟨?_, ?_⟩, ?_, ⟨fun _ j hj => ⟨hall j hj, fun h => hnm j hj ⟨hall j hj, h⟩⟩,
      fun _ => rfl⟩, Or.inr (Or.inr rfl), ?_, ?_, ?_, rfl⟩
    · rintro ⟨i, hi, hi'⟩; omega
    · rintro ⟨j, hj, hmj⟩; exact absurd hmj (hnm j hj)
    · intro i hi hi'; omega
    · intro h; omega
    · rintro ⟨_, j, hj, hvj⟩
      have := hall j hj
      rw [hvj] at this
      exact absurd this (by decide)
    · intro h; omega
    · rintro ⟨⟨i, hi, hi'⟩, _⟩; omega
    · rintro ⟨⟨i, hi, hi'⟩, _⟩; omega
    · rintro ⟨h, _⟩; omega

/-! ## Lemmas on the victim-selection loops -/

theorem fifoLoop_eq_minLoop (slots : List Slot) :
    ∀ fuel i m e, fifoLoop slots fuel i m e
      = minLoop (fun j => (getSlot slots j).load_ts) fuel i m e := by
  intro fuel
  induction fuel with
  | zero => intro i m e; rfl
  | succ fuel ih =>
    intro i m e
    simp only [fifoLoop, minLoop]
    split <;> exact ih _ _ _

theorem lruLoop_eq_minLoop (slots : List Slot) :
    ∀ fuel i m e, lruLoop slots fuel i m e
      = minLoop (fun j => (getSlot slots j).access_ts) fuel i m e := by
  intro fuel
  induction fuel with
  | zero => intro i m e; rfl
  | succ fuel ih =>
    intro i m e
    simp only [lruLoop, minLoop]
    split <;> exact ih _ _ _

theorem minLoop_spec (key : Nat → Nat) :
    ∀ fuel i m e, e < i → m = key e → (∀ j, j < i → key e ≤ key j) →
      (∀ j, j < e → key e < key j) →
      minLoop key fuel i m e < i + fuel ∧
      (∀ j, j < i + fuel → key (minLoop key fuel i m e) ≤ key j) ∧
      (∀ j, j < minLoop key fuel i m e → key (minLoop key fuel i m e) < key j) := by
  intro fuel
  induction fuel with
  | zero =>
    intro i m e he _ hmin hlow
    exact ⟨by simpa [minLoop] using he, by simpa [minLoop] using hmin,
      by simpa [minLoop] using hlow⟩
  | succ fuel ih =>
    intro i m e he hm hmin hlow
    by_cases hlt : key i < m
    · have hstep : minLoop key (fuel + 1) i m e = minLoop key fuel (i + 1) (key i) i := by
        simp [minLoop, hlt]
      rw [hstep]
      have h := ih (i + 1) (key i) i (Nat.lt_succ_self i) rfl
        (by
          intro j hj
          rcases Nat.lt_succ_iff_lt_or_eq.mp hj with h1 | h1
          · have := hmin j h1; omega
          · rw [h1])
        (by
          intro j hj
          have := hmin j hj; omega)
      refine ⟨by omega, ?_, h.2.2⟩
      intro j hj
      exact h.2.1 j (by omega)
    · have hstep : minLoop key (fuel + 1) i m e = minLoop key fuel (i + 1) m e := by
        simp [minLoop, hlt]
      rw [hstep]
      have h := ih (i + 1) m e (Nat.lt_succ_of_lt he) hm
        (by
          intro j hj
          rcases Nat.lt_succ_iff_lt_or_eq.mp hj with h1 | h1
          · exact hmin j h1
          · rw [h1]; omega)
        hlow
      refine ⟨by omega, ?_, h.2.2⟩
      intro j hj
      exact h.2.1 j (by omega)

theorem minLoop_congr (key key' : Nat → Nat) :
    ∀ fuel i m e, (∀ j, i ≤ j → j < i + fuel → key j = key' j) →
      minLoop key fuel i m e = minLoop key' fuel i m e := by
  intro fuel
  induction fuel with
  | zero => intro i m e _; rfl
  | succ fuel ih =>
    intro i m e h
    have hi : key i = key' i := h i (le_refl i) (by omega)
    simp only [minLoop, hi]
    split
    · exact ih _ _ _ (fun j h1 h2 => h j (by omega) (by omega))
    · exact ih _ _ _ (fun j h1 h2 => h j (by omega) (by omega))

/-- The body of `fifo` as one equation. -/
theorem fifo_eq (s : Simulator) (index : Nat) :
    fifo s index =
      ({ s with cycles := s.cycles +
          if (s.cache.slotAt index (fifoLoop (s.cache.setAt index).slots (s.blocks - 1) 1
                (getSlot (s.cache.setAt index).slots 0).load_ts 0)).dirty = true
          then 100 * s.memoryMultiplier else 0 },
        ((fifoLoop (s.cache.setAt index).slots (s.blocks - 1) 1
            (getSlot (s.cache.setAt index).slots 0).load_ts 0 : Nat) : Int)) := by
  simp only [fifo, Cache.slotAt, beq_iff_eq]
  split
  · rfl
  · simp

/-- The body of `lru` as one equation. -/
theorem lru_eq (s : Simulator) (index : Nat) :
    lru s index =
      ({ s with cycles := s.cycles +
          if (s.cache.slotAt index (lruLoop (s.cache.setAt index).slots (s.blocks - 1) 1
                (getSlot (s.cache.setAt index).slots 0).access_ts 0)).dirty = true
          then 100 * s.memoryMultiplier else 0 },
        ((lruLoop (s.cache.setAt index).slots (s.blocks - 1) 1
            (getSlot (s.cache.setAt index).slots 0).access_ts 0 : Nat) : Int)) := by
  simp only [lru, Cache.slotAt, beq_iff_eq]
  split
  · rfl
  · simp

/-- The body of `evict` as one equation. -/
theorem evict_eq (s : Simulator) (index : Nat) :
    evict s index =
      ({ s with cycles := s.cycles +
          if (s.cache.slotAt index (evictBlockOf s index)).dirty = true
          then 100 * s.memoryMultiplier else 0 },
        ((evictBlockOf s index : Nat) : Int)) := by
  unfold evict evictBlockOf
  split
  · exact fifo_eq s index
  · exact lru_eq s index

theorem evictBlockOf_lt (s : Simulator) (index : Nat) (hb : 1 ≤ s.blocks) :
    evictBlockOf s index < s.blocks := by
  unfold evictBlockOf
  split
  · rw [fifoLoop_eq_minLoop]
    have h := (minLoop_spec (fun j => (getSlot (s.cache.setAt index).slots j).load_ts)
      (s.blocks - 1) 1 (getSlot (s.cache.setAt index).slots 0).load_ts 0 Nat.zero_lt_one rfl
      (by intro j hj; have : j = 0 := by omega
          rw [this])
      (fun j hj => absurd hj (Nat.not_lt_zero j))).1
    omega
  · rw [lruLoop_eq_minLoop]
    have h := (minLoop_spec (fun j => (getSlot (s.cache.setAt index).slots j).access_ts)
      (s.blocks - 1) 1 (getSlot (s.cache.setAt index).slots 0).access_ts 0 Nat.zero_lt_one rfl
      (by intro j hj; have : j = 0 := by omega
          rw [this])
      (fun j hj => absurd hj (Nat.not_lt_zero j))).1
    omega

/-! ## C2: LRU victim selection -/

/-- C2. For a set of `blocks ≥ 1` slots, all valid, `lru` returns a position `p < blocks` whose
`access_ts` is least among all positions of the set and strictly below the `access_ts` of every
lower position (ties go to the lowest position). -/
theorem lru_selects_min_access (s : Simulator) (index : Nat)
    (_hidx : index < s.cache.sets.length)
    (_hlen : (s.cache.setAt index).slots.length = s.blocks)
    (hb : 1 ≤ s.blocks)
    (_hvalid : ∀ j, j < s.blocks → (s.cache.slotAt index j).valid = true) :
    ∃ p : Nat, (lru s index).2 = (p : Int) ∧ p < s.blocks ∧
      (∀ j, j < s.blocks →
        (s.cache.slotAt index p).access_ts ≤ (s.cache.slotAt index j).access_ts) ∧
      (∀ j, j < p →
        (s.cache.slotAt index p).access_ts < (s.cache.slotAt index j).access_ts) := by
  have h := minLoop_spec (fun j => (getSlot (s.cache.setAt index).slots j).access_ts)
    (s.blocks - 1) 1 (getSlot (s.cache.setAt index).slots 0).access_ts 0 Nat.zero_lt_one rfl
    (by intro j hj; have : j = 0 := by omega
        rw [this])
    (fun j hj => absurd hj (Nat.not_lt_zero j))
  rw [← lruLoop_eq_minLoop] at h
  have h1 : 1 + (s.blocks - 1) = s.blocks := by omega
  rw [h1] at h
  refine ⟨_, ?_, h.1, h.2.1, h.2.2⟩
  rw [lru_eq]

/-! ## C3: FIFO victim selection -/

/-- C3. For a set of `blocks ≥ 1` slots, all valid, `fifo` returns a position `p < blocks` whose
`load_ts` is least among all positions of the set and strictly below the `load_ts` of every
lower position (ties go to the lowest position); and the returned position is the same in any
simulator whose slots of that set carry the same `load_ts` values, whatever their `access_ts`
(and other fields) are. -/
theorem fifo_selects_min_load (s : Simulator) (index : Nat)
    (_hidx : index < s.cache.sets.length)
    (_hlen : (s.cache.setAt index).slots.length = s.blocks)
    (hb : 1 ≤ s.blocks)
    (_hvalid : ∀ j, j < s.blocks → (s.cache.slotAt index j).valid = true) :
    (∃ p : Nat, (fifo s index).2 = (p : Int) ∧ p < s.blocks ∧
      (∀ j, j < s.blocks →
        (s.cache.slotAt index p).load_ts ≤ (s.cache.slotAt index j).load_ts) ∧
      (∀ j, j < p →
        (s.cache.slotAt index p).load_ts < (s.cache.slotAt index j).load_ts)) ∧
    (∀ s' : Simulator, s'.blocks = s.blocks →
      (∀ j, j < s.blocks →
        (s'.cache.slotAt index j).load_ts = (s.cache.slotAt index j).load_ts) →
      (fifo s' index).2 = (fifo s index).2) := by
  constructor
  · have h := minLoop_spec (fun j => (getSlot (s.cache.setAt index).slots j).load_ts)
      (s.blocks - 1) 1 (getSlot (s.cache.setAt index).slots 0).load_ts 0 Nat.zero_lt_one rfl
      (by intro j hj; have : j = 0 := by omega
          rw [this])
      (fun j hj => absurd hj (Nat.not_lt_zero j))
    rw [← fifoLoop_eq_minLoop] at h
    have h1 : 1 + (s.blocks - 1) = s.blocks := by omega
    rw [h1] at h
    refine ⟨_, ?_, h.1, h.2.1, h.2.2⟩
    rw [fifo_eq]
  · intro s' hbl hts
    rw [fifo_eq, fifo_eq]
    dsimp only
    rw [fifoLoop_eq_minLoop, fifoLoop_eq_minLoop, hbl]
    have h0 : (getSlot (s'.cache.setAt index).slots 0).load_ts
        = (getSlot (s.cache.setAt index).slots 0).load_ts := hts 0 (by omega)
    rw [h0]
    congr 1
    apply minLoop_congr
    intro j _ hj
    exact hts j (by omega)

/-! ## Lemmas on slot reads and writes -/

theorem setAt_eq_of_lt (c : Cache) (index : Nat) (hidx : index < c.sets.length) :
    c.sets[index]? = some (c.setAt index) := by
  simp [Cache.setAt, List.getD_eq_getElem?_getD, List.getElem?_eq_getElem hidx]

theorem slot?_eq_some_slotAt (c : Cache) (index p : Nat) (hidx : index < c.sets.length)
    (hp : p < (c.setAt index).slots.length) :
    c.slot? index p = some (c.slotAt index p) := by
  simp [Cache.slot?, setAt_eq_of_lt c index hidx, Cache.slotAt, getSlot,
    List.getD_eq_getElem?_getD, List.getElem?_eq_getElem hp]

theorem slot?_modifySlot_other (c : Cache) (index p : Nat) (f : Slot → Slot) (i j : Nat)
    (h : ¬ (i = index ∧ j = p)) :
    (c.modifySlot index p f).slot? i j = c.slot? i j := by
  by_cases hi : i = index
  · subst hi
    have hj : p ≠ j := fun hpj => h ⟨rfl, hpj.symm⟩
    by_cases hlen : i < c.sets.length
    · simp [Cache.slot?, Cache.modifySlot, List.getElem?_set, hlen, hj,
        setAt_eq_of_lt c i hlen]
    · have hnone : c.sets[i]? = none := List.getElem?_eq_none (Nat.le_of_not_lt hlen)
      simp [Cache.slot?, Cache.modifySlot, List.getElem?_set, hlen, hnone]
  · have hne : index ≠ i := fun h' => hi h'.symm
    simp [Cache.slot?, Cache.modifySlot, List.getElem?_set, hne]

theorem slot?_modifySlot_same (c : Cache) (index p : Nat) (f : Slot → Slot)
    (hidx : index < c.sets.length) (hp : p < (c.setAt index).slots.length) :
    (c.modifySlot index p f).slot? index p = some (f (c.slotAt index p)) := by
  simp [Cache.slot?, Cache.modifySlot, List.getElem?_set, hidx, hp]

theorem modifySlot_modifySlot (c : Cache) (index p : Nat) (f g : Slot → Slot)
    (hidx : index < c.sets.length) (hp : p < (c.setAt index).slots.length) :
    (c.modifySlot index p f).modifySlot index p g = c.modifySlot index p (fun sl => g (f sl)) := by
  have h1 : (c.modifySlot index p f).setAt index
      = ⟨(c.setAt index).slots.set p (f (c.slotAt index p))⟩ := by
    simp [Cache.setAt, Cache.modifySlot, List.getD_eq_getElem?_getD, List.getElem?_set, hidx]
  have h2 : (c.modifySlot index p f).slotAt index p = f (c.slotAt index p) := by
    simp [Cache.slotAt, h1, getSlot, List.getD_eq_getElem?_getD, List.getElem?_set, hp]
  simp only [Cache.modifySlot] at h1 h2 ⊢
  rw [h1, h2]
  simp [Cache.modifySlot, List.set_set]

/-! ## The lookup outcome from the contents of the set -/

theorem checkMem_hit (s : Simulator) (tag index : Nat) (e : Int) (p : Nat)
    (hidx : index < s.cache.sets.length) (hp : p < s.blocks)
    (hv : (s.cache.slotAt index p).valid = true) (ht : (s.cache.slotAt index p).tag = tag)
    (hlow : ∀ j, j < p →
      ¬ ((s.cache.slotAt index j).valid = true ∧ (s.cache.slotAt index j).tag = tag)) :
    checkMem s tag index e = (s, (p : Int), (p : Int)) := by
  rcases checkMem_cases s tag index e hidx with ⟨q, _, hm, hlowq, hr⟩ | ⟨hnm, _⟩ | ⟨hnm, _⟩
  · have hqp : q = p := by
      rcases Nat.lt_trichotomy q p with h | h | h
      · exact absurd hm (hlow q h)
      · exact h
      · exact absurd ⟨hv, ht⟩ (hlowq p h)
    rw [hr, hqp]
  · exact absurd ⟨hv, ht⟩ (hnm p hp)
  · exact absurd ⟨hv, ht⟩ (hnm p hp)

theorem checkMem_space (s : Simulator) (tag index : Nat) (e : Int) (p : Nat)
    (hidx : index < s.cache.sets.length) (hp : p < s.blocks)
    (hnm : ∀ j, j < s.blocks →
      ¬ ((s.cache.slotAt index j).valid = true ∧ (s.cache.slotAt index j).tag = tag))
    (hv : (s.cache.slotAt index p).valid = false)
    (hhigh : ∀ j, p < j → j < s.blocks → (s.cache.slotAt index j).valid = true) :
    checkMem s tag index e = (s, -1, (p : Int)) := by
  rcases checkMem_cases s tag index e hidx with
    ⟨q, hq, hm, _, _⟩ | ⟨_, q, hq, hvq, hhighq, hr⟩ | ⟨_, hall, _⟩
  · exact absurd hm (hnm q hq)
  · have hqp : q = p := by
      rcases Nat.lt_trichotomy q p with h | h | h
      · have := hhighq p h hp
        rw [hv] at this
        exact absurd this (by decide)
      · exact h
      · have := hhigh q h hq
        rw [hvq] at this
        exact absurd this (by decide)
    rw [hr, hqp]
  · have := hall p hp
    rw [hv] at this
    exact absurd this (by decide)

theorem updateCache_natCast (s : Simulator) (tag : Nat) (valid dirty : Bool)
    (load_ts access_ts index p : Nat) :
    updateCache s tag valid dirty load_ts access_ts index (p : Int) =
      { s with cache := s.cache.modifySlot index p fun sl =>
          { sl with tag := tag, dirty := dirty, valid := valid,
                    access_ts := access_ts, load_ts := load_ts } } := rfl

theorem hit_cond (p blocks : Nat) (hp : p < blocks) :
    ((p : Int) < 0 || (p : Int) == (blocks : Int)) = false := by
  have h1 : ¬ ((p : Int) < 0) := by omega
  have h2 : ¬ ((p : Int) = (blocks : Int)) := by omega
  simp [h1, h2]

theorem load_of_hit (s : Simulator) (sAddress p : Nat) (hp : p < s.blocks)
    (hr : checkMem s (s.tag (loadAddress sAddress)) (s.index (loadAddress sAddress)) (-1)
      = (s, (p : Int), (p : Int))) :
    load s sAddress =
      { s with
        cycles := s.cycles + 1
        lhits := s.lhits + 1
        cache := s.cache.modifySlot (s.index (loadAddress sAddress)) p fun sl =>
          { sl with access_ts := s.clock } } := by
  simp only [load, hr, hit_cond p s.blocks hp, Int.toNat_ofNat]
  rfl

theorem load_of_space (s : Simulator) (sAddress p : Nat)
    (hr : checkMem s (s.tag (loadAddress sAddress)) (s.index (loadAddress sAddress)) (-1)
      = (s, -1, (p : Int))) :
    load s sAddress =
      { s with
        cycles := s.cycles + 100 * s.memoryMultiplier
        lmisses := s.lmisses + 1
        cache := s.cache.modifySlot (s.index (loadAddress sAddress)) p fun sl =>
          { sl with tag := s.tag (loadAddress sAddress), dirty := false, valid := true,
                    access_ts := s.clock, load_ts := s.clock } } := by
  have h2 : ((-1 : Int) == (s.blocks : Int)) = false := by
    have : ¬ ((-1 : Int) = (s.blocks : Int)) := by omega
    simp [this]
  simp only [load, hr, h2]
  simp only [updateCache_natCast]
  rfl

theorem load_of_full (s : Simulator) (sAddress : Nat) (e : Int)
    (hr : checkMem s (s.tag (loadAddress sAddress)) (s.index (loadAddress sAddress)) (-1)
      = (s, (s.blocks : Int), e)) :
    load s sAddress =
      { s with
        cycles := s.cycles + 100 * s.memoryMultiplier +
          (if (s.cache.slotAt (s.index (loadAddress sAddress))
                (evictBlockOf s (s.index (loadAddress sAddress)))).dirty = true
           then 100 * s.memoryMultiplier else 0)
        lmisses := s.lmisses + 1
        cache := s.cache.modifySlot (s.index (loadAddress sAddress))
          (evictBlockOf s (s.index (loadAddress sAddress))) fun sl =>
          { sl with tag := s.tag (loadAddress sAddress), dirty := false, valid := true,
                    access_ts := s.clock, load_ts := s.clock } } := by
  simp only [load, hr, beq_self_eq_true, Bool.or_true, if_true, evict_eq, updateCache_natCast]
  rfl

theorem store_of_hit_writeBack (s : Simulator) (sAddress p : Nat) (hp : p < s.blocks)
    (hidx : s.index (storeAddress sAddress) < s.cache.sets.length)
    (hlen : (s.cache.setAt (s.index (storeAddress sAddress))).slots.length = s.blocks)
    (hw : s.writePolicy = WritePolicy.WriteBack)
    (hr : checkMem s (s.tag (storeAddress sAddress)) (s.index (storeAddress sAddress)) (-1)
      = (s, (p : Int), (p : Int))) :
    store s sAddress =
      { s with
        cycles := s.cycles + 1
        shits := s.shits + 1
        cache := s.cache.modifySlot (s.index (storeAddress sAddress)) p fun sl =>
          { sl with access_ts := s.clock, dirty := true } } := by
  simp only [store, hr, hit_cond p s.blocks hp, writeHit, Int.toNat_ofNat, hw]
  simp only [WritePolicy.toInt, beq_self_eq_true, if_true]
  rw [modifySlot_modifySlot _ _ _ _ _ hidx (by rw [hlen]; exact hp)]
  rfl

theorem store_of_hit_writeThrough (s : Simulator) (sAddress p : Nat) (hp : p < s.blocks)
    (hw : s.writePolicy = WritePolicy.WriteThrough)
    (hr : checkMem s (s.tag (storeAddress sAddress)) (s.index (storeAddress sAddress)) (-1)
      = (s, (p : Int), (p : Int))) :
    store s sAddress =
      { s with
        cycles := s.cycles + 1 + 100
        shits := s.shits + 1
        cache := s.cache.modifySlot (s.index (storeAddress sAddress)) p fun sl =>
          { sl with access_ts := s.clock } } := by
  simp only [store, hr, hit_cond p s.blocks hp, writeHit, Int.toNat_ofNat, hw]
  rfl

theorem store_of_miss_noWriteAllocate (s : Simulator) (sAddress : Nat) (block e : Int)
    (hm : s.missPolicy = WriteMissPolicy.NoWriteAllocate)
    (hblock : block = -1 ∨ block = (s.blocks : Int))
    (hr : checkMem s (s.tag (storeAddress sAddress)) (s.index (storeAddress sAddress)) (-1)
      = (s, block, e)) :
    store s sAddress =
      { s with cycles := s.cycles + 100, smisses := s.smisses + 1 } := by
  have hcond : (block < 0 || block == (s.blocks : Int)) = true := by
    rcases hblock with h | h
    · simp [h]
    · simp [h]
  simp only [store, hr, hcond, writeMiss, hm]
  rfl

theorem writeBack_cond (s : Simulator) (hw : s.writePolicy = WritePolicy.WriteBack) :
    (s.writePolicy.toInt == 1) = true := by
  rw [hw]; rfl

theorem writeThrough_cond (s : Simulator) (hw : s.writePolicy = WritePolicy.WriteThrough) :
    (s.writePolicy.toInt == 1) = false := by
  rw [hw]; rfl

theorem writeAllocate_cond (s : Simulator) (hm : s.missPolicy = WriteMissPolicy.WriteAllocate) :
    (s.missPolicy.toInt == 1) = false := by
  rw [hm]; rfl

theorem neg_one_ne_blocks (blocks : Nat) : ((-1 : Int) == (blocks : Int)) = false := by
  have : ¬ ((-1 : Int) = (blocks : Int)) := by omega
  simp [this]

theorem store_of_space_writeBack (s : Simulator) (sAddress p : Nat)
    (hm : s.missPolicy = WriteMissPolicy.WriteAllocate)
    (hw : s.writePolicy = WritePolicy.WriteBack)
    (hr : checkMem s (s.tag (storeAddress sAddress)) (s.index (storeAddress sAddress)) (-1)
      = (s, -1, (p : Int))) :
    store s sAddress =
      { s with
        cycles := s.cycles + 100 * s.memoryMultiplier + 1
        smisses := s.smisses + 1
        cache := s.cache.modifySlot (s.index (storeAddress sAddress)) p fun sl =>
          { sl with tag := s.tag (storeAddress sAddress), dirty := true, valid := true,
                    access_ts := s.clock, load_ts := s.clock } } := by
  simp only [store, hr, writeMiss, neg_one_ne_blocks, writeAllocate_cond s hm,
    writeBack_cond s hw, updateCache_natCast, Bool.false_eq_true, if_false, if_true]
  rfl

theorem store_of_space_writeThrough (s : Simulator) (sAddress p : Nat)
    (hm : s.missPolicy = WriteMissPolicy.WriteAllocate)
    (hw : s.writePolicy = WritePolicy.WriteThrough)
    (hr : checkMem s (s.tag (storeAddress sAddress)) (s.index (storeAddress sAddress)) (-1)
      = (s, -1, (p : Int))) :
    store s sAddress =
      { s with
        cycles := s.cycles + 100 * s.memoryMultiplier + 100 + 1
        smisses := s.smisses + 1
        cache := s.cache.modifySlot (s.index (storeAddress sAddress)) p fun sl =>
          { sl with tag := s.tag (storeAddress sAddress), dirty := false, valid := true,
                    access_ts := s.clock, load_ts := s.clock } } := by
  simp only [store, hr, writeMiss, neg_one_ne_blocks, writeAllocate_cond s hm,
    writeThrough_cond s hw, updateCache_natCast, Bool.false_eq_true, if_false, if_true]
  rfl

theorem store_of_full_writeBack (s : Simulator) (sAddress : Nat) (e : Int)
    (hm : s.missPolicy = WriteMissPolicy.WriteAllocate)
    (hw : s.writePolicy = WritePolicy.WriteBack)
    (hr : checkMem s (s.tag (storeAddress sAddress)) (s.index (storeAddress sAddress)) (-1)
      = (s, (s.blocks : Int), e)) :
    store s sAddress =
      { s with
        cycles := s.cycles + 100 * s.memoryMultiplier +
          (if (s.cache.slotAt (s.index (storeAddress sAddress))
                (evictBlockOf s (s.index (storeAddress sAddress)))).dirty = true
           then 100 * s.memoryMultiplier else 0) + 1
        smisses := s.smisses + 1
        cache := s.cache.modifySlot (s.index (storeAddress sAddress))
          (evictBlockOf s (s.index (storeAddress sAddress))) fun sl =>
          { sl with tag := s.tag (storeAddress sAddress), dirty := true, valid := true,
                    access_ts := s.clock, load_ts := s.clock } } := by
  simp only [store, hr, writeMiss, writeAllocate_cond s hm, writeBack_cond s hw,
    beq_self_eq_true, Bool.or_true, Bool.false_eq_true, if_false, if_true, evict_eq,
    updateCache_natCast]
  rfl

theorem store_of_full_writeThrough (s : Simulator) (sAddress : Nat) (e : Int)
    (hm : s.missPolicy = WriteMissPolicy.WriteAllocate)
    (hw : s.writePolicy = WritePolicy.WriteThrough)
    (hr : checkMem s (s.tag (storeAddress sAddress)) (s.index (storeAddress sAddress)) (-1)
      = (s, (s.blocks : Int), e)) :
    store s sAddress =
      { s with
        cycles := s.cycles + 100 * s.memoryMultiplier +
          (if (s.cache.slotAt (s.index (storeAddress sAddress))
                (evictBlockOf s (s.index (storeAddress sAddress)))).dirty = true
           then 100 * s.memoryMultiplier else 0) + 100 + 1
        smisses := s.smisses + 1
        cache := s.cache.modifySlot (s.index (storeAddress sAddress))
          (evictBlockOf s (s.index (storeAddress sAddress))) fun sl =>
          { sl with tag := s.tag (storeAddress sAddress), dirty := false, valid := true,
                    access_ts := s.clock, load_ts := s.clock } } := by
  simp only [store, hr, writeMiss, writeAllocate_cond s hm, writeThrough_cond s hw,
    beq_self_eq_true, Bool.or_true, Bool.false_eq_true, if_false, if_true, evict_eq,
    updateCache_natCast]
  rfl

theorem slotAt_eq_getD_slot? (c : Cache) (i j : Nat) :
    c.slotAt i j = (c.slot? i j).getD default := by
  unfold Cache.slotAt Cache.slot? Cache.setAt getSlot
  rw [List.getD_eq_getElem?_getD, List.getD_eq_getElem?_getD]
  cases c.sets[i]? with
  | none => rfl
  | some st => rfl

theorem slotAt_modifySlot_other (c : Cache) (index p : Nat) (f : Slot → Slot) (i j : Nat)
    (h : ¬ (i = index ∧ j = p)) :
    (c.modifySlot index p f).slotAt i j = c.slotAt i j := by
  rw [slotAt_eq_getD_slot?, slotAt_eq_getD_slot?, slot?_modifySlot_other c index p f i j h]

theorem slotAt_modifySlot_same (c : Cache) (index p : Nat) (f : Slot → Slot)
    (hidx : index < c.sets.length) (hp : p < (c.setAt index).slots.length) :
    (c.modifySlot index p f).slotAt index p = f (c.slotAt index p) := by
  rw [slotAt_eq_getD_slot?, slot?_modifySlot_same c index p f hidx hp]
  rfl

/-- Instance of C1: looking up tag `1` in the full set `0` reports slot `1`, which is valid,
holds the tag, and has no matching slot below it. -/
theorem checkMem_three_way_witness :
    (0 < (demoSim .WriteAllocate .WriteBack .FIFO).cache.sets.length ∧
      ((demoSim .WriteAllocate .WriteBack .FIFO).cache.setAt 0).slots.length
        = (demoSim .WriteAllocate .WriteBack .FIFO).blocks) ∧
    (((demoSim .WriteAllocate .WriteBack .FIFO).cache.slotAt 0 1).valid = true ∧
      ((demoSim .WriteAllocate .WriteBack .FIFO).cache.slotAt 0 1).tag = 1) ∧
    (checkMem (demoSim .WriteAllocate .WriteBack .FIFO) 1 0 (-1)).1
      = demoSim .WriteAllocate .WriteBack .FIFO := by
  have h := checkMem_three_way (demoSim .WriteAllocate .WriteBack .FIFO) 1 0 (-1)
    (by decide) (by decide)
  exact ⟨⟨by decide, by decide⟩, (h.2.1 1 (by decide) (by decide)).1, h.2.2.2.2.2.2.2.2.2⟩

/-- Instance of C2: in the full set `0` the least `access_ts` is at slot `0`. -/
theorem lru_selects_min_access_witness :
    (0 < (demoSim .WriteAllocate .WriteBack .LRU).cache.sets.length ∧
      ((demoSim .WriteAllocate .WriteBack .LRU).cache.setAt 0).slots.length
        = (demoSim .WriteAllocate .WriteBack .LRU).blocks ∧
      1 ≤ (demoSim .WriteAllocate .WriteBack .LRU).blocks ∧
      ∀ j, j < (demoSim .WriteAllocate .WriteBack .LRU).blocks →
        ((demoSim .WriteAllocate .WriteBack .LRU).cache.slotAt 0 j).valid = true) ∧
    ∃ p : Nat, (lru (demoSim .WriteAllocate .WriteBack .LRU) 0).2 = (p : Int) ∧
      p < (demoSim .WriteAllocate .WriteBack .LRU).blocks ∧
      (∀ j, j < (demoSim .WriteAllocate .WriteBack .LRU).blocks →
        ((demoSim .WriteAllocate .WriteBack .LRU).cache.slotAt 0 p).access_ts
          ≤ ((demoSim .WriteAllocate .WriteBack .LRU).cache.slotAt 0 j).access_ts) ∧
      (∀ j, j < p →
        ((demoSim .WriteAllocate .WriteBack .LRU).cache.slotAt 0 p).access_ts
          < ((demoSim .WriteAllocate .WriteBack .LRU).cache.slotAt 0 j).access_ts) :=
  ⟨⟨by decide, by decide, by decide, by decide⟩,
    lru_selects_min_access (demoSim .WriteAllocate .WriteBack .LRU) 0
      (by decide) (by decide) (by decide) (by decide)⟩

/-- Instance of C3: in the full set `0` the least `load_ts` is at slot `1`. -/
theorem fifo_selects_min_load_witness :
    (0 < (demoSim .WriteAllocate .WriteBack .FIFO).cache.sets.length ∧
      ((demoSim .WriteAllocate .WriteBack .FIFO).cache.setAt 0).slots.length
        = (demoSim .WriteAllocate .WriteBack .FIFO).blocks ∧
      1 ≤ (demoSim .WriteAllocate .WriteBack .FIFO).blocks ∧
      ∀ j, j < (demoSim .WriteAllocate .WriteBack .FIFO).blocks →
        ((demoSim .WriteAllocate .WriteBack .FIFO).cache.slotAt 0 j).valid = true) ∧
    ∃ p : Nat, (fifo (demoSim .WriteAllocate .WriteBack .FIFO) 0).2 = (p : Int) ∧
      p < (demoSim .WriteAllocate .WriteBack .FIFO).blocks ∧
      (∀ j, j < (demoSim .WriteAllocate .WriteBack .FIFO).blocks →
        ((demoSim .WriteAllocate .WriteBack .FIFO).cache.slotAt 0 p).load_ts
          ≤ ((demoSim .WriteAllocate .WriteBack .FIFO).cache.slotAt 0 j).load_ts) ∧
      (∀ j, j < p →
        ((demoSim .WriteAllocate .WriteBack .FIFO).cache.slotAt 0 p).load_ts
          < ((demoSim .WriteAllocate .WriteBack .FIFO).cache.slotAt 0 j).load_ts) :=
  ⟨⟨by decide, by decide, by decide, by decide⟩,
    (fifo_selects_min_load (demoSim .WriteAllocate .WriteBack .FIFO) 0
      (by decide) (by decide) (by decide) (by decide)).1⟩

theorem log2Fuel_eq_log (fuel : Nat) : ∀ n, n ≤ fuel → log2Fuel fuel n = Nat.log 2 n := by
  induction fuel with
  | zero =>
    intro n hn
    have : n = 0 := by omega
    subst this
    simp [log2Fuel]
  | succ fuel ih =>
    intro n hn
    by_cases h2 : 2 ≤ n
    · have hdiv : n / 2 ≤ fuel := by omega
      simp only [log2Fuel, h2, if_true, ih (n / 2) hdiv]
      exact (Nat.log_of_one_lt_of_le (by decide) h2).symm
    · simp only [log2Fuel, h2, if_false]
      exact (Nat.log_of_lt (by omega)).symm

theorem log2_eq_log (n : Nat) : log2 n = Nat.log 2 n :=
  log2Fuel_eq_log n n (le_refl n)

theorem log2_pow (k : Nat) : log2 (2 ^ k) = k := by
  rw [log2_eq_log]
  exact Nat.log_pow (by decide) k

theorem toUnsigned_toBinary (a : Nat) : toUnsigned (toBinary a) = a % 2 ^ 32 := by
  have hlt : a % 2 ^ 32 < 2 ^ 32 := Nat.mod_lt _ (by positivity)
  unfold toUnsigned toBinary
  dsimp only
  split
  · have h : ((a % 2 ^ 32 : Nat) : Int) % 2 ^ 32 = ((a % 2 ^ 32 : Nat) : Int) := by
      apply Int.emod_eq_of_lt
      · positivity
      · exact_mod_cast hlt
    rw [h]
    exact Int.toNat_ofNat _
  · have h : (((a % 2 ^ 32 : Nat) : Int) - 2 ^ 32) % 2 ^ 32 = ((a % 2 ^ 32 : Nat) : Int) := by
      rw [Int.sub_emod, Int.emod_self, sub_zero, Int.emod_emod_of_dvd _ (dvd_refl _)]
      apply Int.emod_eq_of_lt
      · positivity
      · exact_mod_cast hlt
    rw [h]
    exact Int.toNat_ofNat _

theorem loadAddress_eq (a : Nat) : loadAddress a = a % 2 ^ 32 :=
  toUnsigned_toBinary a

theorem indexMask_eq (s : Simulator) (i : Nat) (hsets : s.sets = 2 ^ i) (hi : i ≤ 32) :
    s.indexMask = 2 ^ i - 1 := by
  have hpos : 1 ≤ 2 ^ i := Nat.one_le_two_pow
  have hle : 2 ^ i ≤ 2 ^ 32 := Nat.pow_le_pow_right (by decide) hi
  unfold Simulator.indexMask Simulator.indexBits toUnsigned
  rw [hsets, log2_pow, Nat.shiftLeft_eq, one_mul]
  have hcast : ((2 ^ i : Nat) : Int) - 1 = ((2 ^ i - 1 : Nat) : Int) := by
    rw [Nat.cast_sub hpos]; rfl
  rw [hcast]
  have h : ((2 ^ i - 1 : Nat) : Int) % 2 ^ 32 = ((2 ^ i - 1 : Nat) : Int) := by
    apply Int.emod_eq_of_lt
    · positivity
    · have : 2 ^ i - 1 < 2 ^ 32 := by omega
      exact_mod_cast this
  rw [h]
  exact Int.toNat_ofNat _

theorem index_eq (s : Simulator) (o i a : Nat) (hsize : s.size = 2 ^ o) (hsets : s.sets = 2 ^ i)
    (hi : i ≤ 32) : s.index a = (a / s.size) % s.sets := by
  unfold Simulator.index Simulator.offsetBits
  rw [indexMask_eq s i hsets hi, hsize, hsets, log2_pow, Nat.shiftRight_eq_div_pow,
    Nat.and_pow_two_sub_one_eq_mod]

theorem index_lt_sets (s : Simulator) (o i a : Nat) (hsize : s.size = 2 ^ o)
    (hsets : s.sets = 2 ^ i) (hi : i ≤ 32) : s.index a < s.sets := by
  rw [index_eq s o i a hsize hsets hi]
  apply Nat.mod_lt
  rw [hsets]
  positivity

theorem tag_eq (s : Simulator) (o i a : Nat) (hsize : s.size = 2 ^ o) (hsets : s.sets = 2 ^ i) :
    s.tag a = a / (s.size * s.sets) := by
  unfold Simulator.tag Simulator.offsetBits Simulator.indexBits
  rw [hsize, hsets, log2_pow, log2_pow, Nat.shiftRight_eq_div_pow, pow_add]

/-! ## C11: address decoding -/

/-- C11. For a 32-bit address `a` and a geometry with `size = 2 ^ o`, `sets = 2 ^ i` and
`o + i < 32`, the address that `load` and `store` decode is `a` itself, the decoded index is
`(a >> o) & (2 ^ i - 1) = (a / size) mod sets`, the decoded tag is
`a >> (o + i) = a / (size * sets)`; hence the index is below `sets` (so on a grid of `sets` sets
the guard at the top of `checkMem` does not fire and `checkMem` runs its scan), it is `0` when
`sets = 1`, and `tag * size * sets + index * size + a mod size = a`. -/
theorem address_decoding (s : Simulator) (o i a : Nat)
    (hsize : s.size = 2 ^ o) (hsets : s.sets = 2 ^ i) (hoi : o + i < 32) (ha : a < 2 ^ 32) :
    loadAddress a = a ∧ storeAddress a = a ∧
    s.index a = (a >>> o) &&& (2 ^ i - 1) ∧
    s.tag a = a >>> (o + i) ∧
    s.index a = (a / s.size) % s.sets ∧
    s.tag a = a / (s.size * s.sets) ∧
    s.index a < s.sets ∧
    (s.sets = 1 → s.index a = 0) ∧
    s.tag a * s.size * s.sets + s.index a * s.size + a % s.size = a ∧
    (s.cache.sets.length = s.sets → ∀ (tag : Nat) (e : Int),
      checkMem s tag (s.index a) e =
        (s, checkMemLoop (s.cache.setAt (s.index a)).slots tag s.blocks s.blocks 0 e 0)) := by
  have hi : i ≤ 32 := by omega
  have hidx := index_eq s o i a hsize hsets hi
  have htag := tag_eq s o i a hsize hsets
  have hlt := index_lt_sets s o i a hsize hsets hi
  refine ⟨?_, ?_, ?_, ?_, hidx, htag, hlt, ?_, ?_, ?_⟩
  · rw [loadAddress_eq]; exact Nat.mod_eq_of_lt ha
  · exact Nat.mod_eq_of_lt ha
  · rw [hidx, hsize, hsets, Nat.shiftRight_eq_div_pow, Nat.and_pow_two_sub_one_eq_mod]
  · rw [htag, hsize, hsets, Nat.shiftRight_eq_div_pow, pow_add]
  · intro h1
    rw [h1] at hlt
    omega
  · rw [hidx, htag, ← Nat.div_div_eq_div_mul]
    have h1 := Nat.div_add_mod (a / s.size) s.sets
    have h2 := Nat.div_add_mod a s.size
    calc a / s.size / s.sets * s.size * s.sets + a / s.size % s.sets * s.size + a % s.size
        = s.size * (s.sets * (a / s.size / s.sets) + a / s.size % s.sets) + a % s.size := by ring
      _ = a := by rw [h1, h2]
  · intro hgrid tag e
    have hnot : ¬ s.index a ≥ s.cache.sets.length := by rw [hgrid]; omega
    simp only [checkMem, hnot, if_false]

/-- Instance of C11: address `0x60` in the two-set cache with 16-byte blocks decodes to index
`0` and tag `3`. -/
theorem address_decoding_witness :
    ((demoSim .WriteAllocate .WriteBack .FIFO).size = 2 ^ 4 ∧
      (demoSim .WriteAllocate .WriteBack .FIFO).sets = 2 ^ 1 ∧ 4 + 1 < 32 ∧
      0x60 < 2 ^ 32) ∧
    (demoSim .WriteAllocate .WriteBack .FIFO).index 0x60
      = (0x60 / (demoSim .WriteAllocate .WriteBack .FIFO).size)
        % (demoSim .WriteAllocate .WriteBack .FIFO).sets ∧
    (demoSim .WriteAllocate .WriteBack .FIFO).tag 0x60
      = 0x60 / ((demoSim .WriteAllocate .WriteBack .FIFO).size
        * (demoSim .WriteAllocate .WriteBack .FIFO).sets) := by
  have h := address_decoding (demoSim .WriteAllocate .WriteBack .FIFO) 4 1 0x60
    (by decide) (by decide) (by decide) (by decide)
  exact ⟨⟨by decide, by decide, by decide, by decide⟩, h.2.2.2.2.1, h.2.2.2.2.2.1⟩

/-! ## C12: the end-to-end LRU scenario -/

/-- C12. With `sets = 1`, `blocks = 2`, `size = 4`, write-allocate, write-through and LRU, the
trace `l 0`, `l 4`, `l 8` replayed from the fresh cache returns `0` with `loads = 3`,
`stores = 0`, `lhits = 0`, `lmisses = 3`, `shits = 0`, `smisses = 0`, `cycles = 300`. Before
the third load the set is full, with tag `1` in slot `0` and tag `0` (address `0`) in slot `1`;
`evict` selects slot `1`, and after the third load the set holds exactly tags `1` and `2`. -/
theorem end_to_end_lru_scenario :
    (simulate (Simulator.new 1 2 4 .WriteAllocate .WriteThrough .LRU)
      [⟨"l", 0x0⟩, ⟨"l", 0x4⟩, ⟨"l", 0x8⟩]).1 = 0 ∧
    (simulate (Simulator.new 1 2 4 .WriteAllocate .WriteThrough .LRU)
      [⟨"l", 0x0⟩, ⟨"l", 0x4⟩, ⟨"l", 0x8⟩]).2.loads = 3 ∧
    (simulate (Simulator.new 1 2 4 .WriteAllocate .WriteThrough .LRU)
      [⟨"l", 0x0⟩, ⟨"l", 0x4⟩, ⟨"l", 0x8⟩]).2.stores = 0 ∧
    (simulate (Simulator.new 1 2 4 .WriteAllocate .WriteThrough .LRU)
      [⟨"l", 0x0⟩, ⟨"l", 0x4⟩, ⟨"l", 0x8⟩]).2.lhits = 0 ∧
    (simulate (Simulator.new 1 2 4 .WriteAllocate .WriteThrough .LRU)
      [⟨"l", 0x0⟩, ⟨"l", 0x4⟩, ⟨"l", 0x8⟩]).2.lmisses = 3 ∧
    (simulate (Simulator.new 1 2 4 .WriteAllocate .WriteThrough .LRU)
      [⟨"l", 0x0⟩, ⟨"l", 0x4⟩, ⟨"l", 0x8⟩]).2.shits = 0 ∧
    (simulate (Simulator.new 1 2 4 .WriteAllocate .WriteThrough .LRU)
      [⟨"l", 0x0⟩, ⟨"l", 0x4⟩, ⟨"l", 0x8⟩]).2.smisses = 0 ∧
    (simulate (Simulator.new 1 2 4 .WriteAllocate .WriteThrough .LRU)
      [⟨"l", 0x0⟩, ⟨"l", 0x4⟩, ⟨"l", 0x8⟩]).2.cycles = 300 ∧
    (Simulator.new 1 2 4 .WriteAllocate .WriteThrough .LRU).tag (loadAddress 0x0) = 0 ∧
    (Simulator.new 1 2 4 .WriteAllocate .WriteThrough .LRU).index (loadAddress 0x8) = 0 ∧
    (simulate (Simulator.new 1 2 4 .WriteAllocate .WriteThrough .LRU)
      [⟨"l", 0x0⟩, ⟨"l", 0x4⟩]).2.cache
      = ⟨[⟨[⟨true, false, 1, 0, 1, 1⟩, ⟨true, false, 0, 0, 0, 0⟩]⟩]⟩ ∧
    (evict (simulate (Simulator.new 1 2 4 .WriteAllocate .WriteThrough .LRU)
      [⟨"l", 0x0⟩, ⟨"l", 0x4⟩]).2 0).2 = 1 ∧
    (simulate (Simulator.new 1 2 4 .WriteAllocate .WriteThrough .LRU)
      [⟨"l", 0x0⟩, ⟨"l", 0x4⟩, ⟨"l", 0x8⟩]).2.cache
      = ⟨[⟨[⟨true, false, 1, 0, 1, 1⟩, ⟨true, false, 2, 0, 2, 2⟩]⟩]⟩ := by
  decide

/-! ## C15: the incompatible policy pair -/

/-- C15. `convertWritePolicy` returns `false` for `write-back` with `no-write-allocate`,
returns `true` and sets `WriteBack` for `write-back` with any other miss string, returns `true`
and sets `WriteThrough` for `write-through`, and returns `false` for every other write string;
and `main` returns `1` for the pair `write-back`, `no-write-allocate` without constructing the
simulator, whatever the other arguments and the trace are. -/
theorem convertWritePolicy_rejects_pair :
    (∀ wp : WritePolicy,
      (convertWritePolicy "write-back" "no-write-allocate" wp).1 = false) ∧
    (∀ (miss : String) (wp : WritePolicy), miss ≠ "no-write-allocate" →
      convertWritePolicy "write-back" miss wp = (true, WritePolicy.WriteBack)) ∧
    (∀ (miss : String) (wp : WritePolicy),
      convertWritePolicy "write-through" miss wp = (true, WritePolicy.WriteThrough)) ∧
    (∀ (write miss : String) (wp : WritePolicy),
      write ≠ "write-back" → write ≠ "write-through" →
      (convertWritePolicy write miss wp).1 = false) ∧
    (∀ (argc sets blocks size : Int) (eviction : String) (lines : List Line),
      main argc sets blocks size "no-write-allocate" "write-back" eviction lines
        = (1, none)) := by
  refine ⟨?_, ?_, ?_, ?_, ?_⟩
  · intro wp
    rfl
  · intro miss wp h
    simp [convertWritePolicy, h]
  · intro miss wp
    simp [convertWritePolicy]
  · intro write miss wp h1 h2
    simp [convertWritePolicy, h1, h2]
  · intro argc sets blocks size eviction lines
    unfold main
    split
    · rfl
    · split
      · rfl
      · rfl

/-! ## Lemmas on `isPowerOfTwo` -/

theorem land_pred_eq_zero (n : Nat) : 0 < n → n &&& (n - 1) = 0 → ∃ k, n = 2 ^ k := by
  induction n using Nat.strong_induction_on with
  | _ n ih =>
    intro hpos h
    rcases Nat.even_or_odd' n with ⟨m, hm | hm⟩
    · have hmpos : 0 < m := by omega
      have h1 : n = Nat.bit false m := by rw [Nat.bit_val]; simp [hm]
      have h2 : n - 1 = Nat.bit true (m - 1) := by rw [Nat.bit_val]; simp; omega
      rw [h2] at h
      rw [h1, Nat.land_bit] at h
      have h3 := (Nat.bit_eq_zero_iff.mp h).1
      obtain ⟨k, hk⟩ := ih m (by omega) hmpos h3
      exact ⟨k + 1, by rw [hm, hk, pow_succ]; ring⟩
    · have h1 : n = Nat.bit true m := by rw [Nat.bit_val]; simp [hm]
      have h2 : n - 1 = Nat.bit false m := by rw [Nat.bit_val]; simp; omega
      rw [h2] at h
      rw [h1, Nat.land_bit] at h
      have h3 := (Nat.bit_eq_zero_iff.mp h).1
      have hm0 : m = 0 := by
        have : m &&& m = m := Nat.and_self m
        rw [this] at h3
        exact h3
      exact ⟨0, by rw [hm, hm0]; rfl⟩

theorem pow_land_pred (k : Nat) : (2 ^ k) &&& (2 ^ k - 1) = 0 := by
  rw [Nat.and_pow_two_sub_one_eq_mod]
  exact Nat.mod_self _

theorem isPowerOfTwo_natCast (n : Nat) (hn : 0 < n) :
    isPowerOfTwo (n : Int) = true ↔ ∃ k, n = 2 ^ k := by
  have hcast : ((n : Int) - 1) = ((n - 1 : Nat) : Int) := by
    rw [Nat.cast_sub hn]; rfl
  have hland : Int.land (n : Int) ((n : Int) - 1) = ((n &&& (n - 1) : Nat) : Int) := by
    rw [hcast]; rfl
  have hne : (n : Int) ≠ 0 := by exact_mod_cast (Nat.pos_iff_ne_zero.mp hn)
  unfold isPowerOfTwo
  rw [hland]
  constructor
  · intro h
    have h0 : n &&& (n - 1) = 0 := by
      simp only [Bool.and_eq_true, bne_iff_ne, ne_eq, Bool.not_eq_true', bne_eq_false_iff_eq]
        at h
      exact_mod_cast h.2
    exact land_pred_eq_zero n hn h0
  · rintro ⟨k, hk⟩
    have h0 : n &&& (n - 1) = 0 := by rw [hk]; exact pow_land_pred k
    rw [h0]
    simp [hne]

theorem parseInputParameters_iff (sets blocks size : Int) :
    parseInputParameters sets blocks size = true ↔
      4 ≤ size ∧ isPowerOfTwo size = true ∧ isPowerOfTwo sets = true ∧ 0 < sets ∧
      0 < blocks := by
  unfold parseInputParameters
  constructor
  · intro h
    split_ifs at h with a b c d
    simp only [Bool.not_eq_true', Bool.not_eq_false, Bool.or_eq_true, decide_eq_true_eq,
      not_or] at b c
    exact ⟨by omega, b, c.1, by omega, by omega⟩
  · rintro ⟨h1, h2, h3, h4, h5⟩
    have a : ¬ size < 4 := by omega
    have c : ¬ sets ≤ 0 := by omega
    have d : ¬ blocks ≤ 0 := by omega
    simp [a, h2, h3, c, d]

/-! ## C16: the shift amounts of a validated geometry -/

/-- C16. `parseInputParameters` lets through a geometry on which the shift of `load` and
`store` is undefined: `sets = 65536`, `blocks = 1`, `size = 65536` passes the validation (and
`main` runs the empty trace on it to exit status `0`), yet `offsetBits + indexBits = 32`, which
is not below the `32` bits of the shifted `unsigned int`. The validation checks `size` and
`sets` one by one and never their product. -/
theorem validated_geometry_shift_counterexample :
    parseInputParameters 65536 1 65536 = true ∧
    (main 7 65536 1 65536 "write-allocate" "write-through" "lru" []).1 = 0 ∧
    (Simulator.new 65536 1 65536 .WriteAllocate .WriteThrough .LRU).offsetBits
      + (Simulator.new 65536 1 65536 .WriteAllocate .WriteThrough .LRU).indexBits = 32 ∧
    ¬ ((Simulator.new 65536 1 65536 .WriteAllocate .WriteThrough .LRU).offsetBits
      + (Simulator.new 65536 1 65536 .WriteAllocate .WriteThrough .LRU).indexBits < 32) := by
  decide

/-- What the validation does give. For every `int` triple accepted by `parseInputParameters`,
the simulator built from it has `size = 2 ^ offsetBits`, `sets = 2 ^ indexBits`, `blocks ≥ 1`,
`2 ≤ offsetBits < 31` and `indexBits < 31`, so the shifts by `offsetBits` and by `indexBits`
are defined; the sum `offsetBits + indexBits` is below `32` exactly when
`size * sets < 2 ^ 32`. -/
theorem validated_geometry_shift_bounds (s : Simulator) (sets blocks size : Int)
    (hsets : sets < 2 ^ 31) (hsize : size < 2 ^ 31)
    (hs1 : (s.sets : Int) = sets) (hs2 : (s.size : Int) = size)
    (hs3 : (s.blocks : Int) = blocks)
    (hacc : parseInputParameters sets blocks size = true) :
    s.size = 2 ^ s.offsetBits ∧ s.sets = 2 ^ s.indexBits ∧ 1 ≤ s.blocks ∧
    2 ≤ s.offsetBits ∧ s.offsetBits < 31 ∧ s.indexBits < 31 ∧
    (s.offsetBits + s.indexBits < 32 ↔ s.size * s.sets < 2 ^ 32) := by
  obtain ⟨h4, hp1, hp2, hpos, hb⟩ := (parseInputParameters_iff sets blocks size).mp hacc
  rw [← hs2] at h4 hp1 hsize
  rw [← hs1] at hp2 hpos hsets
  rw [← hs3] at hb
  have hsz4 : 4 ≤ s.size := by exact_mod_cast h4
  have hst0 : 0 < s.sets := by exact_mod_cast hpos
  have hszlt : s.size < 2 ^ 31 := by exact_mod_cast hsize
  have hstlt : s.sets < 2 ^ 31 := by exact_mod_cast hsets
  obtain ⟨o, ho⟩ := (isPowerOfTwo_natCast s.size (by omega)).mp hp1
  obtain ⟨i, hi⟩ := (isPowerOfTwo_natCast s.sets hst0).mp hp2
  have hob : s.offsetBits = o := by unfold Simulator.offsetBits; rw [ho, log2_pow]
  have hib : s.indexBits = i := by unfold Simulator.indexBits; rw [hi, log2_pow]
  rw [hob, hib]
  have ho31 : o < 31 := by
    rw [ho] at hszlt
    exact (Nat.pow_lt_pow_iff_right (by decide)).mp hszlt
  have hi31 : i < 31 := by
    rw [hi] at hstlt
    exact (Nat.pow_lt_pow_iff_right (by decide)).mp hstlt
  have ho2 : 2 ≤ o := by
    rw [ho] at hsz4
    by_contra hlt
    have : o = 0 ∨ o = 1 := by omega
    rcases this with h | h <;> rw [h] at hsz4 <;> omega
  refine ⟨ho, hi, by exact_mod_cast hb, ho2, ho31, hi31, ?_⟩
  rw [ho, hi, ← pow_add]
  exact (Nat.pow_lt_pow_iff_right (by decide)).symm

/-- The shift bounds at the geometry `sets = 2`, `blocks = 2`, `size = 16`. -/
theorem validated_geometry_shift_bounds_witness :
    (((2 : Int) < 2 ^ 31 ∧ (16 : Int) < 2 ^ 31) ∧
      parseInputParameters 2 2 16 = true) ∧
    (demoSim .WriteAllocate .WriteBack .FIFO).offsetBits < 31 ∧
    (demoSim .WriteAllocate .WriteBack .FIFO).indexBits < 31 := by
  have h := validated_geometry_shift_bounds (demoSim .WriteAllocate .WriteBack .FIFO) 2 2 16
    (by decide) (by decide) (by decide) (by decide) (by decide) (by decide)
  exact ⟨⟨⟨by decide, by decide⟩, by decide⟩, h.2.2.2.2.1, h.2.2.2.2.2.1⟩

/-! ## One operation as a single-slot update -/

theorem writePolicy_cases (w : WritePolicy) :
    w = WritePolicy.WriteBack ∨ w = WritePolicy.WriteThrough := by
  cases w
  · exact Or.inr rfl
  · exact Or.inl rfl

theorem missPolicy_cases (m : WriteMissPolicy) :
    m = WriteMissPolicy.WriteAllocate ∨ m = WriteMissPolicy.NoWriteAllocate := by
  cases m
  · exact Or.inl rfl
  · exact Or.inr rfl

theorem load_step (s : Simulator) (sAddress : Nat)
    (hidx : s.index (loadAddress sAddress) < s.cache.sets.length)
    (hb : 1 ≤ s.blocks) :
    ((load s sAddress).sets = s.sets ∧ (load s sAddress).blocks = s.blocks ∧
      (load s sAddress).size = s.size ∧ (load s sAddress).missPolicy = s.missPolicy ∧
      (load s sAddress).writePolicy = s.writePolicy ∧
      (load s sAddress).evictionPolicy = s.evictionPolicy ∧
      (load s sAddress).memoryMultiplier = s.memoryMultiplier ∧
      (load s sAddress).loads = s.loads ∧ (load s sAddress).stores = s.stores) ∧
    ∃ (p : Nat) (new : Slot), p < s.blocks ∧
      (load s sAddress).cache
        = s.cache.modifySlot (s.index (loadAddress sAddress)) p (fun _ => new) ∧
      StepSlot s (s.index (loadAddress sAddress)) (s.tag (loadAddress sAddress)) p new := by
  rcases checkMem_cases s (s.tag (loadAddress sAddress)) (s.index (loadAddress sAddress)) (-1)
    hidx with ⟨p, hp, hm, _, hr⟩ | ⟨hnm, p, hp, hv, _, hr⟩ | ⟨hnm, hall, hr⟩
  · rw [load_of_hit s sAddress p hp hr]
    exact ⟨⟨rfl, rfl, rfl, rfl, rfl, rfl, rfl, rfl, rfl⟩, ⟨p,
      { s.cache.slotAt (s.index (loadAddress sAddress)) p with access_ts := s.clock },
      hp, rfl, hm.1, hm.2, rfl, fun h => Or.inl h, Or.inl ⟨hm.1, hm.2, rfl⟩⟩⟩
  · rw [load_of_space s sAddress p hr]
    exact ⟨⟨rfl, rfl, rfl, rfl, rfl, rfl, rfl, rfl, rfl⟩, ⟨p,
      { s.cache.slotAt (s.index (loadAddress sAddress)) p with
        tag := s.tag (loadAddress sAddress), dirty := false, valid := true,
        access_ts := s.clock, load_ts := s.clock },
      hp, rfl, rfl, rfl, rfl, fun h => absurd h Bool.false_ne_true, Or.inr ⟨hnm, rfl, Or.inl hv⟩⟩⟩
  · rw [load_of_full s sAddress (-1) hr]
    exact ⟨⟨rfl, rfl, rfl, rfl, rfl, rfl, rfl, rfl, rfl⟩,
      ⟨evictBlockOf s (s.index (loadAddress sAddress)),
      { s.cache.slotAt (s.index (loadAddress sAddress))
          (evictBlockOf s (s.index (loadAddress sAddress))) with
        tag := s.tag (loadAddress sAddress), dirty := false, valid := true,
        access_ts := s.clock, load_ts := s.clock },
      evictBlockOf_lt s _ hb, rfl, rfl, rfl, rfl, fun h => absurd h Bool.false_ne_true,
      Or.inr ⟨hnm, rfl, Or.inr hall⟩⟩⟩

theorem load_opStep (s : Simulator) (sAddress : Nat)
    (hidx : s.index (loadAddress sAddress) < s.cache.sets.length)
    (hb : 1 ≤ s.blocks) :
    OpStep s (load s sAddress) (s.index (loadAddress sAddress))
      (s.tag (loadAddress sAddress)) := by
  obtain ⟨⟨h1, h2, h3, h4, h5, h6, h7, h8, h9⟩, hmod⟩ := load_step s sAddress hidx hb
  exact ⟨h1, h2, h3, h4, h5, h6, h7, h8, h9, Or.inr hmod⟩

theorem store_opStep (s : Simulator) (sAddress : Nat)
    (hidx : s.index (storeAddress sAddress) < s.cache.sets.length)
    (hlen : (s.cache.setAt (s.index (storeAddress sAddress))).slots.length = s.blocks)
    (hb : 1 ≤ s.blocks) :
    OpStep s (store s sAddress) (s.index (storeAddress sAddress))
      (s.tag (storeAddress sAddress)) := by
  rcases checkMem_cases s (s.tag (storeAddress sAddress)) (s.index (storeAddress sAddress))
    (-1) hidx with ⟨p, hp, hm, _, hr⟩ | ⟨hnm, p, hp, hv, _, hr⟩ | ⟨hnm, hall, hr⟩
  · rcases writePolicy_cases s.writePolicy with hw | hw
    · rw [store_of_hit_writeBack s sAddress p hp hidx hlen hw hr]
      exact ⟨rfl, rfl, rfl, rfl, rfl, rfl, rfl, rfl, rfl, Or.inr ⟨p,
        { s.cache.slotAt (s.index (storeAddress sAddress)) p with
          access_ts := s.clock, dirty := true },
        hp, rfl, hm.1, hm.2, rfl, fun _ => Or.inr hw, Or.inl ⟨hm.1, hm.2, rfl⟩⟩⟩
    · rw [store_of_hit_writeThrough s sAddress p hp hw hr]
      exact ⟨rfl, rfl, rfl, rfl, rfl, rfl, rfl, rfl, rfl, Or.inr ⟨p,
        { s.cache.slotAt (s.index (storeAddress sAddress)) p with access_ts := s.clock },
        hp, rfl, hm.1, hm.2, rfl, fun h => Or.inl h, Or.inl ⟨hm.1, hm.2, rfl⟩⟩⟩
  · rcases missPolicy_cases s.missPolicy with hmp | hmp
    · rcases writePolicy_cases s.writePolicy with hw | hw
      · rw [store_of_space_writeBack s sAddress p hmp hw hr]
        exact ⟨rfl, rfl, rfl, rfl, rfl, rfl, rfl, rfl, rfl, Or.inr ⟨p,
          { s.cache.slotAt (s.index (storeAddress sAddress)) p with
            tag := s.tag (storeAddress sAddress), dirty := true, valid := true,
            access_ts := s.clock, load_ts := s.clock },
          hp, rfl, rfl, rfl, rfl, fun _ => Or.inr hw, Or.inr ⟨hnm, rfl, Or.inl hv⟩⟩⟩
      · rw [store_of_space_writeThrough s sAddress p hmp hw hr]
        exact ⟨rfl, rfl, rfl, rfl, rfl, rfl, rfl, rfl, rfl, Or.inr ⟨p,
          { s.cache.slotAt (s.index (storeAddress sAddress)) p with
            tag := s.tag (storeAddress sAddress), dirty := false, valid := true,
            access_ts := s.clock, load_ts := s.clock },
          hp, rfl, rfl, rfl, rfl, fun h => absurd h Bool.false_ne_true,
          Or.inr ⟨hnm, rfl, Or.inl hv⟩⟩⟩
    · rw [store_of_miss_noWriteAllocate s sAddress (-1) p hmp (Or.inl rfl) hr]
      exact ⟨rfl, rfl, rfl, rfl, rfl, rfl, rfl, rfl, rfl, Or.inl ⟨rfl, hmp, hnm⟩⟩
  · rcases missPolicy_cases s.missPolicy with hmp | hmp
    · rcases writePolicy_cases s.writePolicy with hw | hw
      · rw [store_of_full_writeBack s sAddress (-1) hmp hw hr]
        exact ⟨rfl, rfl, rfl, rfl, rfl, rfl, rfl, rfl, rfl, Or.inr
          ⟨evictBlockOf s (s.index (storeAddress sAddress)),
          { s.cache.slotAt (s.index (storeAddress sAddress))
              (evictBlockOf s (s.index (storeAddress sAddress))) with
            tag := s.tag (storeAddress sAddress), dirty := true, valid := true,
            access_ts := s.clock, load_ts := s.clock },
          evictBlockOf_lt s _ hb, rfl, rfl, rfl, rfl, fun _ => Or.inr hw,
          Or.inr ⟨hnm, rfl, Or.inr hall⟩⟩⟩
      · rw [store_of_full_writeThrough s sAddress (-1) hmp hw hr]
        exact ⟨rfl, rfl, rfl, rfl, rfl, rfl, rfl, rfl, rfl, Or.inr
          ⟨evictBlockOf s (s.index (storeAddress sAddress)),
          { s.cache.slotAt (s.index (storeAddress sAddress))
              (evictBlockOf s (s.index (storeAddress sAddress))) with
            tag := s.tag (storeAddress sAddress), dirty := false, valid := true,
            access_ts := s.clock, load_ts := s.clock },
          evictBlockOf_lt s _ hb, rfl, rfl, rfl, rfl, fun h => absurd h Bool.false_ne_true,
          Or.inr ⟨hnm, rfl, Or.inr hall⟩⟩⟩
    · rw [store_of_miss_noWriteAllocate s sAddress s.blocks (-1) hmp (Or.inr rfl) hr]
      exact ⟨rfl, rfl, rfl, rfl, rfl, rfl, rfl, rfl, rfl, Or.inl ⟨rfl, hmp, hnm⟩⟩

/-! ## Well-formedness is an invariant of `simulate` -/

theorem modifySlot_sets_length (c : Cache) (index p : Nat) (f : Slot → Slot) :
    (c.modifySlot index p f).sets.length = c.sets.length := by
  simp [Cache.modifySlot]

theorem modifySlot_setAt_length (c : Cache) (index p : Nat) (f : Slot → Slot) (k : Nat) :
    ((c.modifySlot index p f).setAt k).slots.length = (c.setAt k).slots.length := by
  unfold Cache.modifySlot Cache.setAt
  rw [List.getD_eq_getElem?_getD, List.getD_eq_getElem?_getD, List.getElem?_set]
  by_cases hk : index = k
  · subst hk
    by_cases hlen : index < c.sets.length
    · simp [hlen, List.getElem?_eq_getElem hlen]
    · simp [hlen, List.getElem?_eq_none (Nat.le_of_not_lt hlen)]
  · simp [hk]

theorem wellFormed_index_lt (s : Simulator) (hwf : s.WellFormed) (a : Nat) :
    s.index a < s.cache.sets.length := by
  obtain ⟨⟨hg, _⟩, ⟨o, i, ho, hi, hi32⟩, _, _⟩ := hwf
  rw [hg]
  exact index_lt_sets s o i a ho hi hi32

theorem wellFormed_slots_length (s : Simulator) (hwf : s.WellFormed) (a : Nat) :
    (s.cache.setAt (s.index a)).slots.length = s.blocks := by
  have hlt := wellFormed_index_lt s hwf a
  obtain ⟨⟨hg, hs⟩, _, _, _⟩ := hwf
  exact hs _ (by rw [← hg]; exact hlt)

theorem wellFormed_of_opStep (s s' : Simulator) (index tag : Nat) (hwf : s.WellFormed)
    (hstep : OpStep s s' index tag) : s'.WellFormed := by
  obtain ⟨⟨hg, hs⟩, ⟨o, i, ho, hi, hi32⟩, hb, hmm⟩ := hwf
  obtain ⟨h1, h2, h3, _, _, _, h7, _, _, hc⟩ := hstep
  refine ⟨?_, ⟨o, i, by rw [h3]; exact ho, by rw [h1]; exact hi, hi32⟩, by rw [h2]; exact hb,
    by rw [h7, h3]; exact hmm⟩
  rcases hc with ⟨hc, _, _⟩ | ⟨p, new, _, hc, _⟩
  · exact ⟨by rw [hc, h1]; exact hg, fun k hk => by rw [hc, h2]; exact hs k (by rw [← h1]; exact hk)⟩
  · refine ⟨by rw [hc, modifySlot_sets_length, h1]; exact hg, fun k hk => ?_⟩
    rw [hc, modifySlot_setAt_length, h2]
    exact hs k (by rw [← h1]; exact hk)

theorem simulate_invariant (P : Simulator → Prop)
    (hload : ∀ s a, P s → P { load s a with loads := ((load s a).loads + 1) % 2 ^ 32 })
    (hstore : ∀ s a, P s → P { store s a with stores := ((store s a).stores + 1) % 2 ^ 32 }) :
    ∀ (lines : List Line) (s : Simulator), P s → P (simulate s lines).2 := by
  intro lines
  induction lines with
  | nil => intro s hs; exact hs
  | cons line rest ih =>
    intro s hs
    unfold simulate
    split
    · exact ih _ (hload s line.address hs)
    · split
      · exact ih _ (hstore s line.address hs)
      · exact hs

/-- Everything that stays fixed along a run: well-formedness and the configuration of the
starting state. -/
theorem simulate_keeps_config (s0 : Simulator) (hwf : s0.WellFormed) (lines : List Line) :
    (simulate s0 lines).2.WellFormed ∧
    (simulate s0 lines).2.sets = s0.sets ∧ (simulate s0 lines).2.blocks = s0.blocks ∧
    (simulate s0 lines).2.size = s0.size ∧
    (simulate s0 lines).2.missPolicy = s0.missPolicy ∧
    (simulate s0 lines).2.writePolicy = s0.writePolicy ∧
    (simulate s0 lines).2.evictionPolicy = s0.evictionPolicy := by
  apply simulate_invariant (fun s => s.WellFormed ∧ s.sets = s0.sets ∧ s.blocks = s0.blocks ∧
    s.size = s0.size ∧ s.missPolicy = s0.missPolicy ∧ s.writePolicy = s0.writePolicy ∧
    s.evictionPolicy = s0.evictionPolicy)
  · intro s a ⟨hw, h1, h2, h3, h4, h5, h6⟩
    have hstep := load_opStep s a (wellFormed_index_lt s hw _) hw.2.2.1
    have hw' := wellFormed_of_opStep s _ _ _ hw hstep
    obtain ⟨e1, e2, e3, e4, e5, e6, _⟩ := hstep
    exact ⟨hw', e1.trans h1, e2.trans h2, e3.trans h3, e4.trans h4, e5.trans h5, e6.trans h6⟩
  · intro s a ⟨hw, h1, h2, h3, h4, h5, h6⟩
    have hstep := store_opStep s a (wellFormed_index_lt s hw _)
      (wellFormed_slots_length s hw _) hw.2.2.1
    have hw' := wellFormed_of_opStep s _ _ _ hw hstep
    obtain ⟨e1, e2, e3, e4, e5, e6, _⟩ := hstep
    exact ⟨hw', e1.trans h1, e2.trans h2, e3.trans h3, e4.trans h4, e5.trans h5, e6.trans h6⟩
  · exact ⟨hwf, rfl, rfl, rfl, rfl, rfl, rfl⟩

theorem validGeometry_pow (sets blocks size : Nat) (h : ValidGeometry sets blocks size) :
    (∃ o i, size = 2 ^ o ∧ sets = 2 ^ i ∧ i ≤ 32) ∧ 1 ≤ blocks := by
  obtain ⟨hacc, hsets, _, _⟩ := h
  obtain ⟨h4, hp1, hp2, hpos, hb⟩ := (parseInputParameters_iff _ _ _).mp hacc
  have hsz : 0 < size := by
    have : (4 : Int) ≤ (size : Int) := h4
    omega
  have hst : 0 < sets := by exact_mod_cast hpos
  obtain ⟨o, ho⟩ := (isPowerOfTwo_natCast size hsz).mp hp1
  obtain ⟨i, hi⟩ := (isPowerOfTwo_natCast sets hst).mp hp2
  have hi31 : i < 31 := by
    rw [hi] at hsets
    exact (Nat.pow_lt_pow_iff_right (by decide)).mp hsets
  exact ⟨⟨o, i, ho, hi, by omega⟩, by exact_mod_cast hb⟩

theorem new_wellFormed (sets blocks size : Nat) (miss : WriteMissPolicy) (write : WritePolicy)
    (eviction : EvictionPolicy) (h : ValidGeometry sets blocks size) :
    (Simulator.new sets blocks size miss write eviction).WellFormed := by
  obtain ⟨hpow, hb⟩ := validGeometry_pow sets blocks size h
  refine ⟨⟨?_, ?_⟩, hpow, hb, rfl⟩
  · simp [Simulator.new]
  · intro i hi
    have hi' : i < sets := hi
    simp [Simulator.new, Cache.setAt, List.getD_eq_getElem?_getD, hi']

theorem reachable_wellFormed (sets blocks size : Nat) (miss : WriteMissPolicy)
    (write : WritePolicy) (eviction : EvictionPolicy) (s : Simulator)
    (hgeo : ValidGeometry sets blocks size)
    (hreach : Reachable (Simulator.new sets blocks size miss write eviction) s) :
    s.WellFormed ∧ s.sets = sets ∧ s.blocks = blocks ∧ s.size = size ∧
    s.missPolicy = miss ∧ s.writePolicy = write ∧ s.evictionPolicy = eviction := by
  obtain ⟨lines, hl⟩ := hreach
  rw [← hl]
  exact simulate_keeps_config _ (new_wellFormed sets blocks size miss write eviction hgeo) lines

/-- In a state reached from the fresh cache of a geometry with a defined tag shift, the shift
amount `offsetBits + indexBits` is below `32`. -/
theorem reachable_shiftDefined (sets blocks size : Nat) (miss : WriteMissPolicy)
    (write : WritePolicy) (eviction : EvictionPolicy) (s : Simulator)
    (hgeo : ValidGeometry sets blocks size) (hshift : ShiftDefined sets size)
    (hreach : Reachable (Simulator.new sets blocks size miss write eviction) s) :
    s.offsetBits + s.indexBits < 32 := by
  obtain ⟨_, hsets, _, hsize, _⟩ :=
    reachable_wellFormed sets blocks size miss write eviction s hgeo hreach
  unfold Simulator.offsetBits Simulator.indexBits
  rw [hsize, hsets]
  exact hshift

/-! ## Hits, misses and residency -/

theorem index_congr (s s' : Simulator) (a : Nat) (h1 : s'.size = s.size)
    (h2 : s'.sets = s.sets) : s'.index a = s.index a := by
  unfold Simulator.index Simulator.indexMask Simulator.offsetBits Simulator.indexBits
  rw [h1, h2]

theorem tag_congr (s s' : Simulator) (a : Nat) (h1 : s'.size = s.size)
    (h2 : s'.sets = s.sets) : s'.tag a = s.tag a := by
  unfold Simulator.tag Simulator.offsetBits Simulator.indexBits
  rw [h1, h2]

theorem load_hits_of_resident (s : Simulator) (sAddress : Nat)
    (hidx : s.index (loadAddress sAddress) < s.cache.sets.length)
    (hres : ∃ j, j < s.blocks ∧
      (s.cache.slotAt (s.index (loadAddress sAddress)) j).valid = true ∧
      (s.cache.slotAt (s.index (loadAddress sAddress)) j).tag
        = s.tag (loadAddress sAddress)) :
    (load s sAddress).lhits = s.lhits + 1 ∧ (load s sAddress).cycles = s.cycles + 1 ∧
    (load s sAddress).lmisses = s.lmisses := by
  obtain ⟨j, hj, hjm⟩ := hres
  rcases checkMem_cases s (s.tag (loadAddress sAddress)) (s.index (loadAddress sAddress)) (-1)
    hidx with ⟨p, hp, _, _, hr⟩ | ⟨hnm, _⟩ | ⟨hnm, _⟩
  · rw [load_of_hit s sAddress p hp hr]
    exact ⟨rfl, rfl, rfl⟩
  · exact absurd hjm (hnm j hj)
  · exact absurd hjm (hnm j hj)

theorem load_misses_of_absent (s : Simulator) (sAddress : Nat)
    (hidx : s.index (loadAddress sAddress) < s.cache.sets.length)
    (hnm : ∀ j, j < s.blocks →
      ¬ ((s.cache.slotAt (s.index (loadAddress sAddress)) j).valid = true ∧
         (s.cache.slotAt (s.index (loadAddress sAddress)) j).tag
           = s.tag (loadAddress sAddress))) :
    (load s sAddress).lhits = s.lhits ∧ (load s sAddress).lmisses = s.lmisses + 1 := by
  rcases checkMem_cases s (s.tag (loadAddress sAddress)) (s.index (loadAddress sAddress)) (-1)
    hidx with ⟨p, hp, hm, _, _⟩ | ⟨_, p, _, _, _, hr⟩ | ⟨_, _, hr⟩
  · exact absurd hm (hnm p hp)
  · rw [load_of_space s sAddress p hr]
    exact ⟨rfl, rfl⟩
  · rw [load_of_full s sAddress (-1) hr]
    exact ⟨rfl, rfl⟩

theorem simulate_load_cons (s : Simulator) (a : Nat) (rest : List Line) :
    simulate s (⟨"l", a⟩ :: rest)
      = simulate { load s a with loads := ((load s a).loads + 1) % 2 ^ 32 } rest := rfl

theorem simulate_store_cons (s : Simulator) (a : Nat) (rest : List Line) :
    simulate s (⟨"s", a⟩ :: rest)
      = simulate { store s a with stores := ((store s a).stores + 1) % 2 ^ 32 } rest := rfl

theorem new_slotAt (sets blocks size : Nat) (miss : WriteMissPolicy) (write : WritePolicy)
    (eviction : EvictionPolicy) (i j : Nat) :
    (Simulator.new sets blocks size miss write eviction).cache.slotAt i j = default := by
  simp only [Simulator.new, Cache.slotAt, Cache.setAt, getSlot, List.getD_eq_getElem?_getD,
    List.getElem?_replicate]
  by_cases hi : i < sets
  · by_cases hj : j < blocks
    · simp [hi, hj]
    · simp [hi, hj]
  · simp only [hi, if_false, Option.getD_none]
    rfl

theorem checkMemLoop_congr (slots slots' : List Slot) (tag blocks : Nat) :
    ∀ (fuel i : Nat) (e n : Int),
      (∀ j, i ≤ j → j < i + fuel →
        (getSlot slots' j).valid = (getSlot slots j).valid ∧
        ((getSlot slots j).valid = true → (getSlot slots' j).tag = (getSlot slots j).tag)) →
      checkMemLoop slots' tag blocks fuel i e n = checkMemLoop slots tag blocks fuel i e n := by
  intro fuel
  induction fuel with
  | zero => intro i e n _; rfl
  | succ fuel ih =>
    intro i e n h
    have hi := h i (le_refl i) (by omega)
    have hrec : ∀ e' n', checkMemLoop slots' tag blocks fuel (i + 1) e' n'
        = checkMemLoop slots tag blocks fuel (i + 1) e' n' :=
      fun e' n' => ih (i + 1) e' n' (fun j h1 h2 => h j (by omega) (by omega))
    simp only [checkMemLoop, hi.1, hrec]
    by_cases hv : (getSlot slots i).valid = true
    · simp only [hv, hi.2 hv]
    · have hv' : (getSlot slots i).valid = false := by simpa using hv
      simp only [hv', Bool.not_false, if_true]

theorem evictBlockOf_congr (s s' : Simulator) (index : Nat) (hb : s'.blocks = s.blocks)
    (hp : s'.evictionPolicy = s.evictionPolicy)
    (hslots : ∀ j, j < s.blocks → s'.cache.slotAt index j = s.cache.slotAt index j) :
    evictBlockOf s' index = evictBlockOf s index := by
  unfold evictBlockOf
  rw [hp, hb, fifoLoop_eq_minLoop, fifoLoop_eq_minLoop, lruLoop_eq_minLoop, lruLoop_eq_minLoop]
  by_cases h0 : s.blocks = 0
  · rw [h0]; rfl
  · have e0 : getSlot (s'.cache.setAt index).slots 0 = getSlot (s.cache.setAt index).slots 0 :=
      hslots 0 (by omega)
    rw [e0]
    have e1 := minLoop_congr (fun j => (getSlot (s'.cache.setAt index).slots j).load_ts)
      (fun j => (getSlot (s.cache.setAt index).slots j).load_ts) (s.blocks - 1) 1
      (getSlot (s.cache.setAt index).slots 0).load_ts 0
      (fun j _ hj => congrArg Slot.load_ts (hslots j (by omega)))
    have e2 := minLoop_congr (fun j => (getSlot (s'.cache.setAt index).slots j).access_ts)
      (fun j => (getSlot (s.cache.setAt index).slots j).access_ts) (s.blocks - 1) 1
      (getSlot (s.cache.setAt index).slots 0).access_ts 0
      (fun j _ hj => congrArg Slot.access_ts (hslots j (by omega)))
    rw [e1, e2]

theorem loadWith_of_not_full (ev : Simulator → Nat → Simulator × Int) (s : Simulator)
    (a : Nat)
    (hne : (checkMem s (s.tag (loadAddress a)) (s.index (loadAddress a)) (-1)).2.1
      ≠ (s.blocks : Int)) :
    loadWith ev s a = load s a := by
  have hs : (checkMem s (s.tag (loadAddress a)) (s.index (loadAddress a)) (-1)).1 = s := by
    unfold checkMem
    split <;> rfl
  unfold loadWith load
  dsimp only
  generalize checkMem s (s.tag (loadAddress a)) (s.index (loadAddress a)) (-1) = r at hne hs
  obtain ⟨s1, block, e⟩ := r
  dsimp only at hne hs ⊢
  subst hs
  have hb : (block == (s1.blocks : Int)) = false := by simpa using hne
  simp only [hb, Bool.false_eq_true, if_false]

theorem storeWith_of_not_full (ev : Simulator → Nat → Simulator × Int) (s : Simulator)
    (a : Nat)
    (hne : (checkMem s (s.tag (storeAddress a)) (s.index (storeAddress a)) (-1)).2.1
      ≠ (s.blocks : Int)) :
    storeWith ev s a = store s a := by
  have hs : (checkMem s (s.tag (storeAddress a)) (s.index (storeAddress a)) (-1)).1 = s := by
    unfold checkMem
    split <;> rfl
  unfold storeWith store writeMissWith writeMiss
  dsimp only
  generalize checkMem s (s.tag (storeAddress a)) (s.index (storeAddress a)) (-1) = r at hne hs
  obtain ⟨s1, block, e⟩ := r
  dsimp only at hne hs ⊢
  subst hs
  have hb : (block == (s1.blocks : Int)) = false := by simpa using hne
  simp only [hb, Bool.false_eq_true, if_false]

/-- C17. In every state reached from the fresh cache of a validated geometry: `load` and
`store` are their bodies with `evict` at the single call site (`loadWith evict`,
`storeWith evict`); when the lookup did not return `blocks` the call site is not reached, so
the result is the same whatever is put in place of `evict`; the lookup returns `blocks` only
when every slot of the addressed set is valid; and the lookup result, and with it the victim
position when `evict` is called, is the same in any simulator that agrees with the state on
the validity flags and on the valid slots of the set, whatever its invalid slots hold. -/
theorem evict_only_on_full_set (sets blocks size : Nat) (miss : WriteMissPolicy)
    (write : WritePolicy) (eviction : EvictionPolicy) (s : Simulator)
    (hgeo : ValidGeometry sets blocks size)
    (hreach : Reachable (Simulator.new sets blocks size miss write eviction) s) :
    (∀ a, load s a = loadWith evict s a ∧ store s a = storeWith evict s a) ∧
    (∀ a, (checkMem s (s.tag (loadAddress a)) (s.index (loadAddress a)) (-1)).2.1
        ≠ (s.blocks : Int) →
      ∀ ev, loadWith ev s a = load s a) ∧
    (∀ a, (checkMem s (s.tag (storeAddress a)) (s.index (storeAddress a)) (-1)).2.1
        ≠ (s.blocks : Int) →
      ∀ ev, storeWith ev s a = store s a) ∧
    (∀ (tag index : Nat) (e : Int), index < s.sets →
      (checkMem s tag index e).2.1 = (s.blocks : Int) →
      ∀ j, j < s.blocks → (s.cache.slotAt index j).valid = true) ∧
    (∀ (s' : Simulator) (tag index : Nat) (e : Int), index < s.sets →
      s'.blocks = s.blocks → s'.evictionPolicy = s.evictionPolicy →
      s'.cache.sets.length = s.cache.sets.length →
      (∀ j, j < s.blocks →
        (s'.cache.slotAt index j).valid = (s.cache.slotAt index j).valid ∧
        ((s.cache.slotAt index j).valid = true →
          s'.cache.slotAt index j = s.cache.slotAt index j)) →
      (checkMem s' tag index e).2 = (checkMem s tag index e).2 ∧
      ((checkMem s tag index e).2.1 = (s.blocks : Int) →
        (evict s' index).2 = (evict s index).2)) := by
  have hwf := (reachable_wellFormed sets blocks size miss write eviction s hgeo hreach).1
  have hfull : ∀ (tag index : Nat) (e : Int), index < s.sets →
      (checkMem s tag index e).2.1 = (s.blocks : Int) →
      ∀ j, j < s.blocks → (s.cache.slotAt index j).valid = true := by
    intro tag index e hi hr
    have hidx : index < s.cache.sets.length := by rw [hwf.1.1]; exact hi
    rcases checkMem_cases s tag index e hidx with
      ⟨p, hp, _, _, hc⟩ | ⟨_, p, _, _, _, hc⟩ | ⟨_, hall, _⟩
    · rw [hc] at hr
      have : (p : Int) = (s.blocks : Int) := hr
      omega
    · rw [hc] at hr
      have : (-1 : Int) = (s.blocks : Int) := hr
      omega
    · exact hall
  refine ⟨fun a => ⟨rfl, rfl⟩, fun a hne ev => loadWith_of_not_full ev s a hne,
    fun a hne ev => storeWith_of_not_full ev s a hne, hfull, ?_⟩
  intro s' tag index e hi hbl hpol hlen hag
  have hidx : index < s.cache.sets.length := by rw [hwf.1.1]; exact hi
  have hnot : ¬ index ≥ s.cache.sets.length := Nat.not_le.mpr hidx
  have hnot' : ¬ index ≥ s'.cache.sets.length := by rw [hlen]; exact hnot
  have hloop := checkMemLoop_congr (s.cache.setAt index).slots (s'.cache.setAt index).slots
    tag s.blocks s.blocks 0 e 0
    (fun j _ hj => ⟨(hag j (by omega)).1,
      fun hv => congrArg Slot.tag ((hag j (by omega)).2 hv)⟩)
  refine ⟨?_, ?_⟩
  · simp only [checkMem, hnot, hnot', if_false, hbl]
    exact hloop
  · intro hr
    rw [evict_eq, evict_eq]
    show ((evictBlockOf s' index : Nat) : Int) = ((evictBlockOf s index : Nat) : Int)
    rw [evictBlockOf_congr s s' index hbl hpol
      (fun j hj => (hag j hj).2 (hfull tag index e hi hr j hj))]

/-- Instance of C17: in the state `demoSim` the lookup of tag `3` in set `0` returns `blocks`
and both slots of the set are valid. -/
theorem evict_only_on_full_set_witness :
    (ValidGeometry 2 2 16 ∧
      Reachable (Simulator.new 2 2 16 .WriteAllocate .WriteBack .FIFO)
        (demoSim .WriteAllocate .WriteBack .FIFO)) ∧
    (checkMem (demoSim .WriteAllocate .WriteBack .FIFO) 3 0 (-1)).2.1
      = ((demoSim .WriteAllocate .WriteBack .FIFO).blocks : Int) ∧
    ∀ j, j < (demoSim .WriteAllocate .WriteBack .FIFO).blocks →
      ((demoSim .WriteAllocate .WriteBack .FIFO).cache.slotAt 0 j).valid = true := by
  have hgeo : ValidGeometry 2 2 16 := ⟨by decide, by decide, by decide, by decide⟩
  have hreach : Reachable (Simulator.new 2 2 16 .WriteAllocate .WriteBack .FIFO)
      (demoSim .WriteAllocate .WriteBack .FIFO) :=
    ⟨[⟨"s", 0x20⟩, ⟨"l", 0x40⟩, ⟨"l", 0x30⟩, ⟨"l", 0x20⟩, ⟨"s", 0x30⟩], by decide⟩
  have h := evict_only_on_full_set 2 2 16 .WriteAllocate .WriteBack .FIFO
    (demoSim .WriteAllocate .WriteBack .FIFO) hgeo hreach
  exact ⟨⟨hgeo, hreach⟩, by decide, h.2.2.2.1 3 0 (-1) (by decide) (by decide)⟩

/-! ## C20: write-through never dirties -/

/-- A slot read after a single-slot write is either the written slot, at an in-range
position, or a slot that was there before. -/
theorem slot?_modifySlot_cases (c : Cache) (index p : Nat) (f : Slot → Slot) (i j : Nat)
    (sl : Slot) (h : (c.modifySlot index p f).slot? i j = some sl) :
    (i = index ∧ j = p ∧ sl = f (c.slotAt index p) ∧
      c.slot? index p = some (c.slotAt index p)) ∨
    (¬ (i = index ∧ j = p) ∧ c.slot? i j = some sl) := by
  by_cases hij : i = index ∧ j = p
  · left
    obtain ⟨hi, hj⟩ := hij
    subst hi hj
    by_cases hidx : i < c.sets.length
    · by_cases hp : j < (c.setAt i).slots.length
      · rw [slot?_modifySlot_same c i j f hidx hp] at h
        exact ⟨rfl, rfl, (Option.some.inj h).symm, slot?_eq_some_slotAt c i j hidx hp⟩
      · exfalso
        simp [Cache.slot?, Cache.modifySlot, List.getElem?_set, hidx, hp] at h
    · exfalso
      have hnone : c.sets[i]? = none := List.getElem?_eq_none (Nat.le_of_not_lt hidx)
      simp [Cache.slot?, Cache.modifySlot, List.getElem?_set, hidx, hnone] at h
  · right
    rw [slot?_modifySlot_other c index p f i j hij] at h
    exact ⟨hij, h⟩

theorem new_slot? (sets blocks size : Nat) (miss : WriteMissPolicy) (write : WritePolicy)
    (eviction : EvictionPolicy) (i j : Nat) (sl : Slot)
    (h : (Simulator.new sets blocks size miss write eviction).cache.slot? i j = some sl) :
    sl = default := by
  have h1 := slotAt_eq_getD_slot? (Simulator.new sets blocks size miss write eviction).cache i j
  rw [h, new_slotAt] at h1
  exact h1.symm

theorem noDirty_of_opStep (s s' : Simulator) (index tag : Nat)
    (hw : s.writePolicy = WritePolicy.WriteThrough) (hstep : OpStep s s' index tag)
    (h : ∀ i j sl, s.cache.slot? i j = some sl → sl.dirty = false) :
    ∀ i j sl, s'.cache.slot? i j = some sl → sl.dirty = false := by
  intro i j sl hsl
  rcases hstep.2.2.2.2.2.2.2.2.2 with ⟨hc, _, _⟩ | ⟨p, new, _, hc, _, _, _, hd, _⟩
  · rw [hc] at hsl
    exact h i j sl hsl
  · rw [hc] at hsl
    rcases slot?_modifySlot_cases s.cache index p _ i j sl hsl with
      ⟨_, _, hnew, hold⟩ | ⟨_, hsame⟩
    · have hold' := h index p _ hold
      cases hdn : sl.dirty with
      | false => rfl
      | true =>
        exfalso
        rw [hnew] at hdn
        rcases hd hdn with h1 | h1
        · rw [hold'] at h1
          exact Bool.false_ne_true h1
        · rw [hw] at h1
          exact WritePolicy.noConfusion h1
    · exact h i j sl hsame

/-- C20. Under `WriteThrough`, with either miss policy and either eviction policy, in every
state reached from the fresh cache of a validated geometry no slot has `dirty = true`; hence a
call of `evict` on any set adds no write-back charge: it returns the simulator unchanged. -/
theorem writeThrough_never_dirty (sets blocks size : Nat) (miss : WriteMissPolicy)
    (eviction : EvictionPolicy) (s : Simulator)
    (hgeo : ValidGeometry sets blocks size)
    (hreach : Reachable
      (Simulator.new sets blocks size miss WritePolicy.WriteThrough eviction) s) :
    (∀ i j sl, s.cache.slot? i j = some sl → sl.dirty = false) ∧
    (∀ index, index < s.sets →
      (evict s index).1.cycles = s.cycles ∧ (evict s index).1 = s) := by
  have hwf := (reachable_wellFormed sets blocks size miss _ eviction s hgeo hreach).1
  have hclean : ∀ i j sl, s.cache.slot? i j = some sl → sl.dirty = false := by
    obtain ⟨lines, hl⟩ := hreach
    rw [← hl]
    have hinv := simulate_invariant
      (fun s' => s'.WellFormed ∧ s'.writePolicy = WritePolicy.WriteThrough ∧
        ∀ i j sl, s'.cache.slot? i j = some sl → sl.dirty = false)
      (by
        intro s1 a ⟨hw1, hp1, hd1⟩
        have hstep := load_opStep s1 a (wellFormed_index_lt s1 hw1 _) hw1.2.2.1
        have hw' : (load s1 a).WellFormed := wellFormed_of_opStep s1 _ _ _ hw1 hstep
        have hd' : ∀ i j sl, (load s1 a).cache.slot? i j = some sl → sl.dirty = false :=
          noDirty_of_opStep s1 _ _ _ hp1 hstep hd1
        exact ⟨hw', hstep.2.2.2.2.1.trans hp1, hd'⟩)
      (by
        intro s1 a ⟨hw1, hp1, hd1⟩
        have hstep := store_opStep s1 a (wellFormed_index_lt s1 hw1 _)
          (wellFormed_slots_length s1 hw1 _) hw1.2.2.1
        have hw' : (store s1 a).WellFormed := wellFormed_of_opStep s1 _ _ _ hw1 hstep
        have hd' : ∀ i j sl, (store s1 a).cache.slot? i j = some sl → sl.dirty = false :=
          noDirty_of_opStep s1 _ _ _ hp1 hstep hd1
        exact ⟨hw', hstep.2.2.2.2.1.trans hp1, hd'⟩)
      lines (Simulator.new sets blocks size miss WritePolicy.WriteThrough eviction)
      ⟨new_wellFormed sets blocks size miss _ eviction hgeo, rfl,
        fun i j sl h => by rw [new_slot? sets blocks size miss _ eviction i j sl h]; rfl⟩
    exact hinv.2.2
  refine ⟨hclean, fun index hi => ?_⟩
  have hidx : index < s.cache.sets.length := by rw [hwf.1.1]; exact hi
  have hp := evictBlockOf_lt s index hwf.2.2.1
  have hd := hclean index (evictBlockOf s index) _
    (slot?_eq_some_slotAt s.cache index _ hidx (by rw [hwf.1.2 index hi]; exact hp))
  rw [evict_eq]
  simp only [hd, Bool.false_eq_true, if_false, add_zero]
  exact ⟨trivial, trivial⟩

/-- Instance of C20: after `l 0`, `s 0`, `s 8`, `l 10` on the write-through, write-allocate
single-set two-way cache no slot is dirty. -/
theorem writeThrough_never_dirty_witness :
    (ValidGeometry 1 2 4 ∧
      Reachable (Simulator.new 1 2 4 .WriteAllocate .WriteThrough .LRU)
        (simulate (Simulator.new 1 2 4 .WriteAllocate .WriteThrough .LRU)
          [⟨"l", 0x0⟩, ⟨"s", 0x0⟩, ⟨"s", 0x8⟩, ⟨"l", 0x10⟩]).2) ∧
    ∀ i j sl,
      (simulate (Simulator.new 1 2 4 .WriteAllocate .WriteThrough .LRU)
        [⟨"l", 0x0⟩, ⟨"s", 0x0⟩, ⟨"s", 0x8⟩, ⟨"l", 0x10⟩]).2.cache.slot? i j = some sl →
      sl.dirty = false := by
  have hgeo : ValidGeometry 1 2 4 := ⟨by decide, by decide, by decide, by decide⟩
  have hreach : Reachable (Simulator.new 1 2 4 .WriteAllocate .WriteThrough .LRU)
      (simulate (Simulator.new 1 2 4 .WriteAllocate .WriteThrough .LRU)
        [⟨"l", 0x0⟩, ⟨"s", 0x0⟩, ⟨"s", 0x8⟩, ⟨"l", 0x10⟩]).2 := ⟨_, rfl⟩
  exact ⟨⟨hgeo, hreach⟩,
    (writeThrough_never_dirty 1 2 4 .WriteAllocate .LRU _ hgeo hreach).1⟩

/-! ## C18: timestamps are unique -/

theorem clock_eq_of_lt (s : Simulator) (h : s.loads + s.stores < 2 ^ 32) :
    s.clock = s.loads + s.stores :=
  Nat.mod_eq_of_lt h

/-- One operation keeps the timestamp invariant, with the bound moved up by one. -/
theorem tsInv_of_opStep (s s' : Simulator) (index tag : Nat) (hstep : OpStep s s' index tag)
    (hN : s.loads + s.stores < 2 ^ 32) (h : TsInv s) :
    (∀ i j sl, s'.cache.slot? i j = some sl → sl.valid = true →
      sl.load_ts < s.loads + s.stores + 1 ∧ sl.access_ts < s.loads + s.stores + 1) ∧
    (∀ i j i' j' sl sl', ¬ (i = i' ∧ j = j') →
      s'.cache.slot? i j = some sl → s'.cache.slot? i' j' = some sl' →
      sl.valid = true → sl'.valid = true →
      sl.load_ts ≠ sl'.load_ts ∧ sl.access_ts ≠ sl'.access_ts) := by
  obtain ⟨hbound, huniq⟩ := h
  have hclock := clock_eq_of_lt s hN
  rcases hstep.2.2.2.2.2.2.2.2.2 with ⟨hc, _, _⟩ | ⟨p, new, _, hc, _, _, hacc, _, hkind⟩
  · rw [hc]
    exact ⟨fun i j sl h1 h2 => ⟨by have := (hbound i j sl h1 h2).1; omega,
      by have := (hbound i j sl h1 h2).2; omega⟩, huniq⟩
  · rw [hclock] at hacc
    -- the written slot against the bound and against any untouched valid slot
    have hnewLoad : new.load_ts < s.loads + s.stores + 1 := by
      rcases hkind with ⟨hv, _, hl⟩ | ⟨_, hl, _⟩
      · by_cases hin : s.cache.slot? index p = some (s.cache.slotAt index p)
        · have := (hbound index p _ hin hv).1
          omega
        · -- the position is outside the grid: the read slot is the default one
          have : s.cache.slotAt index p = default := by
            rw [slotAt_eq_getD_slot?]
            cases hs : s.cache.slot? index p with
            | none => rfl
            | some x =>
              exfalso
              apply hin
              rw [slotAt_eq_getD_slot?, hs]
              rfl
          rw [this] at hv
          exact absurd hv Bool.false_ne_true
      · rw [hl, hclock]; omega
    have hother : ∀ i j sl, ¬ (i = index ∧ j = p) → s.cache.slot? i j = some sl →
        sl.valid = true → s.cache.slot? index p = some (s.cache.slotAt index p) →
        new.load_ts ≠ sl.load_ts ∧ new.access_ts ≠ sl.access_ts := by
      intro i j sl hij hsl hv hin
      have hb := hbound i j sl hsl hv
      refine ⟨?_, by omega⟩
      rcases hkind with ⟨hvo, _, hl⟩ | ⟨_, hl, _⟩
      · rw [hl]
        exact (huniq index p i j _ sl (fun h => hij ⟨h.1.symm, h.2.symm⟩) hin hsl hvo hv).1
      · rw [hl, hclock]; omega
    rw [hc]
    constructor
    · intro i j sl hsl hv
      rcases slot?_modifySlot_cases s.cache index p _ i j sl hsl with
        ⟨_, _, hnew, _⟩ | ⟨_, hsame⟩
      · rw [hnew]
        exact ⟨hnewLoad, by omega⟩
      · have := hbound i j sl hsame hv
        omega
    · intro i j i' j' sl sl' hne hsl hsl' hv hv'
      rcases slot?_modifySlot_cases s.cache index p _ i j sl hsl with
        ⟨hi, hj, hnew, hin⟩ | ⟨hij, hsame⟩
      · rcases slot?_modifySlot_cases s.cache index p _ i' j' sl' hsl' with
          ⟨hi', hj', _, _⟩ | ⟨hij', hsame'⟩
        · exact absurd ⟨hi.trans hi'.symm, hj.trans hj'.symm⟩ hne
        · rw [hnew]
          exact hother i' j' sl' hij' hsame' hv' hin
      · rcases slot?_modifySlot_cases s.cache index p _ i' j' sl' hsl' with
          ⟨_, _, hnew', hin'⟩ | ⟨_, hsame'⟩
        · rw [hnew']
          have := hother i j sl hij hsame hv hin'
          exact ⟨fun h => this.1 h.symm, fun h => this.2 h.symm⟩
        · exact huniq i j i' j' sl sl' hne hsame hsame' hv hv'

/-- The timestamp invariant along a run of fewer than `2 ^ 32` operations in all. -/
theorem simulate_tsInv :
    ∀ (lines : List Line) (s : Simulator), s.WellFormed → TsInv s →
      s.loads + s.stores + lines.length < 2 ^ 32 →
      (simulate s lines).2.WellFormed ∧ TsInv (simulate s lines).2 ∧
      (simulate s lines).2.loads + (simulate s lines).2.stores
        ≤ s.loads + s.stores + lines.length := by
  intro lines
  induction lines with
  | nil =>
    intro s hwf hts _
    exact ⟨hwf, hts, Nat.le_refl _⟩
  | cons line rest ih =>
    intro s hwf hts hlen
    have hlc : (line :: rest).length = rest.length + 1 := rfl
    rw [hlc] at hlen ⊢
    have hN : s.loads + s.stores < 2 ^ 32 := by omega
    unfold simulate
    split
    · have hstep := load_opStep s line.address (wellFormed_index_lt s hwf _) hwf.2.2.1
      have hw' : (load s line.address).WellFormed := wellFormed_of_opStep s _ _ _ hwf hstep
      have hts' := tsInv_of_opStep s _ _ _ hstep hN hts
      have hl : (load s line.address).loads = s.loads := hstep.2.2.2.2.2.2.2.1
      have hs : (load s line.address).stores = s.stores := hstep.2.2.2.2.2.2.2.2.1
      have hmod : ((load s line.address).loads + 1) % 2 ^ 32 = s.loads + 1 := by
        rw [hl]; exact Nat.mod_eq_of_lt (by omega)
      have hrec := ih { load s line.address with
          loads := ((load s line.address).loads + 1) % 2 ^ 32 } hw'
        (by
          show (∀ i j sl, (load s line.address).cache.slot? i j = some sl → sl.valid = true →
              sl.load_ts < ((load s line.address).loads + 1) % 2 ^ 32
                + (load s line.address).stores ∧
              sl.access_ts < ((load s line.address).loads + 1) % 2 ^ 32
                + (load s line.address).stores) ∧ _
          rw [hmod, hs]
          refine ⟨fun i j sl h1 h2 => ?_, hts'.2⟩
          have := hts'.1 i j sl h1 h2
          omega)
        (by
          show ((load s line.address).loads + 1) % 2 ^ 32 + (load s line.address).stores
            + rest.length < 2 ^ 32
          rw [hmod, hs]; omega)
      refine ⟨hrec.1, hrec.2.1, hrec.2.2.trans ?_⟩
      show ((load s line.address).loads + 1) % 2 ^ 32 + (load s line.address).stores
        + rest.length ≤ _
      rw [hmod, hs]; omega
    · split
      · have hstep := store_opStep s line.address (wellFormed_index_lt s hwf _)
          (wellFormed_slots_length s hwf _) hwf.2.2.1
        have hw' : (store s line.address).WellFormed :=
          wellFormed_of_opStep s _ _ _ hwf hstep
        have hts' := tsInv_of_opStep s _ _ _ hstep hN hts
        have hl : (store s line.address).loads = s.loads := hstep.2.2.2.2.2.2.2.1
        have hs : (store s line.address).stores = s.stores := hstep.2.2.2.2.2.2.2.2.1
        have hmod : ((store s line.address).stores + 1) % 2 ^ 32 = s.stores + 1 := by
          rw [hs]; exact Nat.mod_eq_of_lt (by omega)
        have hrec := ih { store s line.address with
            stores := ((store s line.address).stores + 1) % 2 ^ 32 } hw'
          (by
            show (∀ i j sl, (store s line.address).cache.slot? i j = some sl →
                sl.valid = true →
                sl.load_ts < (store s line.address).loads
                  + ((store s line.address).stores + 1) % 2 ^ 32 ∧
                sl.access_ts < (store s line.address).loads
                  + ((store s line.address).stores + 1) % 2 ^ 32) ∧ _
            rw [hmod, hl]
            refine ⟨fun i j sl h1 h2 => ?_, hts'.2⟩
            have := hts'.1 i j sl h1 h2
            omega)
          (by
            show (store s line.address).loads
              + ((store s line.address).stores + 1) % 2 ^ 32 + rest.length < 2 ^ 32
            rw [hmod, hl]; omega)
        refine ⟨hrec.1, hrec.2.1, hrec.2.2.trans ?_⟩
        show (store s line.address).loads
          + ((store s line.address).stores + 1) % 2 ^ 32 + rest.length ≤ _
        rw [hmod, hl]; omega
      · exact ⟨hwf, hts, Nat.le_add_right _ _⟩

theorem new_tsInv (sets blocks size : Nat) (miss : WriteMissPolicy) (write : WritePolicy)
    (eviction : EvictionPolicy) : TsInv (Simulator.new sets blocks size miss write eviction) := by
  constructor
  · intro i j sl h hv
    rw [new_slot? sets blocks size miss write eviction i j sl h] at hv
    exact absurd hv Bool.false_ne_true
  · intro i j i' j' sl sl' _ h _ hv _
    rw [new_slot? sets blocks size miss write eviction i j sl h] at hv
    exact absurd hv Bool.false_ne_true

theorem fifo_min (s : Simulator) (index : Nat) (hb : 1 ≤ s.blocks) :
    ∃ p : Nat, (fifo s index).2 = (p : Int) ∧ p < s.blocks ∧
      ∀ j, j < s.blocks →
        (s.cache.slotAt index p).load_ts ≤ (s.cache.slotAt index j).load_ts := by
  have h := minLoop_spec (fun j => (getSlot (s.cache.setAt index).slots j).load_ts)
    (s.blocks - 1) 1 (getSlot (s.cache.setAt index).slots 0).load_ts 0 Nat.zero_lt_one rfl
    (by intro j hj; have : j = 0 := by omega
        rw [this])
    (fun j hj => absurd hj (Nat.not_lt_zero j))
  rw [← fifoLoop_eq_minLoop] at h
  have h1 : 1 + (s.blocks - 1) = s.blocks := by omega
  rw [h1] at h
  exact ⟨_, by rw [fifo_eq], h.1, h.2.1⟩

theorem lru_min (s : Simulator) (index : Nat) (hb : 1 ≤ s.blocks) :
    ∃ p : Nat, (lru s index).2 = (p : Int) ∧ p < s.blocks ∧
      ∀ j, j < s.blocks →
        (s.cache.slotAt index p).access_ts ≤ (s.cache.slotAt index j).access_ts := by
  have h := minLoop_spec (fun j => (getSlot (s.cache.setAt index).slots j).access_ts)
    (s.blocks - 1) 1 (getSlot (s.cache.setAt index).slots 0).access_ts 0 Nat.zero_lt_one rfl
    (by intro j hj; have : j = 0 := by omega
        rw [this])
    (fun j hj => absurd hj (Nat.not_lt_zero j))
  rw [← lruLoop_eq_minLoop] at h
  have h1 : 1 + (s.blocks - 1) = s.blocks := by omega
  rw [h1] at h
  exact ⟨_, by rw [lru_eq], h.1, h.2.1⟩

/-- C18. In the state reached from the fresh cache of a validated geometry by replaying a
trace of fewer than `2 ^ 32` lines through `simulate`, two valid slots at different positions
(of one set, and indeed of the whole grid) never share a `load_ts` or an `access_ts`. Hence on
a full set the slot returned by `fifo` has a `load_ts` strictly below that of every other slot
and the slot returned by `lru` an `access_ts` strictly below that of every other slot: the
lowest-position tie-break never decides. -/
theorem timestamps_unique (sets blocks size : Nat) (miss : WriteMissPolicy)
    (write : WritePolicy) (eviction : EvictionPolicy) (lines : List Line)
    (hgeo : ValidGeometry sets blocks size) (hlen : lines.length < 2 ^ 32) :
    (∀ i j i' j' sl sl', ¬ (i = i' ∧ j = j') →
      (simulate (Simulator.new sets blocks size miss write eviction) lines).2.cache.slot? i j
        = some sl →
      (simulate (Simulator.new sets blocks size miss write eviction) lines).2.cache.slot? i' j'
        = some sl' →
      sl.valid = true → sl'.valid = true →
      sl.load_ts ≠ sl'.load_ts ∧ sl.access_ts ≠ sl'.access_ts) ∧
    (∀ i, i < (simulate (Simulator.new sets blocks size miss write eviction) lines).2.sets →
      (∀ j, j < (simulate (Simulator.new sets blocks size miss write eviction) lines).2.blocks →
        ((simulate (Simulator.new sets blocks size miss write eviction) lines).2.cache.slotAt
          i j).valid = true) →
      (∃ p : Nat,
        (fifo (simulate (Simulator.new sets blocks size miss write eviction) lines).2 i).2
          = (p : Int) ∧
        ∀ j, j < (simulate (Simulator.new sets blocks size miss write eviction) lines).2.blocks →
          j ≠ p →
          ((simulate (Simulator.new sets blocks size miss write eviction) lines).2.cache.slotAt
            i p).load_ts <
          ((simulate (Simulator.new sets blocks size miss write eviction) lines).2.cache.slotAt
            i j).load_ts) ∧
      (∃ p : Nat,
        (lru (simulate (Simulator.new sets blocks size miss write eviction) lines).2 i).2
          = (p : Int) ∧
        ∀ j, j < (simulate (Simulator.new sets blocks size miss write eviction) lines).2.blocks →
          j ≠ p →
          ((simulate (Simulator.new sets blocks size miss write eviction) lines).2.cache.slotAt
            i p).access_ts <
          ((simulate (Simulator.new sets blocks size miss write eviction) lines).2.cache.slotAt
            i j).access_ts)) := by
  have hinv := simulate_tsInv lines (Simulator.new sets blocks size miss write eviction)
    (new_wellFormed sets blocks size miss write eviction hgeo)
    (new_tsInv sets blocks size miss write eviction)
    (by show 0 + 0 + lines.length < 2 ^ 32
        omega)
  generalize (simulate (Simulator.new sets blocks size miss write eviction) lines).2 = s at hinv ⊢
  obtain ⟨hwf, ⟨_, huniq⟩, _⟩ := hinv
  refine ⟨huniq, fun i hi hall => ?_⟩
  have hidx : i < s.cache.sets.length := by rw [hwf.1.1]; exact hi
  have hslot : ∀ j, j < s.blocks → s.cache.slot? i j = some (s.cache.slotAt i j) :=
    fun j hj => slot?_eq_some_slotAt s.cache i j hidx (by rw [hwf.1.2 i hi]; exact hj)
  constructor
  · obtain ⟨p, hp, hpb, hmin⟩ := fifo_min s i hwf.2.2.1
    refine ⟨p, hp, fun j hj hne => ?_⟩
    have h1 := hmin j hj
    have h2 := (huniq i p i j _ _ (fun h => hne h.2.symm) (hslot p hpb) (hslot j hj)
      (hall p hpb) (hall j hj)).1
    omega
  · obtain ⟨p, hp, hpb, hmin⟩ := lru_min s i hwf.2.2.1
    refine ⟨p, hp, fun j hj hne => ?_⟩
    have h1 := hmin j hj
    have h2 := (huniq i p i j _ _ (fun h => hne h.2.symm) (hslot p hpb) (hslot j hj)
      (hall p hpb) (hall j hj)).2
    omega

/-- Instance of C18: the five-line trace that leads to `demoSim`. -/
theorem timestamps_unique_witness :
    (ValidGeometry 2 2 16 ∧
      [(⟨"s", 0x20⟩ : Line), ⟨"l", 0x40⟩, ⟨"l", 0x30⟩, ⟨"l", 0x20⟩, ⟨"s", 0x30⟩].length
        < 2 ^ 32) ∧
    ∀ i j i' j' sl sl', ¬ (i = i' ∧ j = j') →
      (simulate (Simulator.new 2 2 16 .WriteAllocate .WriteBack .FIFO)
        [⟨"s", 0x20⟩, ⟨"l", 0x40⟩, ⟨"l", 0x30⟩, ⟨"l", 0x20⟩, ⟨"s", 0x30⟩]).2.cache.slot? i j
        = some sl →
      (simulate (Simulator.new 2 2 16 .WriteAllocate .WriteBack .FIFO)
        [⟨"s", 0x20⟩, ⟨"l", 0x40⟩, ⟨"l", 0x30⟩, ⟨"l", 0x20⟩, ⟨"s", 0x30⟩]).2.cache.slot? i' j'
        = some sl' →
      sl.valid = true → sl'.valid = true →
      sl.load_ts ≠ sl'.load_ts ∧ sl.access_ts ≠ sl'.access_ts := by
  have hgeo : ValidGeometry 2 2 16 := ⟨by decide, by decide, by decide, by decide⟩
  exact ⟨⟨hgeo, by decide⟩,
    (timestamps_unique 2 2 16 .WriteAllocate .WriteBack .FIFO
      [⟨"s", 0x20⟩, ⟨"l", 0x40⟩, ⟨"l", 0x30⟩, ⟨"l", 0x20⟩, ⟨"s", 0x30⟩] hgeo (by decide)).1⟩

/-! ## C19: the slot just referenced and the LRU victim -/

theorem wrapFamily_step (k : Nat) :
    { load (wrapFamily k) 0x4 with loads := ((load (wrapFamily k) 0x4).loads + 1) % 2 ^ 32 }
      = wrapFamily (k + 1) := by
  have hI : (wrapFamily k).index (loadAddress 0x4) = 0 :=
    (index_congr (wrapFamily 0) (wrapFamily k) _ rfl rfl).trans (by decide)
  have hT : (wrapFamily k).tag (loadAddress 0x4) = 1 :=
    (tag_congr (wrapFamily 0) (wrapFamily k) _ rfl rfl).trans (by decide)
  have hr : checkMem (wrapFamily k) ((wrapFamily k).tag (loadAddress 0x4))
      ((wrapFamily k).index (loadAddress 0x4)) (-1) = (wrapFamily k, ((0 : Nat) : Int),
        ((0 : Nat) : Int)) := by
    apply checkMem_hit (wrapFamily k) _ _ (-1) 0
    · rw [hI]; exact Nat.zero_lt_one
    · exact Nat.zero_lt_two
    · rw [hI]; rfl
    · rw [hI, hT]; rfl
    · exact fun j hj => absurd hj (Nat.not_lt_zero j)
  rw [load_of_hit (wrapFamily k) 0x4 0 Nat.zero_lt_two hr, hI]
  have h1 : ((2 + k) % 2 ^ 32 + 1) % 2 ^ 32 = (2 + (k + 1)) % 2 ^ 32 := by omega
  have h2 : ((2 + k) % 2 ^ 32 + 0) % 2 ^ 32 = (1 + (k + 1)) % 2 ^ 32 := by omega
  simp only [wrapFamily, Cache.modifySlot, Cache.setAt, Cache.slotAt, getSlot, Simulator.clock,
    List.getD_cons_zero, List.set_cons_zero, h1, h2, Simulator.mk.injEq, true_and, and_true]
  constructor
  · push_cast; ring
  · push_cast; ring

theorem wrapFamily_run : ∀ (n k : Nat),
    simulate (wrapFamily k) (List.replicate n ⟨"l", 0x4⟩) = (0, wrapFamily (k + n)) := by
  intro n
  induction n with
  | zero => intro k; rfl
  | succ n ih =>
    intro k
    rw [List.replicate_succ, simulate_load_cons, wrapFamily_step, ih (k + 1)]
    have : k + 1 + n = k + (n + 1) := by omega
    rw [this]

theorem wrapTrace_state :
    simulate (Simulator.new 1 2 4 .WriteAllocate .WriteThrough .LRU) wrapTrace
      = (0, wrapFamily (2 ^ 32 - 2)) := by
  have h0 : { load { load (Simulator.new 1 2 4 .WriteAllocate .WriteThrough .LRU) 0x0 with
        loads := ((load (Simulator.new 1 2 4 .WriteAllocate .WriteThrough .LRU) 0x0).loads
          + 1) % 2 ^ 32 } 0x4 with
      loads := ((load { load (Simulator.new 1 2 4 .WriteAllocate .WriteThrough .LRU) 0x0 with
        loads := ((load (Simulator.new 1 2 4 .WriteAllocate .WriteThrough .LRU) 0x0).loads
          + 1) % 2 ^ 32 } 0x4).loads + 1) % 2 ^ 32 } = wrapFamily 0 := by
    decide
  unfold wrapTrace
  rw [simulate_load_cons, simulate_load_cons, h0, wrapFamily_run]
  rfl

/-- C19, the claim refuted as stated. On the single-set two-way LRU cache with 4-byte blocks
(a validated geometry with `blocks = 2`), the state reached by the `2 ^ 32` loads of
`wrapTrace` has `loads` wrapped to `0`. The next operation `l 4` hits slot `0` of set `0`
(the only slot it changes) and stamps it with `access_ts = 0`; slot `1` of the set is valid
with `access_ts = 0`, so the `access_ts` of the slot just hit is not strictly greater, and on
this full set `lru` returns position `0`, the slot just hit. -/
theorem lru_recent_counterexample :
    ValidGeometry 1 2 4 ∧ wrapTrace.length = 2 ^ 32 ∧
    (simulate (Simulator.new 1 2 4 .WriteAllocate .WriteThrough .LRU) wrapTrace).1 = 0 ∧
    (simulate (Simulator.new 1 2 4 .WriteAllocate .WriteThrough .LRU) wrapTrace).2.loads
      = 0 ∧
    (simulate (Simulator.new 1 2 4 .WriteAllocate .WriteThrough .LRU) wrapTrace).2.index
      (loadAddress 0x4) = 0 ∧
    (load (simulate (Simulator.new 1 2 4 .WriteAllocate .WriteThrough .LRU) wrapTrace).2
      0x4).lhits
      = (simulate (Simulator.new 1 2 4 .WriteAllocate .WriteThrough .LRU) wrapTrace).2.lhits
        + 1 ∧
    (simulate (Simulator.new 1 2 4 .WriteAllocate .WriteThrough .LRU) wrapTrace).2.cache
      = ⟨[⟨[⟨true, false, 1, 0, 1, 2 ^ 32 - 1⟩, ⟨true, false, 0, 0, 0, 0⟩]⟩]⟩ ∧
    (load (simulate (Simulator.new 1 2 4 .WriteAllocate .WriteThrough .LRU) wrapTrace).2
      0x4).cache
      = ⟨[⟨[⟨true, false, 1, 0, 1, 0⟩, ⟨true, false, 0, 0, 0, 0⟩]⟩]⟩ ∧
    ¬ (((load (simulate (Simulator.new 1 2 4 .WriteAllocate .WriteThrough .LRU) wrapTrace).2
          0x4).cache.slotAt 0 1).access_ts <
        ((load (simulate (Simulator.new 1 2 4 .WriteAllocate .WriteThrough .LRU) wrapTrace).2
          0x4).cache.slotAt 0 0).access_ts) ∧
    (lru (load (simulate (Simulator.new 1 2 4 .WriteAllocate .WriteThrough .LRU) wrapTrace).2
      0x4) 0).2 = 0 := by
  have hlen : wrapTrace.length = 2 ^ 32 := by
    unfold wrapTrace
    rw [List.length_cons, List.length_cons, List.length_replicate]
    norm_num
  rw [wrapTrace_state]
  exact ⟨⟨by decide, by decide, by decide, by decide⟩, hlen, by decide, by decide, by decide,
    by decide, by decide, by decide, by decide, by decide⟩

/-- The slot written by an operation, one that runs before any wrap of the clock, carries an
`access_ts` above that of every other valid slot, and is not the position `lru` returns on a
full set of at least two slots. -/
theorem justReferenced_of_step (s s' : Simulator) (index tag p : Nat) (new : Slot)
    (hwf : s.WellFormed) (hts : TsInv s) (hN : s.loads + s.stores < 2 ^ 32)
    (hidx : index < s.sets) (hp : p < s.blocks) (hb2 : 2 ≤ s.blocks)
    (hbl : s'.blocks = s.blocks)
    (hc : s'.cache = s.cache.modifySlot index p (fun _ => new))
    (hst : StepSlot s index tag p new) :
    JustReferenced s s' index tag p := by
  have hidx' : index < s.cache.sets.length := by rw [hwf.1.1]; exact hidx
  have hpl : p < (s.cache.setAt index).slots.length := by rw [hwf.1.2 index hidx]; exact hp
  have hnew : s'.cache.slotAt index p = new := by
    rw [hc]; exact slotAt_modifySlot_same s.cache index p _ hidx' hpl
  have hother : ∀ j, j ≠ p → s'.cache.slotAt index j = s.cache.slotAt index j := by
    intro j hj
    rw [hc]
    exact slotAt_modifySlot_other s.cache index p _ index j (fun h => hj h.2)
  obtain ⟨hv, ht, hacc, _, _⟩ := hst
  rw [clock_eq_of_lt s hN] at hacc
  have hlt : ∀ j, j < s'.blocks → j ≠ p → (s'.cache.slotAt index j).valid = true →
      (s'.cache.slotAt index j).access_ts < (s'.cache.slotAt index p).access_ts := by
    intro j hj hne hvj
    rw [hbl] at hj
    rw [hnew, hacc, hother j hne]
    rw [hother j hne] at hvj
    exact (hts.1 index j _
      (slot?_eq_some_slotAt s.cache index j hidx' (by rw [hwf.1.2 index hidx]; exact hj))
      hvj).2
  refine ⟨?_, by rw [hnew]; exact hv, by rw [hnew]; exact ht, hlt, ?_⟩
  · intro i j hij
    rw [hc]
    exact slot?_modifySlot_other s.cache index p _ i j hij
  · intro hall hq
    obtain ⟨q, hq1, _, hmin⟩ := lru_min s' index (by rw [hbl]; omega)
    have hqp : q = p := by
      rw [hq1] at hq
      exact_mod_cast hq
    subst hqp
    by_cases h0 : q = 0
    · have h1 := hlt 1 (by rw [hbl]; omega) (by omega) (hall 1 (by rw [hbl]; omega))
      have h2 := hmin 1 (by rw [hbl]; omega)
      omega
    · have h1 := hlt 0 (by rw [hbl]; omega) (fun h => h0 h.symm) (hall 0 (by rw [hbl]; omega))
      have h2 := hmin 0 (by rw [hbl]; omega)
      omega

/-- C19, amended. Under LRU with `blocks ≥ 2`, in the state `s` reached from the fresh cache of
a validated geometry by a trace of fewer than `2 ^ 32` lines, the slot `p` that the next
operation hits or installs is, immediately after that operation, valid with an `access_ts`
strictly greater than that of every other valid slot of its set, and if the set is full `lru`
returns a position other than `p`. A `load` always has such a slot; a `store` has one unless
it is a miss under no-write-allocate, which leaves the cache unchanged. -/
theorem lru_recent_not_victim (sets blocks size : Nat) (miss : WriteMissPolicy)
    (write : WritePolicy) (lines : List Line) (s : Simulator) (a : Nat)
    (hgeo : ValidGeometry sets blocks size) (hb2 : 2 ≤ blocks)
    (hlen : lines.length < 2 ^ 32)
    (hs : (simulate (Simulator.new sets blocks size miss write EvictionPolicy.LRU) lines).2
      = s) :
    (∃ p, p < s.blocks ∧
      JustReferenced s (load s a) (s.index (loadAddress a)) (s.tag (loadAddress a)) p) ∧
    (((store s a).cache = s.cache ∧ s.missPolicy = WriteMissPolicy.NoWriteAllocate ∧
        ∀ j, j < s.blocks →
          ¬ ((s.cache.slotAt (s.index (storeAddress a)) j).valid = true ∧
             (s.cache.slotAt (s.index (storeAddress a)) j).tag = s.tag (storeAddress a))) ∨
      ∃ p, p < s.blocks ∧
        JustReferenced s (store s a) (s.index (storeAddress a)) (s.tag (storeAddress a)) p) := by
  have hinv := simulate_tsInv lines
    (Simulator.new sets blocks size miss write EvictionPolicy.LRU)
    (new_wellFormed sets blocks size miss write _ hgeo)
    (new_tsInv sets blocks size miss write _)
    (by show 0 + 0 + lines.length < 2 ^ 32
        omega)
  have hcfg := simulate_keeps_config
    (Simulator.new sets blocks size miss write EvictionPolicy.LRU)
    (new_wellFormed sets blocks size miss write _ hgeo) lines
  rw [hs] at hinv hcfg
  obtain ⟨hwf, hts, hcount⟩ := hinv
  have hN : s.loads + s.stores < 2 ^ 32 := by
    have : (Simulator.new sets blocks size miss write EvictionPolicy.LRU).loads
      + (Simulator.new sets blocks size miss write EvictionPolicy.LRU).stores = 0 := rfl
    omega
  have hb2' : 2 ≤ s.blocks := by
    have : s.blocks = blocks := hcfg.2.2.1
    omega
  have hsets : s.cache.sets.length = s.sets := hwf.1.1
  constructor
  · have hidx := wellFormed_index_lt s hwf (loadAddress a)
    obtain ⟨hf, p, new, hp, hc, hst⟩ := load_step s a hidx hwf.2.2.1
    exact ⟨p, hp, justReferenced_of_step s _ _ _ p new hwf hts hN (by rw [← hsets]; exact hidx)
      hp hb2' hf.2.1 hc hst⟩
  · have hidx := wellFormed_index_lt s hwf (storeAddress a)
    have hstep := store_opStep s a hidx (wellFormed_slots_length s hwf _) hwf.2.2.1
    rcases hstep.2.2.2.2.2.2.2.2.2 with ⟨hc, hm, hnm⟩ | ⟨p, new, hp, hc, hst⟩
    · exact Or.inl ⟨hc, hm, hnm⟩
    · exact Or.inr ⟨p, hp, justReferenced_of_step s _ _ _ p new hwf hts hN
        (by rw [← hsets]; exact hidx) hp hb2' hstep.2.1 hc hst⟩

/-- Instance of the amended C19: after `l 0`, `l 4` on the single-set two-way LRU cache, the
load `l 0` has a just-referenced slot. -/
theorem lru_recent_not_victim_witness :
    (ValidGeometry 1 2 4 ∧ 2 ≤ 2 ∧ [(⟨"l", 0x0⟩ : Line), ⟨"l", 0x4⟩].length < 2 ^ 32) ∧
    ∃ p, p < (simulate (Simulator.new 1 2 4 .WriteAllocate .WriteThrough .LRU)
        [⟨"l", 0x0⟩, ⟨"l", 0x4⟩]).2.blocks ∧
      JustReferenced
        (simulate (Simulator.new 1 2 4 .WriteAllocate .WriteThrough .LRU)
          [⟨"l", 0x0⟩, ⟨"l", 0x4⟩]).2
        (load (simulate (Simulator.new 1 2 4 .WriteAllocate .WriteThrough .LRU)
          [⟨"l", 0x0⟩, ⟨"l", 0x4⟩]).2 0x0)
        ((simulate (Simulator.new 1 2 4 .WriteAllocate .WriteThrough .LRU)
          [⟨"l", 0x0⟩, ⟨"l", 0x4⟩]).2.index (loadAddress 0x0))
        ((simulate (Simulator.new 1 2 4 .WriteAllocate .WriteThrough .LRU)
          [⟨"l", 0x0⟩, ⟨"l", 0x4⟩]).2.tag (loadAddress 0x0)) p := by
  have hgeo : ValidGeometry 1 2 4 := ⟨by decide, by decide, by decide, by decide⟩
  exact ⟨⟨hgeo, by decide, by decide⟩,
    (lru_recent_not_victim 1 2 4 .WriteAllocate .WriteThrough [⟨"l", 0x0⟩, ⟨"l", 0x4⟩] _ 0x0
      hgeo (by decide) (by decide) rfl).1⟩

/-! ## C21: dirty lines under write-back with no-write-allocate -/

/-- A `store` under no-write-allocate whose tag is not resident leaves the cache unchanged. -/
theorem store_cache_of_absent (s : Simulator) (a : Nat)
    (hm : s.missPolicy = WriteMissPolicy.NoWriteAllocate)
    (hidx : s.index (storeAddress a) < s.cache.sets.length)
    (hnm : ∀ j, j < s.blocks →
      ¬ ((s.cache.slotAt (s.index (storeAddress a)) j).valid = true ∧
         (s.cache.slotAt (s.index (storeAddress a)) j).tag = s.tag (storeAddress a))) :
    (store s a).cache = s.cache := by
  rcases checkMem_cases s (s.tag (storeAddress a)) (s.index (storeAddress a)) (-1) hidx with
    ⟨p, hp, hmt, _, _⟩ | ⟨_, p, _, _, _, hr⟩ | ⟨_, _, hr⟩
  · exact absurd hmt (hnm p hp)
  · rw [store_of_miss_noWriteAllocate s a (-1) p hm (Or.inl rfl) hr]
  · rw [store_of_miss_noWriteAllocate s a s.blocks (-1) hm (Or.inr rfl) hr]

/-- A slot that is dirty after a `load` was dirty before it. -/
theorem load_dirty_was_dirty (s : Simulator) (a : Nat)
    (hidx : s.index (loadAddress a) < s.cache.sets.length) (i j : Nat) (sl' : Slot)
    (h : (load s a).cache.slot? i j = some sl') (hd : sl'.dirty = true) :
    ∃ sl, s.cache.slot? i j = some sl ∧ sl.dirty = true := by
  rcases checkMem_cases s (s.tag (loadAddress a)) (s.index (loadAddress a)) (-1) hidx with
    ⟨p, hp, _, _, hr⟩ | ⟨_, p, _, _, _, hr⟩ | ⟨_, _, hr⟩
  · rw [load_of_hit s a p hp hr] at h
    rcases slot?_modifySlot_cases s.cache _ p _ i j sl' h with ⟨hi, hj, hnew, hold⟩ | ⟨_, hsame⟩
    · rw [hi, hj]
      refine ⟨_, hold, ?_⟩
      rw [hnew] at hd
      exact hd
    · exact ⟨sl', hsame, hd⟩
  · rw [load_of_space s a p hr] at h
    rcases slot?_modifySlot_cases s.cache _ p _ i j sl' h with ⟨_, _, hnew, _⟩ | ⟨_, hsame⟩
    · rw [hnew] at hd
      exact absurd hd Bool.false_ne_true
    · exact ⟨sl', hsame, hd⟩
  · rw [load_of_full s a (-1) hr] at h
    rcases slot?_modifySlot_cases s.cache _ _ _ i j sl' h with ⟨_, _, hnew, _⟩ | ⟨_, hsame⟩
    · rw [hnew] at hd
      exact absurd hd Bool.false_ne_true
    · exact ⟨sl', hsame, hd⟩

/-- Under no-write-allocate, a slot that is dirty after a `store` was dirty before it or is a
slot of the addressed set that held the stored block. -/
theorem store_dirty_was_hit (s : Simulator) (a : Nat)
    (hm : s.missPolicy = WriteMissPolicy.NoWriteAllocate)
    (hidx : s.index (storeAddress a) < s.cache.sets.length)
    (hlen : (s.cache.setAt (s.index (storeAddress a))).slots.length = s.blocks)
    (i j : Nat) (sl' : Slot)
    (h : (store s a).cache.slot? i j = some sl') (hd : sl'.dirty = true) :
    ∃ sl, s.cache.slot? i j = some sl ∧
      (sl.dirty = true ∨
        (i = s.index (storeAddress a) ∧ sl.valid = true ∧ sl.tag = s.tag (storeAddress a))) := by
  rcases checkMem_cases s (s.tag (storeAddress a)) (s.index (storeAddress a)) (-1) hidx with
    ⟨p, hp, hmt, _, hr⟩ | ⟨hnm, _⟩ | ⟨hnm, _⟩
  · rcases writePolicy_cases s.writePolicy with hw | hw
    · rw [store_of_hit_writeBack s a p hp hidx hlen hw hr] at h
      rcases slot?_modifySlot_cases s.cache _ p _ i j sl' h with
        ⟨hi, hj, _, hold⟩ | ⟨_, hsame⟩
      · rw [hi, hj]
        exact ⟨_, hold, Or.inr ⟨rfl, hmt.1, hmt.2⟩⟩
      · exact ⟨sl', hsame, Or.inl hd⟩
    · rw [store_of_hit_writeThrough s a p hp hw hr] at h
      rcases slot?_modifySlot_cases s.cache _ p _ i j sl' h with
        ⟨hi, hj, _, hold⟩ | ⟨_, hsame⟩
      · rw [hi, hj]
        exact ⟨_, hold, Or.inr ⟨rfl, hmt.1, hmt.2⟩⟩
      · exact ⟨sl', hsame, Or.inl hd⟩
  · rw [store_cache_of_absent s a hm hidx hnm] at h
    exact ⟨sl', h, Or.inl hd⟩
  · rw [store_cache_of_absent s a hm hidx hnm] at h
    exact ⟨sl', h, Or.inl hd⟩

/-- A slot read as `slotAt` in a grid whose slots are all the default one is the default. -/
theorem slotAt_default_of_all (c : Cache) (h : ∀ i j sl, c.slot? i j = some sl → sl = default)
    (i j : Nat) : c.slotAt i j = default := by
  rw [slotAt_eq_getD_slot?]
  cases hs : c.slot? i j with
  | none => rfl
  | some x => rw [h i j x hs]; rfl

/-- Under no-write-allocate a run of stores leaves a grid of default slots as it is. -/
theorem simulate_stores_only :
    ∀ (lines : List Line) (s : Simulator), s.WellFormed →
      s.missPolicy = WriteMissPolicy.NoWriteAllocate →
      (∀ l, l ∈ lines → l.type = "s") →
      (∀ i j sl, s.cache.slot? i j = some sl → sl = default) →
      ∀ i j sl, (simulate s lines).2.cache.slot? i j = some sl → sl = default := by
  intro lines
  induction lines with
  | nil => intro s _ _ _ h; exact h
  | cons line rest ih =>
    intro s hwf hm hty h
    have ht : line.type = "s" := hty line (List.mem_cons_self _ _)
    have hline : line = ⟨"s", line.address⟩ := by
      cases line
      simp only [Line.mk.injEq, and_true]
      exact ht
    rw [hline, simulate_store_cons]
    have hidx := wellFormed_index_lt s hwf (storeAddress line.address)
    have hstep := store_opStep s line.address hidx (wellFormed_slots_length s hwf _) hwf.2.2.1
    have hw' : (store s line.address).WellFormed := wellFormed_of_opStep s _ _ _ hwf hstep
    have hc : (store s line.address).cache = s.cache := by
      apply store_cache_of_absent s line.address hm hidx
      intro j _ hv
      rw [slotAt_default_of_all s.cache h] at hv
      exact Bool.false_ne_true hv.1
    apply ih { store s line.address with stores := ((store s line.address).stores + 1) % 2 ^ 32 }
      hw' (hstep.2.2.2.1.trans hm) (fun l hl => hty l (List.mem_cons_of_mem _ hl))
    intro i j sl hsl
    have hsl' : (store s line.address).cache.slot? i j = some sl := hsl
    rw [hc] at hsl'
    exact h i j sl hsl'

/-- One operation keeps the fact that every dirty slot is valid. -/
theorem dirtyValid_of_opStep (s s' : Simulator) (index tag : Nat)
    (hstep : OpStep s s' index tag)
    (h : ∀ i j sl, s.cache.slot? i j = some sl → sl.dirty = true → sl.valid = true) :
    ∀ i j sl, s'.cache.slot? i j = some sl → sl.dirty = true → sl.valid = true := by
  intro i j sl hsl hd
  rcases hstep.2.2.2.2.2.2.2.2.2 with ⟨hc, _, _⟩ | ⟨p, new, _, hc, hv, _⟩
  · rw [hc] at hsl
    exact h i j sl hsl hd
  · rw [hc] at hsl
    rcases slot?_modifySlot_cases s.cache index p _ i j sl hsl with
      ⟨_, _, hnew, _⟩ | ⟨_, hsame⟩
    · rw [hnew]; exact hv
    · exact h i j sl hsame hd

/-- C21, the claim refuted as stated. On the single-set direct-mapped cache with 4-byte blocks
(a validated geometry) constructed with `WriteBack` and `NoWriteAllocate`, the trace `l 0`,
`s 0` is processed to the end: the load installs the block, the store hits it, and `writeHit`
sets its dirty bit. The state reached has a slot with `dirty = true`. -/
theorem noWriteAllocate_writeBack_counterexample :
    ValidGeometry 1 1 4 ∧
    Reachable (Simulator.new 1 1 4 .NoWriteAllocate .WriteBack .LRU)
      (simulate (Simulator.new 1 1 4 .NoWriteAllocate .WriteBack .LRU)
        [⟨"l", 0x0⟩, ⟨"s", 0x0⟩]).2 ∧
    (simulate (Simulator.new 1 1 4 .NoWriteAllocate .WriteBack .LRU)
      [⟨"l", 0x0⟩, ⟨"s", 0x0⟩]).1 = 0 ∧
    (simulate (Simulator.new 1 1 4 .NoWriteAllocate .WriteBack .LRU)
      [⟨"l", 0x0⟩, ⟨"s", 0x0⟩]).2.cache.slot? 0 0 = some ⟨true, true, 0, 0, 0, 1⟩ ∧
    ((simulate (Simulator.new 1 1 4 .NoWriteAllocate .WriteBack .LRU)
      [⟨"l", 0x0⟩, ⟨"s", 0x0⟩]).2.cache.slotAt 0 0).dirty = true :=
  ⟨⟨by decide, by decide, by decide, by decide⟩, ⟨_, rfl⟩, by decide, by decide, by decide⟩

/-- C21, amended. For a simulator constructed with `WriteBack` and `NoWriteAllocate` on a
validated geometry, with either eviction policy, and `s` the state reached from the fresh cache
by a trace: (1) if the trace consists of stores only, every slot of `s` is still invalid and
clean; (2) every dirty slot of `s` is valid; (3) a `store` whose block is not resident leaves
the cache unchanged, so it installs and dirties nothing; (4) a slot that is dirty after a
`load` was dirty before it; (5) a slot that is dirty after a `store` was dirty before it or is
a valid slot of the addressed set that held the stored tag: only a store hit sets a dirty
bit. -/
theorem noWriteAllocate_writeBack_dirty_by_hit (sets blocks size : Nat)
    (eviction : EvictionPolicy) (lines : List Line) (s : Simulator) (a : Nat)
    (hgeo : ValidGeometry sets blocks size)
    (hs : (simulate (Simulator.new sets blocks size WriteMissPolicy.NoWriteAllocate
      WritePolicy.WriteBack eviction) lines).2 = s) :
    ((∀ l, l ∈ lines → l.type = "s") →
      ∀ i j sl, s.cache.slot? i j = some sl → sl.valid = false ∧ sl.dirty = false) ∧
    (∀ i j sl, s.cache.slot? i j = some sl → sl.dirty = true → sl.valid = true) ∧
    ((∀ j, j < s.blocks →
        ¬ ((s.cache.slotAt (s.index (storeAddress a)) j).valid = true ∧
           (s.cache.slotAt (s.index (storeAddress a)) j).tag = s.tag (storeAddress a))) →
      (store s a).cache = s.cache) ∧
    (∀ i j sl', (load s a).cache.slot? i j = some sl' → sl'.dirty = true →
      ∃ sl, s.cache.slot? i j = some sl ∧ sl.dirty = true) ∧
    (∀ i j sl', (store s a).cache.slot? i j = some sl' → sl'.dirty = true →
      ∃ sl, s.cache.slot? i j = some sl ∧
        (sl.dirty = true ∨
          (i = s.index (storeAddress a) ∧ sl.valid = true ∧
            sl.tag = s.tag (storeAddress a)))) := by
  have hwf0 := new_wellFormed sets blocks size WriteMissPolicy.NoWriteAllocate
    WritePolicy.WriteBack eviction hgeo
  have hcfg := simulate_keeps_config _ hwf0 lines
  rw [hs] at hcfg
  obtain ⟨hwf, _, _, _, hm, _, _⟩ := hcfg
  have hm' : s.missPolicy = WriteMissPolicy.NoWriteAllocate := hm
  refine ⟨fun hty i j sl hsl => ?_, ?_, fun hnm => ?_, fun i j sl' h hd => ?_,
    fun i j sl' h hd => ?_⟩
  · rw [← hs] at hsl
    have := simulate_stores_only lines _ hwf0 rfl hty
      (fun i j sl h => new_slot? sets blocks size _ _ eviction i j sl h) i j sl hsl
    rw [this]
    exact ⟨rfl, rfl⟩
  · rw [← hs]
    exact (simulate_invariant
      (fun s' => s'.WellFormed ∧
        ∀ i j sl, s'.cache.slot? i j = some sl → sl.dirty = true → sl.valid = true)
      (by
        intro s1 a1 ⟨hw1, hd1⟩
        have hstep := load_opStep s1 a1 (wellFormed_index_lt s1 hw1 _) hw1.2.2.1
        have hw' : (load s1 a1).WellFormed := wellFormed_of_opStep s1 _ _ _ hw1 hstep
        have hd' : ∀ i j sl, (load s1 a1).cache.slot? i j = some sl → sl.dirty = true →
            sl.valid = true := dirtyValid_of_opStep s1 _ _ _ hstep hd1
        exact ⟨hw', hd'⟩)
      (by
        intro s1 a1 ⟨hw1, hd1⟩
        have hstep := store_opStep s1 a1 (wellFormed_index_lt s1 hw1 _)
          (wellFormed_slots_length s1 hw1 _) hw1.2.2.1
        have hw' : (store s1 a1).WellFormed := wellFormed_of_opStep s1 _ _ _ hw1 hstep
        have hd' : ∀ i j sl, (store s1 a1).cache.slot? i j = some sl → sl.dirty = true →
            sl.valid = true := dirtyValid_of_opStep s1 _ _ _ hstep hd1
        exact ⟨hw', hd'⟩)
      lines _
      ⟨hwf0, fun i j sl h hd => by
        rw [new_slot? sets blocks size _ _ eviction i j sl h] at hd
        exact absurd hd Bool.false_ne_true⟩).2
  · exact store_cache_of_absent s a hm' (wellFormed_index_lt s hwf _) hnm
  · exact load_dirty_was_dirty s a (wellFormed_index_lt s hwf _) i j sl' h hd
  · exact store_dirty_was_hit s a hm' (wellFormed_index_lt s hwf _)
      (wellFormed_slots_length s hwf _) i j sl' h hd

/-- Instance of the amended C21: after the stores `s 0`, `s 4` on the single-set
direct-mapped cache every slot is invalid and clean. -/
theorem noWriteAllocate_writeBack_dirty_by_hit_witness :
    (ValidGeometry 1 1 4 ∧ ∀ l, l ∈ [(⟨"s", 0x0⟩ : Line), ⟨"s", 0x4⟩] → l.type = "s") ∧
    ∀ i j sl,
      (simulate (Simulator.new 1 1 4 .NoWriteAllocate .WriteBack .LRU)
        [⟨"s", 0x0⟩, ⟨"s", 0x4⟩]).2.cache.slot? i j = some sl →
      sl.valid = false ∧ sl.dirty = false := by
  have hgeo : ValidGeometry 1 1 4 := ⟨by decide, by decide, by decide, by decide⟩
  have hty : ∀ l, l ∈ [(⟨"s", 0x0⟩ : Line), ⟨"s", 0x4⟩] → l.type = "s" := by decide
  exact ⟨⟨hgeo, hty⟩,
    (noWriteAllocate_writeBack_dirty_by_hit 1 1 4 .LRU [⟨"s", 0x0⟩, ⟨"s", 0x4⟩] _ 0x0 hgeo
      rfl).1 hty⟩

/-! ## C22: counter consistency -/

/-- The counters after a `load`: the store counters are kept, and either it is a hit (one more
`lhits`, one more cycle) or a miss (one more `lmisses`, the fetch cost and, when a dirty slot
is evicted, once more the same cost). -/
theorem load_delta (s : Simulator) (a : Nat)
    (hidx : s.index (loadAddress a) < s.cache.sets.length) (hb : 1 ≤ s.blocks) :
    (load s a).shits = s.shits ∧ (load s a).smisses = s.smisses ∧
    (((load s a).lhits = s.lhits + 1 ∧ (load s a).lmisses = s.lmisses ∧
        (load s a).cycles = s.cycles + 1) ∨
      ((load s a).lhits = s.lhits ∧ (load s a).lmisses = s.lmisses + 1 ∧
        ∃ charge : Int, (load s a).cycles = s.cycles + 100 * s.memoryMultiplier + charge ∧
          (charge = 0 ∨ (charge = 100 * s.memoryMultiplier ∧
            ∃ p, p < s.blocks ∧ (s.cache.slotAt (s.index (loadAddress a)) p).dirty = true)))) := by
  rcases checkMem_cases s (s.tag (loadAddress a)) (s.index (loadAddress a)) (-1) hidx with
    ⟨p, hp, _, _, hr⟩ | ⟨_, p, _, _, _, hr⟩ | ⟨_, _, hr⟩
  · rw [load_of_hit s a p hp hr]
    exact ⟨rfl, rfl, Or.inl ⟨rfl, rfl, rfl⟩⟩
  · rw [load_of_space s a p hr]
    exact ⟨rfl, rfl, Or.inr ⟨rfl, rfl, 0, (add_zero _).symm, Or.inl rfl⟩⟩
  · rw [load_of_full s a (-1) hr]
    refine ⟨rfl, rfl, Or.inr ⟨rfl, rfl, _, rfl, ?_⟩⟩
    by_cases hd : (s.cache.slotAt (s.index (loadAddress a))
        (evictBlockOf s (s.index (loadAddress a)))).dirty = true
    · rw [if_pos hd]
      exact Or.inr ⟨rfl, _, evictBlockOf_lt s _ hb, hd⟩
    · rw [if_neg hd]
      exact Or.inl rfl

/-- The counters after a `store`: the load counters are kept, and either it is a hit (one
more `shits`; one cycle under write-back, `101` under write-through) or a miss (one more
`smisses`; `100` cycles under no-write-allocate, and under write-allocate the fetch cost, once
more the same cost when a dirty slot is evicted, and one cycle under write-back or `101` under
write-through). -/
theorem store_delta (s : Simulator) (a : Nat)
    (hidx : s.index (storeAddress a) < s.cache.sets.length)
    (hlen : (s.cache.setAt (s.index (storeAddress a))).slots.length = s.blocks)
    (hb : 1 ≤ s.blocks) :
    (store s a).lhits = s.lhits ∧ (store s a).lmisses = s.lmisses ∧
    (((store s a).shits = s.shits + 1 ∧ (store s a).smisses = s.smisses ∧
        (store s a).cycles
          = s.cycles + (if s.writePolicy = WritePolicy.WriteBack then 1 else 101)) ∨
      ((store s a).shits = s.shits ∧ (store s a).smisses = s.smisses + 1 ∧
        ((s.missPolicy = WriteMissPolicy.NoWriteAllocate ∧
            (store s a).cycles = s.cycles + 100) ∨
          (s.missPolicy = WriteMissPolicy.WriteAllocate ∧
            ∃ charge : Int,
              (store s a).cycles = s.cycles + 100 * s.memoryMultiplier + charge
                + (if s.writePolicy = WritePolicy.WriteBack then 1 else 101) ∧
              (charge = 0 ∨ (charge = 100 * s.memoryMultiplier ∧
                ∃ p, p < s.blocks ∧
                  (s.cache.slotAt (s.index (storeAddress a)) p).dirty = true)))))) := by
  have hwt : ∀ (h : s.writePolicy = WritePolicy.WriteThrough),
      ¬ s.writePolicy = WritePolicy.WriteBack := fun h h' => by
    rw [h] at h'
    exact WritePolicy.noConfusion h'
  have hcharge : ∀ c : Int,
      c = (if (s.cache.slotAt (s.index (storeAddress a))
            (evictBlockOf s (s.index (storeAddress a)))).dirty = true
          then 100 * s.memoryMultiplier else 0) →
      (c = 0 ∨ (c = 100 * s.memoryMultiplier ∧
        ∃ p, p < s.blocks ∧ (s.cache.slotAt (s.index (storeAddress a)) p).dirty = true)) := by
    intro c hc
    by_cases hd : (s.cache.slotAt (s.index (storeAddress a))
        (evictBlockOf s (s.index (storeAddress a)))).dirty = true
    · rw [if_pos hd] at hc
      exact Or.inr ⟨hc, _, evictBlockOf_lt s _ hb, hd⟩
    · rw [if_neg hd] at hc
      exact Or.inl hc
  rcases checkMem_cases s (s.tag (storeAddress a)) (s.index (storeAddress a)) (-1) hidx with
    ⟨p, hp, _, _, hr⟩ | ⟨_, p, _, _, _, hr⟩ | ⟨_, _, hr⟩
  · rcases writePolicy_cases s.writePolicy with hw | hw
    · rw [store_of_hit_writeBack s a p hp hidx hlen hw hr]
      exact ⟨rfl, rfl, Or.inl ⟨rfl, rfl, by rw [if_pos hw]⟩⟩
    · rw [store_of_hit_writeThrough s a p hp hw hr]
      refine ⟨rfl, rfl, Or.inl ⟨rfl, rfl, ?_⟩⟩
      rw [if_neg (hwt hw)]
      show s.cycles + 1 + 100 = s.cycles + 101
      omega
  · rcases missPolicy_cases s.missPolicy with hmp | hmp
    · rcases writePolicy_cases s.writePolicy with hw | hw
      · rw [store_of_space_writeBack s a p hmp hw hr]
        refine ⟨rfl, rfl, Or.inr ⟨rfl, rfl, Or.inr ⟨hmp, 0, ?_, Or.inl rfl⟩⟩⟩
        rw [if_pos hw]
        show s.cycles + 100 * s.memoryMultiplier + 1 = _
        omega
      · rw [store_of_space_writeThrough s a p hmp hw hr]
        refine ⟨rfl, rfl, Or.inr ⟨rfl, rfl, Or.inr ⟨hmp, 0, ?_, Or.inl rfl⟩⟩⟩
        rw [if_neg (hwt hw)]
        show s.cycles + 100 * s.memoryMultiplier + 100 + 1 = _
        omega
    · rw [store_of_miss_noWriteAllocate s a (-1) p hmp (Or.inl rfl) hr]
      exact ⟨rfl, rfl, Or.inr ⟨rfl, rfl, Or.inl ⟨hmp, rfl⟩⟩⟩
  · rcases missPolicy_cases s.missPolicy with hmp | hmp
    · rcases writePolicy_cases s.writePolicy with hw | hw
      · rw [store_of_full_writeBack s a (-1) hmp hw hr]
        refine ⟨rfl, rfl, Or.inr ⟨rfl, rfl, Or.inr ⟨hmp, _, ?_, hcharge _ rfl⟩⟩⟩
        rw [if_pos hw]
      · rw [store_of_full_writeThrough s a (-1) hmp hw hr]
        refine ⟨rfl, rfl, Or.inr ⟨rfl, rfl, Or.inr ⟨hmp, _, ?_, hcharge _ rfl⟩⟩⟩
        rw [if_neg (hwt hw)]
        show s.cycles + 100 * s.memoryMultiplier + _ + 100 + 1 = _
        omega
    · rw [store_of_miss_noWriteAllocate s a s.blocks (-1) hmp (Or.inr rfl) hr]
      exact ⟨rfl, rfl, Or.inr ⟨rfl, rfl, Or.inl ⟨hmp, rfl⟩⟩⟩

theorem line_eq_of_type (line : Line) (ty : String) (h : line.type = ty) :
    line = ⟨ty, line.address⟩ := by
  cases line
  simp only [Line.mk.injEq, and_true]
  exact h

/-- The memory multiplier of a well-formed simulator is not negative. -/
theorem wellFormed_multiplier_nonneg (s : Simulator) (hwf : s.WellFormed) :
    0 ≤ s.memoryMultiplier := by
  rw [hwf.2.2.2]
  exact Int.natCast_nonneg _

theorem load_cycles_le (s : Simulator) (a : Nat) (hwf : s.WellFormed) :
    s.cycles ≤ (load s a).cycles := by
  have hmm := wellFormed_multiplier_nonneg s hwf
  rcases (load_delta s a (wellFormed_index_lt s hwf _) hwf.2.2.1).2.2 with
    ⟨_, _, hc⟩ | ⟨_, _, c, hc, hch⟩
  · omega
  · rcases hch with h | ⟨h, _⟩ <;> omega

theorem store_cycles_le (s : Simulator) (a : Nat) (hwf : s.WellFormed) :
    s.cycles ≤ (store s a).cycles := by
  have hmm := wellFormed_multiplier_nonneg s hwf
  rcases (store_delta s a (wellFormed_index_lt s hwf _) (wellFormed_slots_length s hwf _)
    hwf.2.2.1).2.2 with ⟨_, _, hc⟩ | ⟨_, _, ⟨_, hc⟩ | ⟨_, c, hc, hch⟩⟩
  · split_ifs at hc <;> omega
  · omega
  · rcases hch with h | ⟨h, _⟩ <;> split_ifs at hc <;> omega

/-- Along any run the cycle count does not decrease. -/
theorem simulate_cycles_le :
    ∀ (lines : List Line) (s : Simulator), s.WellFormed →
      s.cycles ≤ (simulate s lines).2.cycles := by
  intro lines
  induction lines with
  | nil => intro s _; exact le_refl _
  | cons line rest ih =>
    intro s hwf
    unfold simulate
    split
    · have hstep := load_opStep s line.address (wellFormed_index_lt s hwf _) hwf.2.2.1
      have hw' : (load s line.address).WellFormed := wellFormed_of_opStep s _ _ _ hwf hstep
      have h1 := load_cycles_le s line.address hwf
      have h2 := ih { load s line.address with
        loads := ((load s line.address).loads + 1) % 2 ^ 32 } hw'
      exact le_trans h1 h2
    · split
      · have hstep := store_opStep s line.address (wellFormed_index_lt s hwf _)
          (wellFormed_slots_length s hwf _) hwf.2.2.1
        have hw' : (store s line.address).WellFormed :=
          wellFormed_of_opStep s _ _ _ hwf hstep
        have h1 := store_cycles_le s line.address hwf
        have h2 := ih { store s line.address with
          stores := ((store s line.address).stores + 1) % 2 ^ 32 } hw'
        exact le_trans h1 h2
      · exact le_refl _

/-- The counters along a run of valid lines that does not wrap the operation counts: the run
is processed to the end, every line adds one to `loads + stores`, the load hits and misses
grow with `loads` and the store hits and misses with `stores`. -/
theorem simulate_counts :
    ∀ (lines : List Line) (s : Simulator), s.WellFormed →
      (∀ l, l ∈ lines → l.type = "l" ∨ l.type = "s") →
      s.loads + s.stores + lines.length < 2 ^ 32 →
      (simulate s lines).1 = 0 ∧
      (simulate s lines).2.loads + (simulate s lines).2.stores
        = s.loads + s.stores + lines.length ∧
      (simulate s lines).2.lhits + (simulate s lines).2.lmisses
        - ((simulate s lines).2.loads : Int) = s.lhits + s.lmisses - (s.loads : Int) ∧
      (simulate s lines).2.shits + (simulate s lines).2.smisses
        - ((simulate s lines).2.stores : Int) = s.shits + s.smisses - (s.stores : Int) := by
  intro lines
  induction lines with
  | nil =>
    intro s _ _ _
    exact ⟨rfl, rfl, rfl, rfl⟩
  | cons line rest ih =>
    intro s hwf hty hlen
    have hlc : (line :: rest).length = rest.length + 1 := rfl
    rw [hlc] at hlen ⊢
    have hty' : ∀ l, l ∈ rest → l.type = "l" ∨ l.type = "s" :=
      fun l hl => hty l (List.mem_cons_of_mem _ hl)
    rcases hty line (List.mem_cons_self _ _) with ht | ht
    · rw [line_eq_of_type line "l" ht, simulate_load_cons]
      have hidx := wellFormed_index_lt s hwf (loadAddress line.address)
      have hstep := load_opStep s line.address hidx hwf.2.2.1
      have hw' : (load s line.address).WellFormed := wellFormed_of_opStep s _ _ _ hwf hstep
      have hl : (load s line.address).loads = s.loads := hstep.2.2.2.2.2.2.2.1
      have hs : (load s line.address).stores = s.stores := hstep.2.2.2.2.2.2.2.2.1
      have hmod : ((load s line.address).loads + 1) % 2 ^ 32 = s.loads + 1 := by
        rw [hl]; exact Nat.mod_eq_of_lt (by omega)
      obtain ⟨hd1, hd2, hd3⟩ := load_delta s line.address hidx hwf.2.2.1
      have hrec := ih { load s line.address with
          loads := ((load s line.address).loads + 1) % 2 ^ 32 } hw' hty'
        (by
          show ((load s line.address).loads + 1) % 2 ^ 32 + (load s line.address).stores
            + rest.length < 2 ^ 32
          rw [hmod, hs]; omega)
      obtain ⟨r1, r2, r3, r4⟩ := hrec
      have e2 : ((load s line.address).loads + 1) % 2 ^ 32 + (load s line.address).stores
          + rest.length = s.loads + s.stores + (rest.length + 1) := by
        rw [hmod, hs]; omega
      have e3 : (load s line.address).lhits + (load s line.address).lmisses
          - ((((load s line.address).loads + 1) % 2 ^ 32 : Nat) : Int)
          = s.lhits + s.lmisses - (s.loads : Int) := by
        rw [hmod]
        push_cast
        rcases hd3 with ⟨h1, h2, _⟩ | ⟨h1, h2, _⟩ <;> omega
      have e4 : (load s line.address).shits + (load s line.address).smisses
          - ((load s line.address).stores : Int) = s.shits + s.smisses - (s.stores : Int) := by
        rw [hd1, hd2, hs]
      exact ⟨r1, r2.trans e2, r3.trans e3, r4.trans e4⟩
    · rw [line_eq_of_type line "s" ht, simulate_store_cons]
      have hidx := wellFormed_index_lt s hwf (storeAddress line.address)
      have hlen' := wellFormed_slots_length s hwf (storeAddress line.address)
      have hstep := store_opStep s line.address hidx hlen' hwf.2.2.1
      have hw' : (store s line.address).WellFormed := wellFormed_of_opStep s _ _ _ hwf hstep
      have hl : (store s line.address).loads = s.loads := hstep.2.2.2.2.2.2.2.1
      have hs : (store s line.address).stores = s.stores := hstep.2.2.2.2.2.2.2.2.1
      have hmod : ((store s line.address).stores + 1) % 2 ^ 32 = s.stores + 1 := by
        rw [hs]; exact Nat.mod_eq_of_lt (by omega)
      obtain ⟨hd1, hd2, hd3⟩ := store_delta s line.address hidx hlen' hwf.2.2.1
      have hrec := ih { store s line.address with
          stores := ((store s line.address).stores + 1) % 2 ^ 32 } hw' hty'
        (by
          show (store s line.address).loads
            + ((store s line.address).stores + 1) % 2 ^ 32 + rest.length < 2 ^ 32
          rw [hmod, hl]; omega)
      obtain ⟨r1, r2, r3, r4⟩ := hrec
      have e2 : (store s line.address).loads + ((store s line.address).stores + 1) % 2 ^ 32
          + rest.length = s.loads + s.stores + (rest.length + 1) := by
        rw [hmod, hl]; omega
      have e3 : (store s line.address).lhits + (store s line.address).lmisses
          - ((store s line.address).loads : Int) = s.lhits + s.lmisses - (s.loads : Int) := by
        rw [hd1, hd2, hl]
      have e4 : (store s line.address).shits + (store s line.address).smisses
          - ((((store s line.address).stores + 1) % 2 ^ 32 : Nat) : Int)
          = s.shits + s.smisses - (s.stores : Int) := by
        rw [hmod]
        push_cast
        rcases hd3 with ⟨h1, h2, _⟩ | ⟨h1, h2, _⟩ <;> omega
      exact ⟨r1, r2.trans e2, r3.trans e3, r4.trans e4⟩

theorem wrapTrace_types : ∀ l, l ∈ wrapTrace → l.type = "l" := by
  intro l hl
  unfold wrapTrace at hl
  rcases List.mem_cons.mp hl with h | h
  · rw [h]
  · rcases List.mem_cons.mp h with h | h
    · rw [h]
    · rw [List.eq_of_mem_replicate h]

/-- The memory multiplier of a validated geometry is at least one. -/
theorem validGeometry_multiplier_pos (sets blocks size : Nat)
    (h : ValidGeometry sets blocks size) : (1 : Int) ≤ ((size / 4 : Nat) : Int) := by
  obtain ⟨hacc, _, _, _⟩ := h
  obtain ⟨h4, _⟩ := (parseInputParameters_iff _ _ _).mp hacc
  have hsz : 4 ≤ size := by exact_mod_cast h4
  have : 1 ≤ size / 4 := by omega
  exact_mod_cast this

/-- The counters are not negative and every operation counted has cost at least one cycle. -/
theorem counters_of_load (s : Simulator) (a : Nat) (hwf : s.WellFormed)
    (hmm : 1 ≤ s.memoryMultiplier)
    (h : 0 ≤ s.lhits ∧ 0 ≤ s.lmisses ∧ 0 ≤ s.shits ∧ 0 ≤ s.smisses ∧
      s.lhits + s.lmisses + s.shits + s.smisses ≤ s.cycles) :
    0 ≤ (load s a).lhits ∧ 0 ≤ (load s a).lmisses ∧ 0 ≤ (load s a).shits ∧
    0 ≤ (load s a).smisses ∧
    (load s a).lhits + (load s a).lmisses + (load s a).shits + (load s a).smisses
      ≤ (load s a).cycles ∧
    s.cycles + 1 ≤ (load s a).cycles := by
  obtain ⟨h1, h2, h3, h4, h5⟩ := h
  obtain ⟨d1, d2, d3⟩ := load_delta s a (wellFormed_index_lt s hwf _) hwf.2.2.1
  rw [d1, d2]
  rcases d3 with ⟨e1, e2, e3⟩ | ⟨e1, e2, c, e3, hc⟩
  · rw [e1, e2, e3]
    omega
  · rw [e1, e2, e3]
    rcases hc with hc | ⟨hc, _⟩ <;> omega

theorem counters_of_store (s : Simulator) (a : Nat) (hwf : s.WellFormed)
    (hmm : 1 ≤ s.memoryMultiplier)
    (h : 0 ≤ s.lhits ∧ 0 ≤ s.lmisses ∧ 0 ≤ s.shits ∧ 0 ≤ s.smisses ∧
      s.lhits + s.lmisses + s.shits + s.smisses ≤ s.cycles) :
    0 ≤ (store s a).lhits ∧ 0 ≤ (store s a).lmisses ∧ 0 ≤ (store s a).shits ∧
    0 ≤ (store s a).smisses ∧
    (store s a).lhits + (store s a).lmisses + (store s a).shits + (store s a).smisses
      ≤ (store s a).cycles ∧
    s.cycles + 1 ≤ (store s a).cycles := by
  obtain ⟨h1, h2, h3, h4, h5⟩ := h
  obtain ⟨d1, d2, d3⟩ := store_delta s a (wellFormed_index_lt s hwf _)
    (wellFormed_slots_length s hwf _) hwf.2.2.1
  rw [d1, d2]
  rcases d3 with ⟨e1, e2, e3⟩ | ⟨e1, e2, ⟨_, e3⟩ | ⟨_, c, e3, hc⟩⟩
  · rw [e1, e2, e3]
    split_ifs <;> omega
  · rw [e1, e2, e3]
    omega
  · rw [e1, e2, e3]
    rcases hc with hc | ⟨hc, _⟩ <;> split_ifs <;> omega

/-- Along any run from a state with a positive memory multiplier, the counters stay
non-negative and their sum stays at most the cycle total. -/
theorem simulate_counters (lines : List Line) (s : Simulator) (hwf : s.WellFormed)
    (hmm : 1 ≤ s.memoryMultiplier)
    (h : 0 ≤ s.lhits ∧ 0 ≤ s.lmisses ∧ 0 ≤ s.shits ∧ 0 ≤ s.smisses ∧
      s.lhits + s.lmisses + s.shits + s.smisses ≤ s.cycles) :
    0 ≤ (simulate s lines).2.lhits ∧ 0 ≤ (simulate s lines).2.lmisses ∧
    0 ≤ (simulate s lines).2.shits ∧ 0 ≤ (simulate s lines).2.smisses ∧
    (simulate s lines).2.lhits + (simulate s lines).2.lmisses + (simulate s lines).2.shits
      + (simulate s lines).2.smisses ≤ (simulate s lines).2.cycles := by
  have hinv := simulate_invariant
    (fun s' => s'.WellFormed ∧ 1 ≤ s'.memoryMultiplier ∧
      (0 ≤ s'.lhits ∧ 0 ≤ s'.lmisses ∧ 0 ≤ s'.shits ∧ 0 ≤ s'.smisses ∧
        s'.lhits + s'.lmisses + s'.shits + s'.smisses ≤ s'.cycles))
    (by
      intro s1 a ⟨hw1, hm1, hc1⟩
      have hstep := load_opStep s1 a (wellFormed_index_lt s1 hw1 _) hw1.2.2.1
      have hw' : (load s1 a).WellFormed := wellFormed_of_opStep s1 _ _ _ hw1 hstep
      have hm' : 1 ≤ (load s1 a).memoryMultiplier := by
        rw [hstep.2.2.2.2.2.2.1]; exact hm1
      obtain ⟨c1, c2, c3, c4, c5, _⟩ := counters_of_load s1 a hw1 hm1 hc1
      exact ⟨hw', hm', c1, c2, c3, c4, c5⟩)
    (by
      intro s1 a ⟨hw1, hm1, hc1⟩
      have hstep := store_opStep s1 a (wellFormed_index_lt s1 hw1 _)
        (wellFormed_slots_length s1 hw1 _) hw1.2.2.1
      have hw' : (store s1 a).WellFormed := wellFormed_of_opStep s1 _ _ _ hw1 hstep
      have hm' : 1 ≤ (store s1 a).memoryMultiplier := by
        rw [hstep.2.2.2.2.2.2.1]; exact hm1
      obtain ⟨c1, c2, c3, c4, c5, _⟩ := counters_of_store s1 a hw1 hm1 hc1
      exact ⟨hw', hm', c1, c2, c3, c4, c5⟩)
    lines s ⟨hwf, hmm, h⟩
  exact hinv.2.2

/-- Every processed line costs at least one cycle. -/
theorem simulate_length_le_cycles :
    ∀ (lines : List Line) (s : Simulator), s.WellFormed → 1 ≤ s.memoryMultiplier →
      (0 ≤ s.lhits ∧ 0 ≤ s.lmisses ∧ 0 ≤ s.shits ∧ 0 ≤ s.smisses ∧
        s.lhits + s.lmisses + s.shits + s.smisses ≤ s.cycles) →
      (∀ l, l ∈ lines → l.type = "l" ∨ l.type = "s") →
      s.cycles + lines.length ≤ (simulate s lines).2.cycles := by
  intro lines
  induction lines with
  | nil =>
    intro s _ _ _ _
    show s.cycles + ((0 : Nat) : Int) ≤ s.cycles
    omega
  | cons line rest ih =>
    intro s hwf hmm hc hty
    have hty' : ∀ l, l ∈ rest → l.type = "l" ∨ l.type = "s" :=
      fun l hl => hty l (List.mem_cons_of_mem _ hl)
    have hlc : (((line :: rest).length : Nat) : Int) = (rest.length : Int) + 1 := by
      rw [List.length_cons]
      push_cast
      ring
    rw [hlc]
    rcases hty line (List.mem_cons_self _ _) with ht | ht
    · rw [line_eq_of_type line "l" ht, simulate_load_cons]
      have hstep := load_opStep s line.address (wellFormed_index_lt s hwf _) hwf.2.2.1
      have hw' : (load s line.address).WellFormed := wellFormed_of_opStep s _ _ _ hwf hstep
      have hm' : 1 ≤ (load s line.address).memoryMultiplier := by
        rw [hstep.2.2.2.2.2.2.1]; exact hmm
      obtain ⟨c1, c2, c3, c4, c5, c6⟩ := counters_of_load s line.address hwf hmm hc
      have hrec := ih { load s line.address with
        loads := ((load s line.address).loads + 1) % 2 ^ 32 } hw' hm' ⟨c1, c2, c3, c4, c5⟩ hty'
      have hrec' : (load s line.address).cycles + (rest.length : Int)
          ≤ (simulate { load s line.address with
            loads := ((load s line.address).loads + 1) % 2 ^ 32 } rest).2.cycles := hrec
      omega
    · rw [line_eq_of_type line "s" ht, simulate_store_cons]
      have hstep := store_opStep s line.address (wellFormed_index_lt s hwf _)
        (wellFormed_slots_length s hwf _) hwf.2.2.1
      have hw' : (store s line.address).WellFormed := wellFormed_of_opStep s _ _ _ hwf hstep
      have hm' : 1 ≤ (store s line.address).memoryMultiplier := by
        rw [hstep.2.2.2.2.2.2.1]; exact hmm
      obtain ⟨c1, c2, c3, c4, c5, c6⟩ := counters_of_store s line.address hwf hmm hc
      have hrec := ih { store s line.address with
        stores := ((store s line.address).stores + 1) % 2 ^ 32 } hw' hm' ⟨c1, c2, c3, c4, c5⟩
        hty'
      have hrec' : (store s line.address).cycles + (rest.length : Int)
          ≤ (simulate { store s line.address with
            stores := ((store s line.address).stores + 1) % 2 ^ 32 } rest).2.cycles := hrec
      omega

/-- C22, the claim refuted as stated. (1) The `2 ^ 32` lines of `wrapTrace` are valid load
lines and `simulate` processes them all on the single-set two-way cache with 4-byte blocks (a
validated geometry), returning `0`; in the state reached the `uint32_t` counter `loads` has
wrapped to `0` and `stores` is `0`, so `loads + stores` is not the number `n = 2 ^ 32` of
processed lines. (2) On the single-line cache with blocks of `2 ^ 27` bytes (a validated
geometry with a defined tag shift) the one line `l 0` is processed and brings the cycle total
to `100 * 2 ^ 25 = 3355443200`, which is not a value of the 32-bit `int` that `cycles` is: the
addition overflows. -/
theorem counter_consistency_counterexample :
    (ValidGeometry 1 2 4 ∧ (∀ l, l ∈ wrapTrace → l.type = "l") ∧ wrapTrace.length = 2 ^ 32 ∧
      (simulate (Simulator.new 1 2 4 .WriteAllocate .WriteThrough .LRU) wrapTrace).1 = 0 ∧
      (simulate (Simulator.new 1 2 4 .WriteAllocate .WriteThrough .LRU) wrapTrace).2.loads
        = 0 ∧
      (simulate (Simulator.new 1 2 4 .WriteAllocate .WriteThrough .LRU) wrapTrace).2.stores
        = 0 ∧
      (simulate (Simulator.new 1 2 4 .WriteAllocate .WriteThrough .LRU) wrapTrace).2.loads
        + (simulate (Simulator.new 1 2 4 .WriteAllocate .WriteThrough .LRU) wrapTrace).2.stores
        ≠ wrapTrace.length) ∧
    (ValidGeometry 1 1 (2 ^ 27) ∧ ShiftDefined 1 (2 ^ 27) ∧
      (simulate (Simulator.new 1 1 (2 ^ 27) .WriteAllocate .WriteThrough .LRU)
        [⟨"l", 0x0⟩]).1 = 0 ∧
      (simulate (Simulator.new 1 1 (2 ^ 27) .WriteAllocate .WriteThrough .LRU)
        [⟨"l", 0x0⟩]).2.cycles = 3355443200 ∧
      ¬ InIntRange (simulate (Simulator.new 1 1 (2 ^ 27) .WriteAllocate .WriteThrough .LRU)
        [⟨"l", 0x0⟩]).2.cycles) := by
  have hlen : wrapTrace.length = 2 ^ 32 := by
    unfold wrapTrace
    rw [List.length_cons, List.length_cons, List.length_replicate]
    norm_num
  constructor
  · rw [hlen, wrapTrace_state]
    exact ⟨⟨by decide, by decide, by decide, by decide⟩, wrapTrace_types, rfl, by decide,
      by decide, by decide, by decide⟩
  · exact ⟨⟨by decide, by decide, by decide, by decide⟩, by decide, by decide, by decide,
      by decide⟩

/-- C22, amended. Let `s` be the state that `simulate` reaches from the fresh simulator of a
validated geometry on the lines `lines`, under any policies, the `int` counters being read as
integers. (1) If every line is a load or a store line and the cycle total of `s` is a value of
the 32-bit `int`, then `simulate` processes all `n` lines (it returns `0`), `n < 2 ^ 31`,
`loads + stores = n`, `lhits + lmisses = loads` and `shits + smisses = stores`. (2) If the
cycle total of `s` is a value of `int`, so are the four hit and miss counters, and none of the
five is negative. (3) A `load` in `s` that leaves a cycle total in the range of `int` adds one
to exactly one of `lhits`, `lmisses`, keeps the other, keeps `shits`, `smisses` and `stores`,
does not lower `cycles`, and leaves `lhits` and `lmisses` in the range of `int`. (4) A `store`
in `s` that leaves a cycle total in the range of `int` adds one to exactly one of `shits`,
`smisses`, keeps the other, keeps `lhits`, `lmisses` and `loads`, does not lower `cycles`, and
leaves `shits` and `smisses` in the range of `int`. (5) Along any further lines that end with
a cycle total in the range of `int`, `cycles` does not decrease. -/
theorem counter_consistency (sets blocks size : Nat) (miss : WriteMissPolicy)
    (write : WritePolicy) (eviction : EvictionPolicy) (lines : List Line) (s : Simulator)
    (a : Nat) (hgeo : ValidGeometry sets blocks size)
    (hs : (simulate (Simulator.new sets blocks size miss write eviction) lines).2 = s) :
    ((∀ l, l ∈ lines → l.type = "l" ∨ l.type = "s") → InIntRange s.cycles →
      (simulate (Simulator.new sets blocks size miss write eviction) lines).1 = 0 ∧
      lines.length < 2 ^ 31 ∧ s.loads + s.stores = lines.length ∧
      s.lhits + s.lmisses = (s.loads : Int) ∧ s.shits + s.smisses = (s.stores : Int)) ∧
    (InIntRange s.cycles →
      (InIntRange s.lhits ∧ InIntRange s.lmisses ∧ InIntRange s.shits ∧
        InIntRange s.smisses) ∧
      0 ≤ s.lhits ∧ 0 ≤ s.lmisses ∧ 0 ≤ s.shits ∧ 0 ≤ s.smisses ∧ 0 ≤ s.cycles) ∧
    (InIntRange (load s a).cycles →
      (((load s a).lhits = s.lhits + 1 ∧ (load s a).lmisses = s.lmisses) ∨
        ((load s a).lhits = s.lhits ∧ (load s a).lmisses = s.lmisses + 1)) ∧
      (load s a).shits = s.shits ∧ (load s a).smisses = s.smisses ∧
      (load s a).stores = s.stores ∧ s.cycles ≤ (load s a).cycles ∧
      InIntRange (load s a).lhits ∧ InIntRange (load s a).lmisses) ∧
    (InIntRange (store s a).cycles →
      (((store s a).shits = s.shits + 1 ∧ (store s a).smisses = s.smisses) ∨
        ((store s a).shits = s.shits ∧ (store s a).smisses = s.smisses + 1)) ∧
      (store s a).lhits = s.lhits ∧ (store s a).lmisses = s.lmisses ∧
      (store s a).loads = s.loads ∧ s.cycles ≤ (store s a).cycles ∧
      InIntRange (store s a).shits ∧ InIntRange (store s a).smisses) ∧
    (∀ more : List Line, InIntRange (simulate s more).2.cycles →
      InIntRange s.cycles ∧ s.cycles ≤ (simulate s more).2.cycles) := by
  have hwf0 := new_wellFormed sets blocks size miss write eviction hgeo
  have hmm0 : 1 ≤ (Simulator.new sets blocks size miss write eviction).memoryMultiplier :=
    validGeometry_multiplier_pos sets blocks size hgeo
  have hc0 : 0 ≤ (Simulator.new sets blocks size miss write eviction).lhits ∧
      0 ≤ (Simulator.new sets blocks size miss write eviction).lmisses ∧
      0 ≤ (Simulator.new sets blocks size miss write eviction).shits ∧
      0 ≤ (Simulator.new sets blocks size miss write eviction).smisses ∧
      (Simulator.new sets blocks size miss write eviction).lhits
        + (Simulator.new sets blocks size miss write eviction).lmisses
        + (Simulator.new sets blocks size miss write eviction).shits
        + (Simulator.new sets blocks size miss write eviction).smisses
        ≤ (Simulator.new sets blocks size miss write eviction).cycles := by
    refine ⟨le_refl _, le_refl _, le_refl _, le_refl _, ?_⟩
    show (0 : Int) + 0 + 0 + 0 ≤ 0
    omega
  obtain ⟨hwf, _, _, hsize, _⟩ := reachable_wellFormed sets blocks size miss write eviction s
    hgeo ⟨lines, hs⟩
  have hmm : 1 ≤ s.memoryMultiplier := by
    rw [hwf.2.2.2, hsize]
    exact validGeometry_multiplier_pos sets blocks size hgeo
  have hc := simulate_counters lines _ hwf0 hmm0 hc0
  rw [hs] at hc
  obtain ⟨c1, c2, c3, c4, c5⟩ := hc
  have hidxl := wellFormed_index_lt s hwf (loadAddress a)
  have hidxs := wellFormed_index_lt s hwf (storeAddress a)
  have hlens := wellFormed_slots_length s hwf (storeAddress a)
  refine ⟨fun hty hfit => ?_, fun hfit => ?_, fun hfit => ?_, fun hfit => ?_,
    fun more hfit => ?_⟩
  · have hlen := simulate_length_le_cycles lines _ hwf0 hmm0 hc0 hty
    rw [hs] at hlen
    have z0 : (Simulator.new sets blocks size miss write eviction).cycles = 0 := rfl
    rw [z0] at hlen
    have hn : lines.length < 2 ^ 31 := by
      obtain ⟨_, h2⟩ := hfit
      omega
    obtain ⟨r1, r2, r3, r4⟩ := simulate_counts lines _ hwf0 hty
      (by show 0 + 0 + lines.length < 2 ^ 32
          omega)
    rw [hs] at r2 r3 r4
    have z1 : (Simulator.new sets blocks size miss write eviction).loads = 0 := rfl
    have z2 : (Simulator.new sets blocks size miss write eviction).stores = 0 := rfl
    have z3 : (Simulator.new sets blocks size miss write eviction).lhits = 0 := rfl
    have z4 : (Simulator.new sets blocks size miss write eviction).lmisses = 0 := rfl
    have z5 : (Simulator.new sets blocks size miss write eviction).shits = 0 := rfl
    have z6 : (Simulator.new sets blocks size miss write eviction).smisses = 0 := rfl
    rw [z1, z2] at r2
    rw [z1, z3, z4] at r3
    rw [z2, z5, z6] at r4
    have z : ((0 : Nat) : Int) = 0 := rfl
    exact ⟨r1, hn, by omega, by omega, by omega⟩
  · obtain ⟨_, h2⟩ := hfit
    exact ⟨⟨⟨by omega, by omega⟩, ⟨by omega, by omega⟩, ⟨by omega, by omega⟩,
      ⟨by omega, by omega⟩⟩, c1, c2, c3, c4, by omega⟩
  · obtain ⟨hd1, hd2, hd3⟩ := load_delta s a hidxl hwf.2.2.1
    have hstep := load_opStep s a hidxl hwf.2.2.1
    obtain ⟨k1, k2, _, _, k5, _⟩ := counters_of_load s a hwf hmm ⟨c1, c2, c3, c4, c5⟩
    rw [hd1, hd2] at k5
    obtain ⟨_, h2⟩ := hfit
    refine ⟨?_, hd1, hd2, hstep.2.2.2.2.2.2.2.2.1, load_cycles_le s a hwf,
      ⟨by omega, by omega⟩, ⟨by omega, by omega⟩⟩
    rcases hd3 with ⟨h1, h2, _⟩ | ⟨h1, h2, _⟩
    · exact Or.inl ⟨h1, h2⟩
    · exact Or.inr ⟨h1, h2⟩
  · obtain ⟨hd1, hd2, hd3⟩ := store_delta s a hidxs hlens hwf.2.2.1
    have hstep := store_opStep s a hidxs hlens hwf.2.2.1
    obtain ⟨_, _, k3, k4, k5, _⟩ := counters_of_store s a hwf hmm ⟨c1, c2, c3, c4, c5⟩
    rw [hd1, hd2] at k5
    obtain ⟨_, h2⟩ := hfit
    refine ⟨?_, hd1, hd2, hstep.2.2.2.2.2.2.2.1, store_cycles_le s a hwf,
      ⟨by omega, by omega⟩, ⟨by omega, by omega⟩⟩
    rcases hd3 with ⟨h1, h2, _⟩ | ⟨h1, h2, _⟩
    · exact Or.inl ⟨h1, h2⟩
    · exact Or.inr ⟨h1, h2⟩
  · have hle := simulate_cycles_le more s hwf
    obtain ⟨_, h2⟩ := hfit
    exact ⟨⟨by omega, by omega⟩, hle⟩

/-- Instance of the amended C22: the five-line trace that leads to `demoSim`, whose cycle
total `1203` is a value of `int`. -/
theorem counter_consistency_witness :
    (ValidGeometry 2 2 16 ∧
      (∀ l, l ∈ [(⟨"s", 0x20⟩ : Line), ⟨"l", 0x40⟩, ⟨"l", 0x30⟩, ⟨"l", 0x20⟩, ⟨"s", 0x30⟩] →
        l.type = "l" ∨ l.type = "s") ∧
      InIntRange (demoSim .WriteAllocate .WriteBack .FIFO).cycles) ∧
    (demoSim .WriteAllocate .WriteBack .FIFO).loads
      + (demoSim .WriteAllocate .WriteBack .FIFO).stores = 5 ∧
    (demoSim .WriteAllocate .WriteBack .FIFO).lhits
      + (demoSim .WriteAllocate .WriteBack .FIFO).lmisses = 3 ∧
    (demoSim .WriteAllocate .WriteBack .FIFO).shits
      + (demoSim .WriteAllocate .WriteBack .FIFO).smisses = 2 := by
  have hgeo : ValidGeometry 2 2 16 := ⟨by decide, by decide, by decide, by decide⟩
  have hty : ∀ l, l ∈ [(⟨"s", 0x20⟩ : Line), ⟨"l", 0x40⟩, ⟨"l", 0x30⟩, ⟨"l", 0x20⟩,
      ⟨"s", 0x30⟩] → l.type = "l" ∨ l.type = "s" := by decide
  have hfit : InIntRange (demoSim .WriteAllocate .WriteBack .FIFO).cycles := by decide
  have h := (counter_consistency 2 2 16 .WriteAllocate .WriteBack .FIFO
    [⟨"s", 0x20⟩, ⟨"l", 0x40⟩, ⟨"l", 0x30⟩, ⟨"l", 0x20⟩, ⟨"s", 0x30⟩]
    (demoSim .WriteAllocate .WriteBack .FIFO) 0x0 hgeo (by decide)).1 hty hfit
  exact ⟨⟨hgeo, hty, hfit⟩, h.2.2.1, h.2.2.2.1, h.2.2.2.2⟩

/-! ## C23: no duplicate blocks and no lost validity -/

theorem setAt_modifySlot_same (c : Cache) (index p : Nat) (f : Slot → Slot)
    (hidx : index < c.sets.length) :
    (c.modifySlot index p f).setAt index
      = ⟨(c.setAt index).slots.set p (f (c.slotAt index p))⟩ := by
  simp [Cache.modifySlot, Cache.setAt, List.getD_eq_getElem?_getD, hidx]

theorem setAt_modifySlot_other (c : Cache) (index p : Nat) (f : Slot → Slot) (i : Nat)
    (hi : i ≠ index) : (c.modifySlot index p f).setAt i = c.setAt i := by
  simp [Cache.modifySlot, Cache.setAt, List.getD_eq_getElem?_getD, List.getElem?_set, Ne.symm hi]

theorem getSlot_eq_getElem (slots : List Slot) (p : Nat) (hp : p < slots.length) :
    getSlot slots p = slots[p] := by
  simp [getSlot, List.getD_eq_getElem?_getD, hp]

/-- The number of valid slots of the addressed set after one slot is rewritten. -/
theorem validCount_modifySlot (c : Cache) (index p : Nat) (new : Slot)
    (hidx : index < c.sets.length) (hp : p < (c.setAt index).slots.length) :
    (c.modifySlot index p (fun _ => new)).validCount index + (if (c.slotAt index p).valid = true then 1 else 0)
      = c.validCount index + (if new.valid = true then 1 else 0) := by
  unfold Cache.validCount
  rw [setAt_modifySlot_same c index p _ hidx]
  show ((c.setAt index).slots.set p new).countP _ + _ = _
  rw [List.countP_set _ _ _ _ hp]
  have hle := List.boole_getElem_le_countP (fun sl : Slot => sl.valid) (c.setAt index).slots p hp
  have hg : c.slotAt index p = (c.setAt index).slots[p] := getSlot_eq_getElem _ p hp
  rw [hg]
  omega

theorem validCount_modifySlot_other (c : Cache) (index p : Nat) (f : Slot → Slot) (i : Nat)
    (hi : i ≠ index) : (c.modifySlot index p f).validCount i = c.validCount i := by
  unfold Cache.validCount
  rw [setAt_modifySlot_other c index p f i hi]

/-- The slots after an operation that rewrites slot `p` of set `index`. -/
theorem slotAt_of_step (s s' : Simulator) (index p : Nat) (new : Slot) (hwf : s.WellFormed)
    (hidx : index < s.sets) (hp : p < s.blocks)
    (hc : s'.cache = s.cache.modifySlot index p (fun _ => new)) :
    s'.cache.slotAt index p = new ∧
    ∀ i j, ¬ (i = index ∧ j = p) → s'.cache.slotAt i j = s.cache.slotAt i j := by
  have hidx' : index < s.cache.sets.length := by rw [hwf.1.1]; exact hidx
  have hpl : p < (s.cache.setAt index).slots.length := by rw [hwf.1.2 index hidx]; exact hp
  rw [hc]
  exact ⟨slotAt_modifySlot_same s.cache index p _ hidx' hpl,
    fun i j hij => slotAt_modifySlot_other s.cache index p _ i j hij⟩

/-- One operation keeps the sets free of duplicate tags. -/
theorem noDupTags_of_opStep (s s' : Simulator) (index tag : Nat) (hwf : s.WellFormed)
    (hidx : index < s.sets) (hstep : OpStep s s' index tag) (h : NoDupTags s) :
    NoDupTags s' := by
  have hbl : s'.blocks = s.blocks := hstep.2.1
  rcases hstep.2.2.2.2.2.2.2.2.2 with ⟨hc, _, _⟩ | ⟨p, new, hp, hc, _, htag, _, _, hkind⟩
  · unfold NoDupTags
    rw [hc, hbl]
    exact h
  · obtain ⟨hnew, hother⟩ := slotAt_of_step s s' index p new hwf hidx hp hc
    have key : ∀ j, j < s.blocks → j ≠ p → (s.cache.slotAt index j).valid = true →
        (s.cache.slotAt index j).tag = tag → False := by
      intro j hj hne hv ht
      rcases hkind with ⟨hvp, htp, _⟩ | ⟨hnm, _, _⟩
      · exact hne (h index j p hj hp hv hvp (ht.trans htp.symm))
      · exact hnm j hj ⟨hv, ht⟩
    intro i j j' hj hj' hv hv' ht
    rw [hbl] at hj hj'
    by_cases hi : i = index
    · subst hi
      by_cases hjp : j = p
      · by_cases hjp' : j' = p
        · rw [hjp, hjp']
        · exfalso
          rw [hother i j' (fun hh => hjp' hh.2)] at hv' ht
          rw [hjp, hnew, htag] at ht
          exact key j' hj' hjp' hv' ht.symm
      · by_cases hjp' : j' = p
        · exfalso
          rw [hother i j (fun hh => hjp hh.2)] at hv ht
          rw [hjp', hnew, htag] at ht
          exact key j hj hjp hv ht
        · rw [hother i j (fun hh => hjp hh.2)] at hv ht
          rw [hother i j' (fun hh => hjp' hh.2)] at hv' ht
          exact h i j j' hj hj' hv hv' ht
    · rw [hother i j (fun hh => hi hh.1)] at hv ht
      rw [hother i j' (fun hh => hi hh.1)] at hv' ht
      exact h i j j' hj hj' hv hv' ht

/-- What one operation keeps of the valid slots: each stays valid, and while the addressed set
has an invalid slot each keeps its tag and its `load_ts`. -/
theorem valid_kept_of_opStep (s s' : Simulator) (index tag : Nat) (hwf : s.WellFormed)
    (hidx : index < s.sets) (hstep : OpStep s s' index tag) :
    (∀ i j, (s.cache.slotAt i j).valid = true → (s'.cache.slotAt i j).valid = true) ∧
    ((∃ j, j < s.blocks ∧ (s.cache.slotAt index j).valid = false) →
      ∀ i j, (s.cache.slotAt i j).valid = true →
        (s'.cache.slotAt i j).tag = (s.cache.slotAt i j).tag ∧
        (s'.cache.slotAt i j).load_ts = (s.cache.slotAt i j).load_ts) ∧
    (∀ i, i ≠ index → s'.cache.validCount i = s.cache.validCount i) := by
  rcases hstep.2.2.2.2.2.2.2.2.2 with ⟨hc, _, _⟩ | ⟨p, new, hp, hc, hv, htag, _, _, hkind⟩
  · rw [hc]
    exact ⟨fun _ _ h => h, fun _ _ _ _ => ⟨rfl, rfl⟩, fun _ _ => rfl⟩
  · obtain ⟨hnew, hother⟩ := slotAt_of_step s s' index p new hwf hidx hp hc
    refine ⟨fun i j hvo => ?_, fun ⟨q, hq, hqv⟩ i j hvo => ?_, fun i hi => ?_⟩
    · by_cases hij : i = index ∧ j = p
      · rw [hij.1, hij.2, hnew]; exact hv
      · rw [hother i j hij]; exact hvo
    · by_cases hij : i = index ∧ j = p
      · rw [hij.1, hij.2] at hvo ⊢
        rw [hnew]
        rcases hkind with ⟨_, htp, hl⟩ | ⟨_, _, hinv | hall⟩
        · exact ⟨htag.trans htp.symm, hl⟩
        · rw [hinv] at hvo
          exact absurd hvo Bool.false_ne_true
        · have := hall q hq
          rw [hqv] at this
          exact absurd this Bool.false_ne_true
      · rw [hother i j hij]
        exact ⟨rfl, rfl⟩
    · rw [hc]
      exact validCount_modifySlot_other s.cache index p _ i hi

/-- The number of valid slots of the addressed set after an operation that rewrites a slot:
it is kept by a hit and by a miss in a full set, and grows by one on a miss in a set that has
an invalid slot. -/
theorem validCount_of_stepSlot (s s' : Simulator) (index tag p : Nat) (new : Slot)
    (hwf : s.WellFormed) (hidx : index < s.sets) (hp : p < s.blocks)
    (hc : s'.cache = s.cache.modifySlot index p (fun _ => new))
    (hst : StepSlot s index tag p new) :
    ((∃ j, j < s.blocks ∧ (s.cache.slotAt index j).valid = true ∧
        (s.cache.slotAt index j).tag = tag) →
      s'.cache.validCount index = s.cache.validCount index) ∧
    ((∀ j, j < s.blocks → (s.cache.slotAt index j).valid = true) →
      s'.cache.validCount index = s.cache.validCount index) ∧
    ((∀ j, j < s.blocks →
        ¬ ((s.cache.slotAt index j).valid = true ∧ (s.cache.slotAt index j).tag = tag)) →
      (∃ j, j < s.blocks ∧ (s.cache.slotAt index j).valid = false) →
      s'.cache.validCount index = s.cache.validCount index + 1) := by
  have hidx' : index < s.cache.sets.length := by rw [hwf.1.1]; exact hidx
  have hpl : p < (s.cache.setAt index).slots.length := by rw [hwf.1.2 index hidx]; exact hp
  have hcount := validCount_modifySlot s.cache index p new hidx' hpl
  rw [← hc] at hcount
  obtain ⟨hv, _, _, _, hkind⟩ := hst
  rw [if_pos hv] at hcount
  have hsame : (s.cache.slotAt index p).valid = true →
      s'.cache.validCount index = s.cache.validCount index := by
    intro hvo
    rw [if_pos hvo] at hcount
    omega
  refine ⟨fun ⟨j, hj, hm⟩ => ?_, fun hall => hsame (hall p hp), fun hnm ⟨q, hq, hqv⟩ => ?_⟩
  · rcases hkind with ⟨hvo, _, _⟩ | ⟨hnm, _, _⟩
    · exact hsame hvo
    · exact absurd hm (hnm j hj)
  · rcases hkind with ⟨hvo, hto, _⟩ | ⟨_, _, hinv | hall⟩
    · exact absurd ⟨hvo, hto⟩ (hnm p hp)
    · have hne : ¬ (s.cache.slotAt index p).valid = true := by
        rw [hinv]; exact Bool.false_ne_true
      rw [if_neg hne] at hcount
      omega
    · have := hall q hq
      rw [hqv] at this
      exact absurd this Bool.false_ne_true

/-- The number of valid slots of a set is at most `blocks`, with equality exactly when the set
is full. -/
theorem validCount_le (s : Simulator) (hwf : s.WellFormed) (i : Nat) (hi : i < s.sets) :
    s.cache.validCount i ≤ s.blocks ∧
    (s.cache.validCount i = s.blocks ↔ ∀ j, j < s.blocks → (s.cache.slotAt i j).valid = true) := by
  have hlen := hwf.1.2 i hi
  unfold Cache.validCount
  constructor
  · rw [← hlen]
    exact List.countP_le_length _
  · rw [← hlen, List.countP_eq_length]
    constructor
    · intro h j hj
      have : s.cache.slotAt i j = (s.cache.setAt i).slots[j] := getSlot_eq_getElem _ j hj
      rw [this]
      exact h _ (List.getElem_mem hj)
    · intro h sl hsl
      obtain ⟨j, hj, hget⟩ := List.getElem_of_mem hsl
      have := h j hj
      rw [show s.cache.slotAt i j = (s.cache.setAt i).slots[j] from getSlot_eq_getElem _ j hj,
        hget] at this
      exact this

/-- Along any run from a well-formed state without duplicate tags, no set ever holds a tag
twice. -/
theorem simulate_noDupTags (lines : List Line) (s : Simulator) (hwf : s.WellFormed)
    (h : NoDupTags s) : NoDupTags (simulate s lines).2 := by
  have hinv := simulate_invariant (fun s' => s'.WellFormed ∧ NoDupTags s')
    (by
      intro s1 a ⟨hw1, hd1⟩
      have hidx := wellFormed_index_lt s1 hw1 (loadAddress a)
      have hstep := load_opStep s1 a hidx hw1.2.2.1
      have hw' : (load s1 a).WellFormed := wellFormed_of_opStep s1 _ _ _ hw1 hstep
      have hd' : NoDupTags (load s1 a) :=
        noDupTags_of_opStep s1 _ _ _ hw1 (by rw [← hw1.1.1]; exact hidx) hstep hd1
      exact ⟨hw', hd'⟩)
    (by
      intro s1 a ⟨hw1, hd1⟩
      have hidx := wellFormed_index_lt s1 hw1 (storeAddress a)
      have hstep := store_opStep s1 a hidx (wellFormed_slots_length s1 hw1 _) hw1.2.2.1
      have hw' : (store s1 a).WellFormed := wellFormed_of_opStep s1 _ _ _ hw1 hstep
      have hd' : NoDupTags (store s1 a) :=
        noDupTags_of_opStep s1 _ _ _ hw1 (by rw [← hw1.1.1]; exact hidx) hstep hd1
      exact ⟨hw', hd'⟩)
    lines s ⟨hwf, h⟩
  exact hinv.2

theorem new_noDupTags (sets blocks size : Nat) (miss : WriteMissPolicy) (write : WritePolicy)
    (eviction : EvictionPolicy) : NoDupTags (Simulator.new sets blocks size miss write eviction) := by
  intro i j j' _ _ hv _ _
  rw [new_slotAt] at hv
  exact absurd hv Bool.false_ne_true

theorem exists_match_of_not_absent (s : Simulator) (index tag : Nat)
    (h : ¬ ∀ j, j < s.blocks →
      ¬ ((s.cache.slotAt index j).valid = true ∧ (s.cache.slotAt index j).tag = tag)) :
    ∃ j, j < s.blocks ∧ (s.cache.slotAt index j).valid = true ∧
      (s.cache.slotAt index j).tag = tag := by
  by_contra hne
  exact h fun j hj hm => hne ⟨j, hj, hm⟩

theorem all_valid_of_no_invalid (s : Simulator) (index : Nat)
    (h : ¬ ∃ j, j < s.blocks ∧ (s.cache.slotAt index j).valid = false) :
    ∀ j, j < s.blocks → (s.cache.slotAt index j).valid = true := by
  intro j hj
  cases hv : (s.cache.slotAt index j).valid with
  | true => rfl
  | false => exact absurd ⟨j, hj, hv⟩ h

/-- The count of valid slots of the addressed set after a step that rewrites a slot, by
cases on whether the step is a miss into a set with an invalid slot. -/
theorem validCount_of_stepSlot_cases (s s' : Simulator) (index tag p : Nat) (new : Slot)
    (hwf : s.WellFormed) (hidx : index < s.sets) (hp : p < s.blocks)
    (hc : s'.cache = s.cache.modifySlot index p (fun _ => new))
    (hst : StepSlot s index tag p new) :
    ((∀ j, j < s.blocks →
        ¬ ((s.cache.slotAt index j).valid = true ∧ (s.cache.slotAt index j).tag = tag)) →
      (∃ j, j < s.blocks ∧ (s.cache.slotAt index j).valid = false) →
      s'.cache.validCount index = s.cache.validCount index + 1) ∧
    (¬ ((∀ j, j < s.blocks →
        ¬ ((s.cache.slotAt index j).valid = true ∧ (s.cache.slotAt index j).tag = tag)) ∧
      ∃ j, j < s.blocks ∧ (s.cache.slotAt index j).valid = false) →
      s'.cache.validCount index = s.cache.validCount index) := by
  obtain ⟨h1, h2, h3⟩ := validCount_of_stepSlot s s' index tag p new hwf hidx hp hc hst
  refine ⟨h3, fun hn => ?_⟩
  by_cases hnm : ∀ j, j < s.blocks →
      ¬ ((s.cache.slotAt index j).valid = true ∧ (s.cache.slotAt index j).tag = tag)
  · exact h2 (all_valid_of_no_invalid s index fun hex => hn ⟨hnm, hex⟩)
  · exact h1 (exists_match_of_not_absent s index tag hnm)

/-- C23. In every state `s` reached from the fresh cache of a validated geometry whose tag shift
is defined (`offsetBits + indexBits < 32`, where the decoding of the embedding is the program's),
under any policies: (1) no two distinct valid slots of one set hold the same tag; (2) the number
of valid slots of a set is at most `blocks`, and is `blocks` exactly when the set is full; (3) a
`load` leaves every valid slot valid, and while the addressed set has an invalid slot leaves every
valid slot its tag and `load_ts` (no resident block is replaced); it keeps the number of valid
slots of every other set, adds one to that of the addressed set when it is a miss and the set has
an invalid slot, and keeps it otherwise; (4) the same holds for a `store`, where the count of the
addressed set grows by one exactly on a miss under write-allocate into a set with an invalid slot.
-/
theorem no_duplicates_no_lost_validity (sets blocks size : Nat) (miss : WriteMissPolicy)
    (write : WritePolicy) (eviction : EvictionPolicy) (s : Simulator) (a : Nat)
    (hgeo : ValidGeometry sets blocks size) (hshift : ShiftDefined sets size)
    (hreach : Reachable (Simulator.new sets blocks size miss write eviction) s) :
    (∀ i j j', i < s.sets → j < s.blocks → j' < s.blocks →
      (s.cache.slotAt i j).valid = true → (s.cache.slotAt i j').valid = true →
      (s.cache.slotAt i j).tag = (s.cache.slotAt i j').tag → j = j') ∧
    (∀ i, i < s.sets → s.cache.validCount i ≤ s.blocks ∧
      (s.cache.validCount i = s.blocks ↔
        ∀ j, j < s.blocks → (s.cache.slotAt i j).valid = true)) ∧
    ((∀ i j, i < s.sets → j < s.blocks → (s.cache.slotAt i j).valid = true →
        ((load s a).cache.slotAt i j).valid = true) ∧
      ((∃ j, j < s.blocks ∧ (s.cache.slotAt (s.index (loadAddress a)) j).valid = false) →
        ∀ i j, i < s.sets → j < s.blocks → (s.cache.slotAt i j).valid = true →
          ((load s a).cache.slotAt i j).tag = (s.cache.slotAt i j).tag ∧
          ((load s a).cache.slotAt i j).load_ts = (s.cache.slotAt i j).load_ts) ∧
      (∀ i, i < s.sets → i ≠ s.index (loadAddress a) →
        (load s a).cache.validCount i = s.cache.validCount i) ∧
      ((∀ j, j < s.blocks →
          ¬ ((s.cache.slotAt (s.index (loadAddress a)) j).valid = true ∧
             (s.cache.slotAt (s.index (loadAddress a)) j).tag = s.tag (loadAddress a))) →
        (∃ j, j < s.blocks ∧ (s.cache.slotAt (s.index (loadAddress a)) j).valid = false) →
        (load s a).cache.validCount (s.index (loadAddress a))
          = s.cache.validCount (s.index (loadAddress a)) + 1) ∧
      (¬ ((∀ j, j < s.blocks →
          ¬ ((s.cache.slotAt (s.index (loadAddress a)) j).valid = true ∧
             (s.cache.slotAt (s.index (loadAddress a)) j).tag = s.tag (loadAddress a))) ∧
        ∃ j, j < s.blocks ∧ (s.cache.slotAt (s.index (loadAddress a)) j).valid = false) →
        (load s a).cache.validCount (s.index (loadAddress a))
          = s.cache.validCount (s.index (loadAddress a)))) ∧
    ((∀ i j, i < s.sets → j < s.blocks → (s.cache.slotAt i j).valid = true →
        ((store s a).cache.slotAt i j).valid = true) ∧
      ((∃ j, j < s.blocks ∧ (s.cache.slotAt (s.index (storeAddress a)) j).valid = false) →
        ∀ i j, i < s.sets → j < s.blocks → (s.cache.slotAt i j).valid = true →
          ((store s a).cache.slotAt i j).tag = (s.cache.slotAt i j).tag ∧
          ((store s a).cache.slotAt i j).load_ts = (s.cache.slotAt i j).load_ts) ∧
      (∀ i, i < s.sets → i ≠ s.index (storeAddress a) →
        (store s a).cache.validCount i = s.cache.validCount i) ∧
      (s.missPolicy = WriteMissPolicy.WriteAllocate →
        (∀ j, j < s.blocks →
          ¬ ((s.cache.slotAt (s.index (storeAddress a)) j).valid = true ∧
             (s.cache.slotAt (s.index (storeAddress a)) j).tag = s.tag (storeAddress a))) →
        (∃ j, j < s.blocks ∧ (s.cache.slotAt (s.index (storeAddress a)) j).valid = false) →
        (store s a).cache.validCount (s.index (storeAddress a))
          = s.cache.validCount (s.index (storeAddress a)) + 1) ∧
      (¬ (s.missPolicy = WriteMissPolicy.WriteAllocate ∧
        (∀ j, j < s.blocks →
          ¬ ((s.cache.slotAt (s.index (storeAddress a)) j).valid = true ∧
             (s.cache.slotAt (s.index (storeAddress a)) j).tag = s.tag (storeAddress a))) ∧
        ∃ j, j < s.blocks ∧ (s.cache.slotAt (s.index (storeAddress a)) j).valid = false) →
        (store s a).cache.validCount (s.index (storeAddress a))
          = s.cache.validCount (s.index (storeAddress a)))) ∧
    s.offsetBits + s.indexBits < 32 := by
  have hwf0 := new_wellFormed sets blocks size miss write eviction hgeo
  have hwf := (reachable_wellFormed sets blocks size miss write eviction s hgeo hreach).1
  have hnd : NoDupTags s := by
    obtain ⟨lines, hl⟩ := hreach
    rw [← hl]
    exact simulate_noDupTags lines _ hwf0 (new_noDupTags sets blocks size miss write eviction)
  have hidxl := wellFormed_index_lt s hwf (loadAddress a)
  have hidxs := wellFormed_index_lt s hwf (storeAddress a)
  have hil : s.index (loadAddress a) < s.sets := by rw [← hwf.1.1]; exact hidxl
  have his : s.index (storeAddress a) < s.sets := by rw [← hwf.1.1]; exact hidxs
  refine ⟨fun i j j' _ hj hj' => hnd i j j' hj hj', fun i hi => validCount_le s hwf i hi,
    ?_, ?_, reachable_shiftDefined sets blocks size miss write eviction s hgeo hshift hreach⟩
  · have hstep := load_opStep s a hidxl hwf.2.2.1
    obtain ⟨k1, k2, k3⟩ := valid_kept_of_opStep s _ _ _ hwf hil hstep
    obtain ⟨_, p, new, hp, hc, hst⟩ := load_step s a hidxl hwf.2.2.1
    obtain ⟨c1, c2⟩ := validCount_of_stepSlot_cases s _ _ _ p new hwf hil hp hc hst
    exact ⟨fun i j _ _ => k1 i j, fun hex i j _ _ => k2 hex i j, fun i _ => k3 i, c1, c2⟩
  · have hstep := store_opStep s a hidxs (wellFormed_slots_length s hwf _) hwf.2.2.1
    obtain ⟨k1, k2, k3⟩ := valid_kept_of_opStep s _ _ _ hwf his hstep
    refine ⟨fun i j _ _ => k1 i j, fun hex i j _ _ => k2 hex i j, fun i _ => k3 i, ?_, ?_⟩
    · intro hwa hnm hex
      rcases hstep.2.2.2.2.2.2.2.2.2 with ⟨_, hnwa, _⟩ | ⟨p, new, hp, hc, hst⟩
      · rw [hwa] at hnwa
        exact WriteMissPolicy.noConfusion hnwa
      · exact (validCount_of_stepSlot_cases s _ _ _ p new hwf his hp hc hst).1 hnm hex
    · intro hn
      rcases hstep.2.2.2.2.2.2.2.2.2 with ⟨hc, _, _⟩ | ⟨p, new, hp, hc, hst⟩
      · rw [hc]
      · by_cases hwa : s.missPolicy = WriteMissPolicy.WriteAllocate
        · exact (validCount_of_stepSlot_cases s _ _ _ p new hwf his hp hc hst).2
            fun hh => hn ⟨hwa, hh⟩
        · -- a store that rewrites a slot under no-write-allocate is a hit
          have hnwa : s.missPolicy = WriteMissPolicy.NoWriteAllocate := by
            rcases missPolicy_cases s.missPolicy with h | h
            · exact absurd h hwa
            · exact h
          apply (validCount_of_stepSlot_cases s _ _ _ p new hwf his hp hc hst).2
          intro ⟨hnm, _⟩
          have hsame := store_cache_of_absent s a hnwa hidxs hnm
          -- the cache is unchanged, so the rewritten slot was already the new one: it was valid
          have hnew := (slotAt_of_step s _ _ p new hwf his hp hc).1
          rw [hsame] at hnew
          rcases hst.2.2.2.2 with ⟨hv, ht, _⟩ | ⟨_, _, hinv | hall⟩
          · exact hnm p hp ⟨hv, ht⟩
          · rw [hnew, hst.1] at hinv
            exact Bool.false_ne_true hinv.symm
          · exact hnm p hp ⟨hall p hp, by rw [hnew]; exact hst.2.1⟩

/-- Instance of C23: in `demoSim` set `1` has one invalid slot, and the load of address `50`
(set `1`, tag `2`) misses there: the set then has one more valid slot. -/
theorem no_duplicates_no_lost_validity_witness :
    (ValidGeometry 2 2 16 ∧ ShiftDefined 2 16 ∧
      Reachable (Simulator.new 2 2 16 .WriteAllocate .WriteBack .FIFO)
        (demoSim .WriteAllocate .WriteBack .FIFO)) ∧
    (load (demoSim .WriteAllocate .WriteBack .FIFO) 0x50).cache.validCount
        ((demoSim .WriteAllocate .WriteBack .FIFO).index (loadAddress 0x50))
      = (demoSim .WriteAllocate .WriteBack .FIFO).cache.validCount
          ((demoSim .WriteAllocate .WriteBack .FIFO).index (loadAddress 0x50)) + 1 := by
  have hgeo : ValidGeometry 2 2 16 := ⟨by decide, by decide, by decide, by decide⟩
  have hreach : Reachable (Simulator.new 2 2 16 .WriteAllocate .WriteBack .FIFO)
      (demoSim .WriteAllocate .WriteBack .FIFO) :=
    ⟨[⟨"s", 0x20⟩, ⟨"l", 0x40⟩, ⟨"l", 0x30⟩, ⟨"l", 0x20⟩, ⟨"s", 0x30⟩], by decide⟩
  have hshift : ShiftDefined 2 16 := by decide
  exact ⟨⟨hgeo, hshift, hreach⟩,
    (no_duplicates_no_lost_validity 2 2 16 .WriteAllocate .WriteBack .FIFO _ 0x50 hgeo hshift
      hreach).2.2.1.2.2.2.1 (by decide) (by decide)⟩

/-! ## Lemmas on the reference LRU stack -/

theorem mem_lruStack (index t : Nat) :
    ∀ h : List (Nat × Nat), t ∈ lruStack h index ↔ (t, index) ∈ h := by
  intro h
  induction h with
  | nil => simp [lruStack]
  | cons r older ih =>
    unfold lruStack
    by_cases hr : r.2 = index
    · rw [if_pos hr]
      by_cases ht : t = r.1
      · subst ht
        constructor
        · intro _
          rw [← hr]
          exact List.mem_cons_self _ _
        · intro _
          exact List.mem_cons_self _ _
      · constructor
        · intro hm
          rcases List.mem_cons.mp hm with h1 | h1
          · exact absurd h1 ht
          · exact List.mem_cons_of_mem _ (ih.mp (List.mem_filter.mp h1).1)
        · intro hm
          rcases List.mem_cons.mp hm with h1 | h1
          · exfalso
            apply ht
            rw [← h1]
          · exact List.mem_cons_of_mem _
              (List.mem_filter.mpr ⟨ih.mpr h1, by simpa using ht⟩)
    · rw [if_neg hr]
      constructor
      · intro hm
        exact List.mem_cons_of_mem _ (ih.mp hm)
      · intro hm
        rcases List.mem_cons.mp hm with h1 | h1
        · exfalso
          apply hr
          rw [← h1]
        · exact ih.mpr h1

theorem nodup_lruStack (index : Nat) : ∀ h : List (Nat × Nat), (lruStack h index).Nodup := by
  intro h
  induction h with
  | nil => simp [lruStack]
  | cons r older ih =>
    unfold lruStack
    by_cases hr : r.2 = index
    · rw [if_pos hr]
      refine List.nodup_cons.mpr ⟨?_, ih.filter _⟩
      intro hm
      have := (List.mem_filter.mp hm).2
      simp at this
    · rw [if_neg hr]
      exact ih

/-- The stack of a history that has a reference to `(t, index)` after a part `pre` without
one: the tags of `pre` come first, then `t`. -/
theorem lruStack_append_cons (index t : Nat) (post : List (Nat × Nat)) :
    ∀ pre : List (Nat × Nat), (t, index) ∉ pre →
      ∃ R, lruStack (pre ++ (t, index) :: post) index = lruStack pre index ++ t :: R := by
  intro pre
  induction pre with
  | nil =>
    intro _
    exact ⟨(lruStack post index).filter (fun x => x != t), by simp [lruStack]⟩
  | cons r pre ih =>
    intro hn
    have hr : r ≠ (t, index) := fun h => hn (by rw [h]; exact List.mem_cons_self _ _)
    obtain ⟨R, hR⟩ := ih (fun h => hn (List.mem_cons_of_mem _ h))
    by_cases hi : r.2 = index
    · have ht : t ≠ r.1 := by
        intro h
        apply hr
        rw [← hi, h]
      refine ⟨R.filter (fun x => x != r.1), ?_⟩
      show lruStack (r :: (pre ++ (t, index) :: post)) index = _
      unfold lruStack
      rw [if_pos hi, if_pos hi, hR, List.filter_append, List.filter_cons]
      have : (t != r.1) = true := by simpa using ht
      rw [if_pos this]
      rfl
    · refine ⟨R, ?_⟩
      show lruStack (r :: (pre ++ (t, index) :: post)) index = _
      unfold lruStack
      rw [if_neg hi, if_neg hi, hR]

theorem mem_take_append_cons (t : Nat) (D R : List Nat) (k : Nat) (ht : t ∉ D) :
    t ∈ (D ++ t :: R).take k ↔ D.length < k := by
  constructor
  · intro h
    by_contra hk
    rw [List.take_append_of_le_length (Nat.le_of_not_lt hk)] at h
    exact ht (List.mem_of_mem_take h)
  · intro h
    rw [List.take_append_eq_append_take]
    obtain ⟨m, hm⟩ : ∃ m, k - D.length = m + 1 := ⟨k - D.length - 1, by omega⟩
    rw [hm, List.take_succ_cons]
    exact List.mem_append_right _ (List.mem_cons_self _ _)

/-- A history that has a reference to `cur` splits at the most recent one. -/
theorem takeWhile_split (cur : Nat × Nat) :
    ∀ h : List (Nat × Nat), cur ∈ h →
      cur ∉ h.takeWhile (fun r => r != cur) ∧
      ∃ post, h = h.takeWhile (fun r => r != cur) ++ cur :: post := by
  intro h
  induction h with
  | nil => intro hm; exact absurd hm (List.not_mem_nil _)
  | cons r h ih =>
    intro hm
    by_cases hr : r = cur
    · subst hr
      simp [List.takeWhile_cons]
    · have hb : (r != cur) = true := by simpa using hr
      rcases List.mem_cons.mp hm with h1 | h1
      · exact absurd h1.symm hr
      · obtain ⟨hn, post, hp⟩ := ih h1
        rw [List.takeWhile_cons, if_pos hb]
        refine ⟨?_, post, ?_⟩
        · intro hc
          rcases List.mem_cons.mp hc with h2 | h2
          · exact hr h2.symm
          · exact hn h2
        · rw [List.cons_append, ← hp]

/-- The stack of a history has as many tags as the history has distinct tags of the set. -/
theorem length_lruStack (index : Nat) (h : List (Nat × Nat)) :
    (lruStack h index).length = (distinctTags h index).length := by
  apply List.Perm.length_eq
  unfold distinctTags
  rw [List.perm_ext_iff_of_nodup (nodup_lruStack index h) (List.nodup_dedup _)]
  intro a
  rw [mem_lruStack, List.mem_dedup, List.mem_map]
  constructor
  · intro hm
    exact ⟨(a, index), List.mem_filter.mpr ⟨hm, by simp⟩, rfl⟩
  · rintro ⟨⟨x, y⟩, hm, rfl⟩
    have h2 := List.mem_filter.mp hm
    have hy : y = index := by simpa using h2.2
    rw [← hy]
    exact h2.1

/-- The hit condition of the reference model is membership among the first `blocks` tags of
the reference stack. -/
theorem refHit_iff (blocks : Nat) (h : List (Nat × Nat)) (t index : Nat) :
    refHit blocks h (t, index) = true ↔ t ∈ (lruStack h index).take blocks := by
  have hc : h.contains (t, index) = true ↔ (t, index) ∈ h := List.elem_iff
  unfold refHit
  rw [Bool.and_eq_true, decide_eq_true_eq, hc, ← length_lruStack]
  constructor
  · rintro ⟨hm, hlt⟩
    obtain ⟨hn, post, hp⟩ := takeWhile_split (t, index) h hm
    obtain ⟨R, hR⟩ := lruStack_append_cons index t post _ hn
    rw [hp, hR]
    refine (mem_take_append_cons t _ R blocks ?_).mpr hlt
    rw [mem_lruStack]
    exact hn
  · intro ht
    have hm : (t, index) ∈ h := (mem_lruStack index t h).mp (List.mem_of_mem_take ht)
    obtain ⟨hn, post, hp⟩ := takeWhile_split (t, index) h hm
    obtain ⟨R, hR⟩ := lruStack_append_cons index t post _ hn
    refine ⟨hm, ?_⟩
    rw [hp, hR] at ht
    refine (mem_take_append_cons t _ R blocks ?_).mp ?_
    · rw [mem_lruStack]
      exact hn
    · exact ht

/-! ## Lemmas on lists used to follow the stack through one operation -/

theorem filter_take_of_mem (t : Nat) :
    ∀ (st : List Nat) (k : Nat), st.Nodup → t ∈ st.take k →
      (st.take k).filter (fun x => x != t) = (st.filter (fun x => x != t)).take (k - 1) := by
  intro st
  induction st with
  | nil => intro k _ h; simp at h
  | cons x rest ih =>
    intro k hnd h
    cases k with
    | zero => simp at h
    | succ k =>
      rw [List.take_succ_cons] at h ⊢
      obtain ⟨hx, hrest⟩ := List.nodup_cons.mp hnd
      by_cases hxt : x = t
      · subst hxt
        have hself : ∀ l : List Nat, x ∉ l → l.filter (fun y => y != x) = l := by
          intro l hl
          apply List.filter_eq_self.mpr
          intro a ha
          have : a ≠ x := fun h => hl (h ▸ ha)
          simpa using this
        simp only [List.filter_cons, bne_self_eq_false, Bool.false_eq_true, if_false,
          Nat.add_sub_cancel]
        rw [hself _ (fun hm => hx (List.mem_of_mem_take hm)), hself _ hx]
      · have hb : (x != t) = true := by simpa using hxt
        have hm : t ∈ rest.take k := by
          rcases List.mem_cons.mp h with h1 | h1
          · exact absurd h1.symm hxt
          · exact h1
        have hk : 1 ≤ k := by
          cases k with
          | zero => simp at hm
          | succ k => omega
        rw [List.filter_cons, if_pos hb, List.filter_cons, if_pos hb, ih k hrest hm]
        obtain ⟨m, rfl⟩ : ∃ m, k = m + 1 := ⟨k - 1, by omega⟩
        rfl

theorem take_filter_of_not_mem (t : Nat) :
    ∀ (st : List Nat) (k : Nat), t ∉ st.take k →
      (st.filter (fun x => x != t)).take k = st.take k := by
  intro st
  induction st with
  | nil => intro k _; rfl
  | cons x rest ih =>
    intro k h
    cases k with
    | zero => rfl
    | succ k =>
      rw [List.take_succ_cons] at h ⊢
      have hxt : x ≠ t := fun hx => h (hx ▸ List.mem_cons_self _ _)
      have hb : (x != t) = true := by simpa using hxt
      rw [List.filter_cons, if_pos hb, List.take_succ_cons,
        ih k (fun hm => h (List.mem_cons_of_mem _ hm))]

/-- A duplicate-free list of numbers below `n` has at most `n` entries. -/
theorem length_le_of_nodup_lt (l : List Nat) (n : Nat) (hnd : l.Nodup)
    (h : ∀ x, x ∈ l → x < n) : l.length ≤ n := by
  have hsub : l ⊆ List.range n := fun x hx => List.mem_range.mpr (h x hx)
  have := (List.subperm_of_subset hnd hsub).length_le
  rwa [List.length_range] at this

/-- A duplicate-free list that holds exactly the numbers below `n` has `n` entries. -/
theorem length_eq_of_nodup_iff (l : List Nat) (n : Nat) (hnd : l.Nodup)
    (h : ∀ x, x ∈ l ↔ x < n) : l.length = n := by
  have hp : l.Perm (List.range n) := by
    rw [List.perm_ext_iff_of_nodup hnd (List.nodup_range n)]
    intro a
    rw [h a, List.mem_range]
  rw [hp.length_eq, List.length_range]

/-- In a list ordered by a relation, an element that every other element is related to is the
last one; removing it leaves the list without its last entry. -/
theorem filter_eq_dropLast (key : Nat → Nat) (ps : List Nat) (p : Nat)
    (hpw : ps.Pairwise (fun a b => key b < key a)) (hp : p ∈ ps)
    (hmin : ∀ q, q ∈ ps → key p ≤ key q) :
    ps.filter (fun q => q != p) = ps.dropLast := by
  have hne : ps ≠ [] := List.ne_nil_of_mem hp
  have hsplit := List.dropLast_append_getLast hne
  have hpw' := hpw
  rw [← hsplit, List.pairwise_append] at hpw'
  obtain ⟨hpw1, _, hcross⟩ := hpw'
  have hlast : ps.getLast hne = p := by
    by_contra hl
    have hpd : p ∈ ps.dropLast := by
      rw [← hsplit] at hp
      rcases List.mem_append.mp hp with h1 | h1
      · exact h1
      · exact absurd (List.mem_singleton.mp h1).symm hl
    have h1 := hcross p hpd (ps.getLast hne) (List.mem_singleton.mpr rfl)
    have h2 := hmin _ (List.getLast_mem hne)
    omega
  have hnotin : p ∉ ps.dropLast := by
    intro hpd
    have h1 := hcross p hpd (ps.getLast hne) (List.mem_singleton.mpr rfl)
    rw [hlast] at h1
    exact lt_irrefl _ h1
  conv_lhs => rw [← hsplit]
  rw [List.filter_append, hlast]
  have h1 : ps.dropLast.filter (fun q => q != p) = ps.dropLast := by
    apply List.filter_eq_self.mpr
    intro a ha
    have : a ≠ p := fun h => hnotin (h ▸ ha)
    simpa using this
  rw [h1]
  simp

/-! ## One operation against the reference stack -/

theorem stackInv_congr (s s' : Simulator) (i : Nat) (st : List Nat)
    (hbl : s'.blocks = s.blocks)
    (hsame : ∀ j, s'.cache.slotAt i j = s.cache.slotAt i j)
    (h : StackInv s i st) : StackInv s' i st := by
  obtain ⟨ps, h1, h2, h3⟩ := h
  refine ⟨ps, ?_, ?_, ?_⟩
  · rw [hbl, ← h1]
    exact List.map_congr_left fun a _ => by rw [hsame a]
  · intro p
    rw [hbl, hsame p]
    exact h2 p
  · exact h3.imp fun {a b} hab => by rw [hsame a, hsame b]; exact hab

/-- The set referenced by an operation holds the first `blocks` tags of the stack with the
referenced tag moved to the front, provided the stamp written is above every stamp of the set
and a victim, if there is one, has the least `access_ts`. -/
theorem stackInv_step (s s' : Simulator) (index t p : Nat) (new : Slot) (st : List Nat)
    (hwf : s.WellFormed) (hidx : index < s.sets) (hp : p < s.blocks)
    (hbl : s'.blocks = s.blocks)
    (hc : s'.cache = s.cache.modifySlot index p (fun _ => new))
    (hv : new.valid = true) (htag : new.tag = t)
    (hts : ∀ j, j < s.blocks → (s.cache.slotAt index j).valid = true →
      (s.cache.slotAt index j).access_ts < new.access_ts)
    (hkind : ((s.cache.slotAt index p).valid = true ∧ (s.cache.slotAt index p).tag = t) ∨
      ((∀ j, j < s.blocks →
          ¬ ((s.cache.slotAt index j).valid = true ∧ (s.cache.slotAt index j).tag = t)) ∧
        (s.cache.slotAt index p).valid = false) ∨
      ((∀ j, j < s.blocks →
          ¬ ((s.cache.slotAt index j).valid = true ∧ (s.cache.slotAt index j).tag = t)) ∧
        (∀ j, j < s.blocks → (s.cache.slotAt index j).valid = true) ∧
        ∀ j, j < s.blocks →
          (s.cache.slotAt index p).access_ts ≤ (s.cache.slotAt index j).access_ts))
    (hnd : st.Nodup) (hinv : StackInv s index st) :
    StackInv s' index (t :: st.filter (fun x => x != t)) := by
  obtain ⟨ps, htags, hmem, hpw⟩ := hinv
  obtain ⟨hnew, hother⟩ := slotAt_of_step s s' index p new hwf hidx hp hc
  have hoth : ∀ q, q ≠ p → s'.cache.slotAt index q = s.cache.slotAt index q :=
    fun q hq => hother index q (fun h => hq h.2)
  have hpsnd : ps.Nodup := hpw.imp fun {a b} hab hEq => by
    rw [hEq] at hab
    exact lt_irrefl _ hab
  have hfmem : ∀ q, q ∈ ps.filter (fun q => q != p) ↔ q ∈ ps ∧ q ≠ p := by
    intro q
    rw [List.mem_filter]
    simp
  obtain ⟨b, hb⟩ : ∃ b, s.blocks = b + 1 := ⟨s.blocks - 1, by omega⟩
  -- tags of the slots other than `p`
  have hcore : (ps.filter (fun q => q != p)).map (fun q => (s.cache.slotAt index q).tag)
      = (st.filter (fun x => x != t)).take b := by
    have hnomem : (∀ j, j < s.blocks →
        ¬ ((s.cache.slotAt index j).valid = true ∧ (s.cache.slotAt index j).tag = t)) →
        t ∉ st.take s.blocks := by
      intro hnm hin
      rw [← htags] at hin
      obtain ⟨q, hq, hqt⟩ := List.mem_map.mp hin
      exact hnm q ((hmem q).mp hq).1 ⟨((hmem q).mp hq).2, hqt⟩
    have hsub : ∀ l : List Nat, t ∉ l.take (b + 1) → t ∉ l.take b := by
      intro l h hin
      apply h
      have : l.take b = (l.take (b + 1)).take b := by
        rw [List.take_take]
        congr 1
        omega
      rw [this] at hin
      exact List.mem_of_mem_take hin
    rcases hkind with ⟨hvp, htp⟩ | ⟨hnm, hinv⟩ | ⟨hnm, hall, hmin⟩
    · -- hit
      have hpps : p ∈ ps := (hmem p).mpr ⟨hp, hvp⟩
      have hinj := List.inj_on_of_nodup_map
        (by rw [htags]; exact hnd.sublist (List.take_sublist _ _) :
          (ps.map (fun q => (s.cache.slotAt index q).tag)).Nodup)
      have hcongr : ps.filter (fun q => q != p)
          = ps.filter ((fun x => x != t) ∘ fun q => (s.cache.slotAt index q).tag) := by
        apply List.filter_congr
        intro q hq
        by_cases hqp : q = p
        · subst hqp
          simp [htp]
        · have : (s.cache.slotAt index q).tag ≠ t := fun h =>
            hqp (hinj hq hpps (h.trans htp.symm))
          have h1 : (q != p) = true := by simpa using hqp
          have h2 : ((s.cache.slotAt index q).tag != t) = true := by simpa using this
          show (q != p) = ((s.cache.slotAt index q).tag != t)
          rw [h1, h2]
      rw [hcongr, ← List.filter_map, htags, hb]
      have htin : t ∈ st.take (b + 1) := by
        rw [← hb, ← htags]
        exact List.mem_map.mpr ⟨p, hpps, htp⟩
      rw [filter_take_of_mem t st (b + 1) hnd htin]
      rfl
    · -- miss into a set with room
      have hpn : p ∉ ps := fun h => by
        have := ((hmem p).mp h).2
        rw [hinv] at this
        exact Bool.false_ne_true this
      have hself : ps.filter (fun q => q != p) = ps := by
        apply List.filter_eq_self.mpr
        intro a ha
        have : a ≠ p := fun h => hpn (h ▸ ha)
        simpa using this
      have hlen : (p :: ps).length ≤ s.blocks := by
        apply length_le_of_nodup_lt _ _ (List.nodup_cons.mpr ⟨hpn, hpsnd⟩)
        intro x hx
        rcases List.mem_cons.mp hx with h1 | h1
        · rw [h1]; exact hp
        · exact ((hmem x).mp h1).1
      have hlps : ps.length ≤ b := by
        rw [List.length_cons] at hlen
        omega
      have hst : st.length ≤ b := by
        have : (ps.map (fun q => (s.cache.slotAt index q).tag)).length = ps.length :=
          List.length_map _ _
        rw [htags, List.length_take, hb] at this
        omega
      have hnt := hnomem hnm
      rw [hb] at hnt htags
      rw [hself, htags, take_filter_of_not_mem t st b (hsub st hnt),
        List.take_of_length_le hst, List.take_of_length_le (by omega)]
    · -- miss into a full set
      have hall' : ∀ q, q ∈ ps ↔ q < s.blocks := by
        intro q
        rw [hmem q]
        exact ⟨fun h => h.1, fun h => ⟨h, hall q h⟩⟩
      have hlen : ps.length = s.blocks := length_eq_of_nodup_iff ps _ hpsnd hall'
      have hpps : p ∈ ps := (hall' p).mpr hp
      have hdl := filter_eq_dropLast (fun q => (s.cache.slotAt index q).access_ts) ps p hpw hpps
        (fun q hq => hmin q ((hall' q).mp hq))
      have hnt := hnomem hnm
      rw [hb] at hnt htags hlen
      have hlt : (st.take (b + 1)).length = b + 1 := by
        rw [← htags, List.length_map, hlen]
      rw [hdl, List.map_dropLast, htags, List.dropLast_eq_take, hlt, List.take_take,
        take_filter_of_not_mem t st b (hsub st hnt)]
      congr 1
      omega
  refine ⟨p :: ps.filter (fun q => q != p), ?_, ?_, ?_⟩
  · rw [hbl, hb, List.take_succ_cons, List.map_cons, hnew, htag, ← hcore]
    congr 1
    apply List.map_congr_left
    intro q hq
    rw [hoth q ((hfmem q).mp hq).2]
  · intro q
    rw [hbl]
    by_cases hqp : q = p
    · subst hqp
      rw [hnew]
      exact ⟨fun _ => ⟨hp, hv⟩, fun _ => List.mem_cons_self _ _⟩
    · rw [hoth q hqp, ← hmem q]
      constructor
      · intro h
        rcases List.mem_cons.mp h with h1 | h1
        · exact absurd h1 hqp
        · exact ((hfmem q).mp h1).1
      · intro h
        exact List.mem_cons_of_mem _ ((hfmem q).mpr ⟨h, hqp⟩)
  · rw [List.pairwise_cons]
    constructor
    · intro q hq
      obtain ⟨hq1, hq2⟩ := (hfmem q).mp hq
      rw [hnew, hoth q hq2]
      exact hts q ((hmem q).mp hq1).1 ((hmem q).mp hq1).2
    · refine (hpw.filter _).imp_of_mem ?_
      intro a c ha hc' hac
      rw [hoth a ((hfmem a).mp ha).2, hoth c ((hfmem c).mp hc').2]
      exact hac

/-! ## The operations of the simulator as steps of the reference stack -/

/-- Under LRU the position that `evict` returns has the least `access_ts` of the set. -/
theorem evictBlockOf_lru_min (s : Simulator) (index : Nat) (hb : 1 ≤ s.blocks)
    (hlru : s.evictionPolicy = EvictionPolicy.LRU) :
    ∀ j, j < s.blocks →
      (s.cache.slotAt index (evictBlockOf s index)).access_ts
        ≤ (s.cache.slotAt index j).access_ts := by
  obtain ⟨p, hp, _, hmin⟩ := lru_min s index hb
  have he : evictBlockOf s index
      = lruLoop (s.cache.setAt index).slots (s.blocks - 1) 1
          (getSlot (s.cache.setAt index).slots 0).access_ts 0 := by
    unfold evictBlockOf
    rw [hlru]
    rfl
  rw [lru_eq] at hp
  have hpe : p = evictBlockOf s index := by
    rw [he]
    have : ((lruLoop (s.cache.setAt index).slots (s.blocks - 1) 1
        (getSlot (s.cache.setAt index).slots 0).access_ts 0 : Nat) : Int) = (p : Int) := hp
    exact_mod_cast this.symm
  rw [← hpe]
  exact hmin

theorem load_accessStep (s : Simulator) (a : Nat)
    (hidx : s.index (loadAddress a) < s.cache.sets.length) (hb : 1 ≤ s.blocks) :
    AccessStep s (load s a) (s.index (loadAddress a)) (s.tag (loadAddress a)) := by
  rcases checkMem_cases s (s.tag (loadAddress a)) (s.index (loadAddress a)) (-1)
    hidx with ⟨p, hp, hm, _, hr⟩ | ⟨hnm, p, hp, hv, _, hr⟩ | ⟨hnm, hall, hr⟩
  · rw [load_of_hit s a p hp hr]
    exact ⟨p, { s.cache.slotAt (s.index (loadAddress a)) p with access_ts := s.clock },
      hp, rfl, hm.1, hm.2, rfl, Or.inl hm⟩
  · rw [load_of_space s a p hr]
    exact ⟨p,
      { s.cache.slotAt (s.index (loadAddress a)) p with
        tag := s.tag (loadAddress a), dirty := false, valid := true,
        access_ts := s.clock, load_ts := s.clock },
      hp, rfl, rfl, rfl, rfl, Or.inr (Or.inl ⟨hnm, hv⟩)⟩
  · rw [load_of_full s a (-1) hr]
    exact ⟨evictBlockOf s (s.index (loadAddress a)),
      { s.cache.slotAt (s.index (loadAddress a))
          (evictBlockOf s (s.index (loadAddress a))) with
        tag := s.tag (loadAddress a), dirty := false, valid := true,
        access_ts := s.clock, load_ts := s.clock },
      evictBlockOf_lt s _ hb, rfl, rfl, rfl, rfl, Or.inr (Or.inr ⟨hnm, hall, rfl⟩)⟩

theorem store_accessStep (s : Simulator) (a : Nat)
    (hidx : s.index (storeAddress a) < s.cache.sets.length)
    (hlen : (s.cache.setAt (s.index (storeAddress a))).slots.length = s.blocks)
    (hb : 1 ≤ s.blocks) (hmp : s.missPolicy = WriteMissPolicy.WriteAllocate) :
    AccessStep s (store s a) (s.index (storeAddress a)) (s.tag (storeAddress a)) := by
  rcases checkMem_cases s (s.tag (storeAddress a)) (s.index (storeAddress a))
    (-1) hidx with ⟨p, hp, hm, _, hr⟩ | ⟨hnm, p, hp, hv, _, hr⟩ | ⟨hnm, hall, hr⟩
  · rcases writePolicy_cases s.writePolicy with hw | hw
    · rw [store_of_hit_writeBack s a p hp hidx hlen hw hr]
      exact ⟨p,
        { s.cache.slotAt (s.index (storeAddress a)) p with
          access_ts := s.clock, dirty := true },
        hp, rfl, hm.1, hm.2, rfl, Or.inl hm⟩
    · rw [store_of_hit_writeThrough s a p hp hw hr]
      exact ⟨p, { s.cache.slotAt (s.index (storeAddress a)) p with access_ts := s.clock },
        hp, rfl, hm.1, hm.2, rfl, Or.inl hm⟩
  · rcases writePolicy_cases s.writePolicy with hw | hw
    · rw [store_of_space_writeBack s a p hmp hw hr]
      exact ⟨p,
        { s.cache.slotAt (s.index (storeAddress a)) p with
          tag := s.tag (storeAddress a), dirty := true, valid := true,
          access_ts := s.clock, load_ts := s.clock },
        hp, rfl, rfl, rfl, rfl, Or.inr (Or.inl ⟨hnm, hv⟩)⟩
    · rw [store_of_space_writeThrough s a p hmp hw hr]
      exact ⟨p,
        { s.cache.slotAt (s.index (storeAddress a)) p with
          tag := s.tag (storeAddress a), dirty := false, valid := true,
          access_ts := s.clock, load_ts := s.clock },
        hp, rfl, rfl, rfl, rfl, Or.inr (Or.inl ⟨hnm, hv⟩)⟩
  · rcases writePolicy_cases s.writePolicy with hw | hw
    · rw [store_of_full_writeBack s a (-1) hmp hw hr]
      exact ⟨evictBlockOf s (s.index (storeAddress a)),
        { s.cache.slotAt (s.index (storeAddress a))
            (evictBlockOf s (s.index (storeAddress a))) with
          tag := s.tag (storeAddress a), dirty := true, valid := true,
          access_ts := s.clock, load_ts := s.clock },
        evictBlockOf_lt s _ hb, rfl, rfl, rfl, rfl, Or.inr (Or.inr ⟨hnm, hall, rfl⟩)⟩
    · rw [store_of_full_writeThrough s a (-1) hmp hw hr]
      exact ⟨evictBlockOf s (s.index (storeAddress a)),
        { s.cache.slotAt (s.index (storeAddress a))
            (evictBlockOf s (s.index (storeAddress a))) with
          tag := s.tag (storeAddress a), dirty := false, valid := true,
          access_ts := s.clock, load_ts := s.clock },
        evictBlockOf_lt s _ hb, rfl, rfl, rfl, rfl, Or.inr (Or.inr ⟨hnm, hall, rfl⟩)⟩

/-- A `store` counts a hit exactly when the block is resident. -/
theorem store_hits_iff (s : Simulator) (a : Nat)
    (hidx : s.index (storeAddress a) < s.cache.sets.length)
    (hlen : (s.cache.setAt (s.index (storeAddress a))).slots.length = s.blocks) :
    (store s a).shits = s.shits + 1 ↔
      ∃ j, j < s.blocks ∧ (s.cache.slotAt (s.index (storeAddress a)) j).valid = true ∧
        (s.cache.slotAt (s.index (storeAddress a)) j).tag = s.tag (storeAddress a) := by
  rcases checkMem_cases s (s.tag (storeAddress a)) (s.index (storeAddress a))
    (-1) hidx with ⟨p, hp, hm, _, hr⟩ | ⟨hnm, p, hp, hv, _, hr⟩ | ⟨hnm, hall, hr⟩
  · refine ⟨fun _ => ⟨p, hp, hm⟩, fun _ => ?_⟩
    rcases writePolicy_cases s.writePolicy with hw | hw
    · rw [store_of_hit_writeBack s a p hp hidx hlen hw hr]
    · rw [store_of_hit_writeThrough s a p hp hw hr]
  · have hsame : (store s a).shits = s.shits := by
      rcases missPolicy_cases s.missPolicy with hmp | hmp
      · rcases writePolicy_cases s.writePolicy with hw | hw
        · rw [store_of_space_writeBack s a p hmp hw hr]
        · rw [store_of_space_writeThrough s a p hmp hw hr]
      · rw [store_of_miss_noWriteAllocate s a (-1) p hmp (Or.inl rfl) hr]
    rw [hsame]
    exact ⟨fun h => by omega, fun ⟨j, hj, hm⟩ => absurd hm (hnm j hj)⟩
  · have hsame : (store s a).shits = s.shits := by
      rcases missPolicy_cases s.missPolicy with hmp | hmp
      · rcases writePolicy_cases s.writePolicy with hw | hw
        · rw [store_of_full_writeBack s a (-1) hmp hw hr]
        · rw [store_of_full_writeThrough s a (-1) hmp hw hr]
      · rw [store_of_miss_noWriteAllocate s a s.blocks (-1) hmp (Or.inr rfl) hr]
    rw [hsame]
    exact ⟨fun h => by omega, fun ⟨j, hj, hm⟩ => absurd hm (hnm j hj)⟩

/-- A `load` counts a hit exactly when the block is resident. -/
theorem load_hits_iff (s : Simulator) (a : Nat)
    (hidx : s.index (loadAddress a) < s.cache.sets.length) :
    (load s a).lhits = s.lhits + 1 ↔
      ∃ j, j < s.blocks ∧ (s.cache.slotAt (s.index (loadAddress a)) j).valid = true ∧
        (s.cache.slotAt (s.index (loadAddress a)) j).tag = s.tag (loadAddress a) := by
  constructor
  · intro h
    by_contra hne
    have := (load_misses_of_absent s a hidx fun j hj hm => hne ⟨j, hj, hm⟩).1
    omega
  · intro h
    exact (load_hits_of_resident s a hidx h).1

/-- The operation of a load or store line is a hit exactly when the referenced tag is in a
valid slot of the referenced set. -/
theorem opHit_iff_resident (s : Simulator) (line : Line) (hwf : s.WellFormed)
    (hty : line.type = "l" ∨ line.type = "s") :
    opHit s line = true ↔
      ∃ j, j < s.blocks ∧ (s.cache.slotAt (s.ref line).2 j).valid = true ∧
        (s.cache.slotAt (s.ref line).2 j).tag = (s.ref line).1 := by
  rcases hty with ht | ht
  · rw [line_eq_of_type line "l" ht]
    show decide ((load s line.address).lhits = s.lhits + 1) = true ↔ _
    rw [decide_eq_true_eq]
    exact load_hits_iff s line.address (wellFormed_index_lt s hwf _)
  · rw [line_eq_of_type line "s" ht]
    show decide ((store s line.address).shits = s.shits + 1) = true ↔ _
    rw [decide_eq_true_eq]
    exact store_hits_iff s line.address (wellFormed_index_lt s hwf _)
      (wellFormed_slots_length s hwf _)

theorem ref_congr (s s' : Simulator) (line : Line) (h1 : s'.size = s.size)
    (h2 : s'.sets = s.sets) : s'.ref line = s.ref line := by
  unfold Simulator.ref
  simp only [index_congr s s' _ h1 h2, tag_congr s s' _ h1 h2]

/-! ## The reference stack along a run -/

/-- One operation, before any wrap of the clock and under LRU, moves every set along with its
reference stack. -/
theorem stackInv_op (s s' : Simulator) (index t : Nat) (h : List (Nat × Nat))
    (hwf : s.WellFormed) (hts : TsInv s) (hN : s.loads + s.stores < 2 ^ 32)
    (hlru : s.evictionPolicy = EvictionPolicy.LRU) (hidx : index < s.sets)
    (hbl : s'.blocks = s.blocks) (hacc : AccessStep s s' index t)
    (hinv : ∀ i, i < s.sets → StackInv s i (lruStack h i)) :
    ∀ i, i < s.sets → StackInv s' i (lruStack ((t, index) :: h) i) := by
  obtain ⟨p, new, hp, hc, hv, htag, hclock, hkind⟩ := hacc
  intro i hi
  have hunf : lruStack ((t, index) :: h) i
      = if index = i then t :: (lruStack h i).filter (fun x => x != t) else lruStack h i := rfl
  rw [hunf]
  by_cases hii : index = i
  · subst hii
    rw [if_pos rfl]
    have hidx' : index < s.cache.sets.length := by rw [hwf.1.1]; exact hidx
    apply stackInv_step s s' index t p new _ hwf hidx hp hbl hc hv htag
    · intro j hj hvj
      rw [hclock, clock_eq_of_lt s hN]
      exact (hts.1 index j _
        (slot?_eq_some_slotAt s.cache index j hidx' (by rw [hwf.1.2 index hidx]; exact hj))
        hvj).2
    · rcases hkind with h1 | h1 | ⟨h1, h2, h3⟩
      · exact Or.inl h1
      · exact Or.inr (Or.inl h1)
      · refine Or.inr (Or.inr ⟨h1, h2, ?_⟩)
        rw [h3]
        exact evictBlockOf_lru_min s index hwf.2.2.1 hlru
    · exact nodup_lruStack index h
    · exact hinv index hidx
  · rw [if_neg hii]
    apply stackInv_congr s s' i _ hbl _ (hinv i hi)
    intro j
    exact (slotAt_of_step s s' index p new hwf hidx hp hc).2 i j
      (fun hh => hii hh.1.symm)

theorem history_cons (f : Line → Nat × Nat) (x : Line) (rest : List Line)
    (h : List (Nat × Nat)) :
    ((x :: rest).map f).reverse ++ h = (rest.map f).reverse ++ (f x :: h) := by
  rw [List.map_cons, List.reverse_cons, List.append_assoc]
  rfl

/-- Along a run of load and store lines that does not wrap the clock, under LRU and
write-allocate, every set holds the first `blocks` tags of its reference stack. -/
theorem simulate_stackInv :
    ∀ (lines : List Line) (s : Simulator) (h : List (Nat × Nat)),
      s.WellFormed → TsInv s → s.missPolicy = WriteMissPolicy.WriteAllocate →
      s.evictionPolicy = EvictionPolicy.LRU →
      (∀ l, l ∈ lines → l.type = "l" ∨ l.type = "s") →
      s.loads + s.stores + lines.length < 2 ^ 32 →
      (∀ i, i < s.sets → StackInv s i (lruStack h i)) →
      ∀ i, i < s.sets →
        StackInv (simulate s lines).2 i (lruStack ((lines.map s.ref).reverse ++ h) i) := by
  intro lines
  induction lines with
  | nil =>
    intro s h _ _ _ _ _ _ hinv
    exact hinv
  | cons line rest ih =>
    intro s h hwf hts hmp hlru hty hlen hinv
    have hlc : (line :: rest).length = rest.length + 1 := rfl
    rw [hlc] at hlen
    have hN : s.loads + s.stores < 2 ^ 32 := by omega
    have hty' : ∀ l, l ∈ rest → l.type = "l" ∨ l.type = "s" :=
      fun l hl => hty l (List.mem_cons_of_mem _ hl)
    rw [history_cons]
    rcases hty line (List.mem_cons_self _ _) with ht | ht
    · have hx := line_eq_of_type line "l" ht
      have hidx := wellFormed_index_lt s hwf (loadAddress line.address)
      have hstep := load_opStep s line.address hidx hwf.2.2.1
      have hw1 : (load s line.address).WellFormed := wellFormed_of_opStep s _ _ _ hwf hstep
      have hl : (load s line.address).loads = s.loads := hstep.2.2.2.2.2.2.2.1
      have hs : (load s line.address).stores = s.stores := hstep.2.2.2.2.2.2.2.2.1
      have hmod : ((load s line.address).loads + 1) % 2 ^ 32 = s.loads + 1 := by
        rw [hl]; exact Nat.mod_eq_of_lt (by omega)
      have hts1 : TsInv { load s line.address with
          loads := ((load s line.address).loads + 1) % 2 ^ 32 } :=
        (simulate_tsInv [⟨"l", line.address⟩] s hwf hts (by
          show s.loads + s.stores + 1 < 2 ^ 32
          omega)).2.1
      have href : s.ref line = (s.tag (loadAddress line.address),
          s.index (loadAddress line.address)) := by
        rw [hx]; rfl
      have hinv1 := stackInv_op s (load s line.address) _ _ h hwf hts hN hlru
        (by rw [← hwf.1.1]; exact hidx) hstep.2.1
        (load_accessStep s line.address hidx hwf.2.2.1) hinv
      rw [← href] at hinv1
      have hrec := ih { load s line.address with
          loads := ((load s line.address).loads + 1) % 2 ^ 32 } (s.ref line :: h)
        hw1 hts1 (hstep.2.2.2.1.trans hmp) (hstep.2.2.2.2.2.1.trans hlru) hty'
        (by
          show ((load s line.address).loads + 1) % 2 ^ 32 + (load s line.address).stores
            + rest.length < 2 ^ 32
          rw [hmod, hs]; omega)
        (fun i hi => hinv1 i (by
          have : (load s line.address).sets = s.sets := hstep.1
          rw [← this]; exact hi))
      have hrefs : rest.map (Simulator.ref { load s line.address with
          loads := ((load s line.address).loads + 1) % 2 ^ 32 }) = rest.map s.ref :=
        List.map_congr_left fun l _ => ref_congr s _ l hstep.2.2.1 hstep.1
      rw [hrefs] at hrec
      intro i hi
      have hgoal := hrec i (by
        show (load s line.address).sets > i
        rw [hstep.1]; exact hi)
      rw [hx, simulate_load_cons]
      rw [hx] at hgoal
      exact hgoal
    · have hx := line_eq_of_type line "s" ht
      have hidx := wellFormed_index_lt s hwf (storeAddress line.address)
      have hlen' := wellFormed_slots_length s hwf (storeAddress line.address)
      have hstep := store_opStep s line.address hidx hlen' hwf.2.2.1
      have hw1 : (store s line.address).WellFormed := wellFormed_of_opStep s _ _ _ hwf hstep
      have hl : (store s line.address).loads = s.loads := hstep.2.2.2.2.2.2.2.1
      have hs : (store s line.address).stores = s.stores := hstep.2.2.2.2.2.2.2.2.1
      have hmod : ((store s line.address).stores + 1) % 2 ^ 32 = s.stores + 1 := by
        rw [hs]; exact Nat.mod_eq_of_lt (by omega)
      have hts1 : TsInv { store s line.address with
          stores := ((store s line.address).stores + 1) % 2 ^ 32 } :=
        (simulate_tsInv [⟨"s", line.address⟩] s hwf hts (by
          show s.loads + s.stores + 1 < 2 ^ 32
          omega)).2.1
      have href : s.ref line = (s.tag (storeAddress line.address),
          s.index (storeAddress line.address)) := by
        rw [hx]; rfl
      have hinv1 := stackInv_op s (store s line.address) _ _ h hwf hts hN hlru
        (by rw [← hwf.1.1]; exact hidx) hstep.2.1
        (store_accessStep s line.address hidx hlen' hwf.2.2.1 hmp) hinv
      rw [← href] at hinv1
      have hrec := ih { store s line.address with
          stores := ((store s line.address).stores + 1) % 2 ^ 32 } (s.ref line :: h)
        hw1 hts1 (hstep.2.2.2.1.trans hmp) (hstep.2.2.2.2.2.1.trans hlru) hty'
        (by
          show (store s line.address).loads
            + ((store s line.address).stores + 1) % 2 ^ 32 + rest.length < 2 ^ 32
          rw [hmod, hl]; omega)
        (fun i hi => hinv1 i (by
          have : (store s line.address).sets = s.sets := hstep.1
          rw [← this]; exact hi))
      have hrefs : rest.map (Simulator.ref { store s line.address with
          stores := ((store s line.address).stores + 1) % 2 ^ 32 }) = rest.map s.ref :=
        List.map_congr_left fun l _ => ref_congr s _ l hstep.2.2.1 hstep.1
      rw [hrefs] at hrec
      intro i hi
      have hgoal := hrec i (by
        show (store s line.address).sets > i
        rw [hstep.1]; exact hi)
      rw [hx, simulate_store_cons]
      rw [hx] at hgoal
      exact hgoal

/-! ## C24: the simulator against the reference LRU stack model -/

/-- The tags resident in a set that follows a stack are the first `blocks` tags of the
stack. -/
theorem resident_iff_of_stackInv (s : Simulator) (i : Nat) (st : List Nat)
    (h : StackInv s i st) (t : Nat) :
    (∃ j, j < s.blocks ∧ (s.cache.slotAt i j).valid = true ∧ (s.cache.slotAt i j).tag = t) ↔
      t ∈ st.take s.blocks := by
  obtain ⟨ps, htags, hmem, _⟩ := h
  rw [← htags, List.mem_map]
  constructor
  · rintro ⟨j, hj, hv, ht⟩
    exact ⟨j, (hmem j).mpr ⟨hj, hv⟩, ht⟩
  · rintro ⟨j, hj, ht⟩
    exact ⟨j, ((hmem j).mp hj).1, ((hmem j).mp hj).2, ht⟩

theorem slots_eq_map_range (slots : List Slot) :
    slots = (List.range slots.length).map (fun j => getSlot slots j) := by
  apply List.ext_getElem
  · rw [List.length_map, List.length_range]
  · intro n h1 h2
    rw [List.getElem_map, List.getElem_range, getSlot_eq_getElem slots n h1]

/-- The number of valid slots of a set that follows a stack is the number of tags among the
first `blocks` of the stack. -/
theorem validCount_of_stackInv (s : Simulator) (i : Nat) (st : List Nat) (hwf : s.WellFormed)
    (hi : i < s.sets) (h : StackInv s i st) :
    s.cache.validCount i = min s.blocks st.length := by
  obtain ⟨ps, htags, hmem, hpw⟩ := h
  have hpsnd : ps.Nodup := hpw.imp fun {a b} hab hEq => by
    rw [hEq] at hab
    exact lt_irrefl _ hab
  have hlen : ps.length = min s.blocks st.length := by
    rw [← List.length_take, ← htags, List.length_map]
  have hslots := hwf.1.2 i hi
  have hcount : s.cache.validCount i
      = ((List.range s.blocks).filter fun j => (s.cache.slotAt i j).valid).length := by
    unfold Cache.validCount
    conv_lhs => rw [slots_eq_map_range (s.cache.setAt i).slots]
    rw [List.countP_map, List.countP_eq_length_filter, hslots]
    rfl
  rw [hcount, ← hlen]
  apply List.Perm.length_eq
  rw [List.perm_ext_iff_of_nodup ((List.nodup_range _).filter _) hpsnd]
  intro a
  rw [List.mem_filter, List.mem_range, hmem a]

theorem new_stackInv (sets blocks size : Nat) (miss : WriteMissPolicy) (write : WritePolicy)
    (eviction : EvictionPolicy) (i : Nat) :
    StackInv (Simulator.new sets blocks size miss write eviction) i (lruStack [] i) := by
  refine ⟨[], List.take_nil.symm, fun p => ?_, List.Pairwise.nil⟩
  rw [new_slotAt]
  constructor
  · intro h
    exact absurd h (List.not_mem_nil _)
  · intro h
    exact absurd h.2 Bool.false_ne_true

theorem takeWhile_append_cons (cur : Nat × Nat) (post : List (Nat × Nat)) :
    ∀ pre : List (Nat × Nat), cur ∉ pre →
      (pre ++ cur :: post).takeWhile (fun r => r != cur) = pre := by
  intro pre
  induction pre with
  | nil => intro _; simp [List.takeWhile_cons]
  | cons r pre ih =>
    intro hn
    have hr : r ≠ cur := fun h => hn (h ▸ List.mem_cons_self _ _)
    have hb : (r != cur) = true := by simpa using hr
    rw [List.cons_append, List.takeWhile_cons, if_pos hb,
      ih (fun h => hn (List.mem_cons_of_mem _ h))]

/-- The reference model counts a hit when the history starts with references other than `cur`
that have fewer than `blocks` distinct tags of its set, followed by `cur`. -/
theorem refHit_of_prefix (blocks : Nat) (pre post : List (Nat × Nat)) (cur : Nat × Nat)
    (hn : cur ∉ pre) (hlt : (distinctTags pre cur.2).length < blocks) :
    refHit blocks (pre ++ cur :: post) cur = true := by
  have hc : (pre ++ cur :: post).contains cur = true :=
    List.elem_iff.mpr (List.mem_append_right _ (List.mem_cons_self _ _))
  unfold refHit
  rw [hc, takeWhile_append_cons cur post pre hn, Bool.true_and, decide_eq_true_eq]
  exact hlt

theorem wrapFamily_run_append (rest : List Line) : ∀ (n k : Nat),
    simulate (wrapFamily k) (List.replicate n ⟨"l", 0x4⟩ ++ rest)
      = simulate (wrapFamily (k + n)) rest := by
  intro n
  induction n with
  | zero => intro k; rfl
  | succ n ih =>
    intro k
    rw [List.replicate_succ, List.cons_append, simulate_load_cons, wrapFamily_step, ih (k + 1)]
    have : k + 1 + n = k + (n + 1) := by omega
    rw [this]

theorem wrapTrace_append_state (rest : List Line) :
    simulate (Simulator.new 1 2 4 .WriteAllocate .WriteThrough .LRU) (wrapTrace ++ rest)
      = simulate (wrapFamily (2 ^ 32 - 2)) rest := by
  have h0 : { load { load (Simulator.new 1 2 4 .WriteAllocate .WriteThrough .LRU) 0x0 with
        loads := ((load (Simulator.new 1 2 4 .WriteAllocate .WriteThrough .LRU) 0x0).loads
          + 1) % 2 ^ 32 } 0x4 with
      loads := ((load { load (Simulator.new 1 2 4 .WriteAllocate .WriteThrough .LRU) 0x0 with
        loads := ((load (Simulator.new 1 2 4 .WriteAllocate .WriteThrough .LRU) 0x0).loads
          + 1) % 2 ^ 32 } 0x4).loads + 1) % 2 ^ 32 } = wrapFamily 0 := by
    decide
  unfold wrapTrace
  rw [List.cons_append, List.cons_append, simulate_load_cons, simulate_load_cons, h0,
    wrapFamily_run_append]
  rfl

theorem lruStack_cons_same (t i : Nat) (h : List (Nat × Nat)) :
    lruStack ((t, i) :: h) i = t :: (lruStack h i).filter (fun x => x != t) := by
  show (if i = i then _ else _) = _
  rw [if_pos rfl]

theorem lruStack_cons (r : Nat × Nat) (h : List (Nat × Nat)) (i : Nat) :
    lruStack (r :: h) i
      = if r.2 = i then r.1 :: (lruStack h i).filter (fun x => x != r.1)
        else lruStack h i := rfl

theorem lruStack_cons_dup (r : Nat × Nat) (h : List (Nat × Nat)) (i : Nat) :
    lruStack (r :: r :: h) i = lruStack (r :: h) i := by
  rw [lruStack_cons r (r :: h), lruStack_cons r h]
  by_cases hr : r.2 = i
  · simp only [if_pos hr]
    simp [List.filter_filter]
  · simp only [if_neg hr]

theorem lruStack_replicate_append (r : Nat × Nat) (h : List (Nat × Nat)) (i : Nat) :
    ∀ n : Nat, lruStack (List.replicate n r ++ r :: h) i = lruStack (r :: h) i := by
  intro n
  induction n with
  | zero => rfl
  | succ n ih =>
    rw [List.replicate_succ, List.cons_append]
    have : lruStack (r :: (List.replicate n r ++ r :: h)) i
        = lruStack (r :: r :: h) i := by
      cases n with
      | zero => rfl
      | succ m =>
        rw [List.replicate_succ, List.cons_append, lruStack_cons_dup]
        rw [List.replicate_succ, List.cons_append] at ih
        rw [ih, lruStack_cons_dup]
    rw [this, lruStack_cons_dup]

theorem wrapTrace_stack :
    lruStack
      ((wrapTrace.map (Simulator.new 1 2 4 .WriteAllocate .WriteThrough .LRU).ref).reverse) 0
      = [1, 0] := by
  unfold wrapTrace
  rw [List.map_cons, List.map_cons, List.map_replicate, List.reverse_cons, List.reverse_cons,
    List.reverse_replicate, List.append_assoc, List.singleton_append,
    lruStack_replicate_append]
  decide

set_option maxRecDepth 8192 in
/-- The two loads `l 4`, `l 8` after the wrap of the clock: both are processed, the set ends
with the tags `2` and `0`, and a further `l 4` is a miss. -/
theorem wrapFamily_tail :
    (simulate (wrapFamily (2 ^ 32 - 2)) [⟨"l", 0x4⟩, ⟨"l", 0x8⟩]).1 = 0 ∧
    (simulate (wrapFamily (2 ^ 32 - 2)) [⟨"l", 0x4⟩, ⟨"l", 0x8⟩]).2.cache
      = ⟨[⟨[⟨true, false, 2, 0, 1, 1⟩, ⟨true, false, 0, 0, 0, 0⟩]⟩]⟩ ∧
    opHit (simulate (wrapFamily (2 ^ 32 - 2)) [⟨"l", 0x4⟩, ⟨"l", 0x8⟩]).2 ⟨"l", 0x4⟩
      = false := by
  decide

/-- C24, the claim refuted as stated. On the single-set two-way cache with 4-byte blocks (a
validated geometry), under LRU, write-allocate and write-through, replay the `2 ^ 32` loads of
`wrapTrace` and then `l 4`, `l 8`: all lines are load lines and `simulate` returns `0`. The
next operation `l 4` has the decoded reference `(1, 0)`; the most recent earlier reference to
`(1, 0)` is two operations back and only one other tag, `2`, was referenced in between, fewer
than `blocks = 2`, so the reference model counts a hit. The simulator counts a miss: the clock
has wrapped, the earlier `l 4` stamped its slot `0` with `0`, `l 8` therefore replaced that
slot, and the set holds the tags `2` and `0`, not the two most recently referenced tags `2`
and `1`. -/
theorem lru_stack_counterexample :
    ValidGeometry 1 2 4 ∧
    (∀ l, l ∈ wrapTrace ++ [(⟨"l", 0x4⟩ : Line), ⟨"l", 0x8⟩] → l.type = "l") ∧
    (simulate (Simulator.new 1 2 4 .WriteAllocate .WriteThrough .LRU)
      (wrapTrace ++ [⟨"l", 0x4⟩, ⟨"l", 0x8⟩])).1 = 0 ∧
    (Simulator.new 1 2 4 .WriteAllocate .WriteThrough .LRU).ref ⟨"l", 0x4⟩ = (1, 0) ∧
    refHit 2
      (((wrapTrace ++ [(⟨"l", 0x4⟩ : Line), ⟨"l", 0x8⟩]).map
        (Simulator.new 1 2 4 .WriteAllocate .WriteThrough .LRU).ref).reverse)
      ((Simulator.new 1 2 4 .WriteAllocate .WriteThrough .LRU).ref ⟨"l", 0x4⟩) = true ∧
    opHit (simulate (Simulator.new 1 2 4 .WriteAllocate .WriteThrough .LRU)
      (wrapTrace ++ [⟨"l", 0x4⟩, ⟨"l", 0x8⟩])).2 ⟨"l", 0x4⟩ = false ∧
    (simulate (Simulator.new 1 2 4 .WriteAllocate .WriteThrough .LRU)
      (wrapTrace ++ [⟨"l", 0x4⟩, ⟨"l", 0x8⟩])).2.cache
      = ⟨[⟨[⟨true, false, 2, 0, 1, 1⟩, ⟨true, false, 0, 0, 0, 0⟩]⟩]⟩ ∧
    (lruStack
      (((wrapTrace ++ [(⟨"l", 0x4⟩ : Line), ⟨"l", 0x8⟩]).map
        (Simulator.new 1 2 4 .WriteAllocate .WriteThrough .LRU).ref).reverse) 0).take 2
      = [2, 1] := by
  have hty : ∀ l, l ∈ wrapTrace ++ [(⟨"l", 0x4⟩ : Line), ⟨"l", 0x8⟩] → l.type = "l" := by
    intro l hl
    rcases List.mem_append.mp hl with h | h
    · exact wrapTrace_types l h
    · rcases List.mem_cons.mp h with h | h
      · rw [h]
      · rw [List.mem_singleton.mp h]
  have hhist : ((wrapTrace ++ [(⟨"l", 0x4⟩ : Line), ⟨"l", 0x8⟩]).map
      (Simulator.new 1 2 4 .WriteAllocate .WriteThrough .LRU).ref).reverse
      = (2, 0) :: (1, 0) ::
          (wrapTrace.map
            (Simulator.new 1 2 4 .WriteAllocate .WriteThrough .LRU).ref).reverse := by
    have hA : ([(⟨"l", 0x4⟩ : Line), ⟨"l", 0x8⟩].map
        (Simulator.new 1 2 4 .WriteAllocate .WriteThrough .LRU).ref).reverse
        = [(2, 0), (1, 0)] := by decide
    rw [List.map_append, List.reverse_append, hA, List.cons_append, List.cons_append,
      List.nil_append]
  have h2 : (Simulator.new 1 2 4 .WriteAllocate .WriteThrough .LRU).ref ⟨"l", 0x4⟩ = (1, 0) := by
    decide
  have hgeo : ValidGeometry 1 2 4 := ⟨by decide, by decide, by decide, by decide⟩
  rw [wrapTrace_append_state, hhist, h2]
  refine ⟨hgeo, hty, wrapFamily_tail.1, rfl, ?_, wrapFamily_tail.2.2, wrapFamily_tail.2.1, ?_⟩
  · have h := refHit_of_prefix 2 [(2, 0)]
      ((wrapTrace.map (Simulator.new 1 2 4 .WriteAllocate .WriteThrough .LRU).ref).reverse)
      (1, 0) (by decide) (by decide)
    rw [List.singleton_append] at h
    exact h
  · rw [lruStack_cons_same, lruStack_cons_same, wrapTrace_stack]
    decide

/-- C24, amended. Under LRU and write-allocate, with either write policy, let `s` be the state
that `simulate` reaches from the fresh cache of a validated geometry whose tag shift is defined
(`offsetBits + indexBits < 32`, where the decoding of the embedding is the program's) on fewer
than `2 ^ 32` load and store lines `lines`, and let `line` be a further load or store line. With
the decoded references `(tag, index)` of `lines` listed most recent first: (1) the operation of
`line` is a hit in `s` exactly when the reference model says so, that is when some earlier
reference equals that of `line` and, counting from the most recent such one, fewer than `blocks`
distinct tags of the same set were referenced in between; (2) the tags in the valid slots of each
set are exactly the first `blocks` tags of the reference LRU stack of the set, its most recently
referenced tags; (3) a set has `min blocks d` valid slots, `d` the number of distinct tags
referenced in it. -/
theorem lru_stack_refinement (sets blocks size : Nat) (write : WritePolicy)
    (lines : List Line) (line : Line) (s : Simulator)
    (hgeo : ValidGeometry sets blocks size) (hshift : ShiftDefined sets size)
    (hty : ∀ l, l ∈ lines → l.type = "l" ∨ l.type = "s")
    (hlen : lines.length < 2 ^ 32)
    (hline : line.type = "l" ∨ line.type = "s")
    (hs : (simulate (Simulator.new sets blocks size WriteMissPolicy.WriteAllocate write
      EvictionPolicy.LRU) lines).2 = s) :
    (opHit s line = true ↔
      refHit blocks
        ((lines.map (Simulator.new sets blocks size WriteMissPolicy.WriteAllocate write
          EvictionPolicy.LRU).ref).reverse)
        ((Simulator.new sets blocks size WriteMissPolicy.WriteAllocate write
          EvictionPolicy.LRU).ref line) = true) ∧
    (∀ i, i < sets → ∀ t,
      (∃ j, j < blocks ∧ (s.cache.slotAt i j).valid = true ∧ (s.cache.slotAt i j).tag = t) ↔
        t ∈ (lruStack
          ((lines.map (Simulator.new sets blocks size WriteMissPolicy.WriteAllocate write
            EvictionPolicy.LRU).ref).reverse) i).take blocks) ∧
    (∀ i, i < sets →
      s.cache.validCount i = min blocks (distinctTags
        ((lines.map (Simulator.new sets blocks size WriteMissPolicy.WriteAllocate write
          EvictionPolicy.LRU).ref).reverse) i).length) ∧
    s.offsetBits + s.indexBits < 32 := by
  have hwf0 := new_wellFormed sets blocks size WriteMissPolicy.WriteAllocate write
    EvictionPolicy.LRU hgeo
  obtain ⟨hwf, hsets, hblocks, hsize, _, _, _⟩ :=
    reachable_wellFormed sets blocks size WriteMissPolicy.WriteAllocate write
      EvictionPolicy.LRU s hgeo ⟨lines, hs⟩
  have hinv := simulate_stackInv lines _ [] hwf0
    (new_tsInv sets blocks size WriteMissPolicy.WriteAllocate write EvictionPolicy.LRU)
    rfl rfl hty
    (by show 0 + 0 + lines.length < 2 ^ 32
        omega)
    (fun i _ => new_stackInv sets blocks size _ _ _ i)
  rw [hs, List.append_nil] at hinv
  have hinv' : ∀ i, i < sets → StackInv s i (lruStack
      ((lines.map (Simulator.new sets blocks size WriteMissPolicy.WriteAllocate write
        EvictionPolicy.LRU).ref).reverse) i) := hinv
  have href : s.ref line = (Simulator.new sets blocks size WriteMissPolicy.WriteAllocate write
      EvictionPolicy.LRU).ref line :=
    ref_congr _ s line hsize hsets
  have hidx : (s.ref line).2 < sets := by
    have h1 : ∀ a, s.index a < s.cache.sets.length := wellFormed_index_lt s hwf
    rw [hwf.1.1, hsets] at h1
    unfold Simulator.ref
    exact h1 _
  refine ⟨?_, fun i hi t => ?_, fun i hi => ?_,
    reachable_shiftDefined sets blocks size _ write _ s hgeo hshift ⟨lines, hs⟩⟩
  · rw [opHit_iff_resident s line hwf hline,
      resident_iff_of_stackInv s _ _ (hinv' _ hidx) (s.ref line).1, hblocks, ← href]
    exact (refHit_iff blocks _ (s.ref line).1 (s.ref line).2).symm
  · have := resident_iff_of_stackInv s i _ (hinv' i hi) t
    rw [hblocks] at this
    exact this
  · rw [validCount_of_stackInv s i _ hwf (by rw [hsets]; exact hi) (hinv' i hi), hblocks,
      length_lruStack]

/-- Instance of the amended C24: after `l 0`, `l 4`, `l 8` on the single-set two-way LRU
cache with 4-byte blocks, the load `l 4` is a hit, as the reference model says: tag `1` was
referenced two operations back with one other tag in between. -/
theorem lru_stack_refinement_witness :
    (ValidGeometry 1 2 4 ∧ ShiftDefined 1 4 ∧
      (∀ l, l ∈ [(⟨"l", 0x0⟩ : Line), ⟨"l", 0x4⟩, ⟨"l", 0x8⟩] → l.type = "l" ∨ l.type = "s") ∧
      [(⟨"l", 0x0⟩ : Line), ⟨"l", 0x4⟩, ⟨"l", 0x8⟩].length < 2 ^ 32 ∧
      ((⟨"l", 0x4⟩ : Line).type = "l" ∨ (⟨"l", 0x4⟩ : Line).type = "s")) ∧
    refHit 2 [(2, 0), (1, 0), (0, 0)] (1, 0) = true ∧
    opHit (simulate (Simulator.new 1 2 4 .WriteAllocate .WriteBack .LRU)
      [⟨"l", 0x0⟩, ⟨"l", 0x4⟩, ⟨"l", 0x8⟩]).2 ⟨"l", 0x4⟩ = true := by
  have hgeo : ValidGeometry 1 2 4 := ⟨by decide, by decide, by decide, by decide⟩
  have hty : ∀ l, l ∈ [(⟨"l", 0x0⟩ : Line), ⟨"l", 0x4⟩, ⟨"l", 0x8⟩] →
      l.type = "l" ∨ l.type = "s" := by decide
  have href : refHit 2 [(2, 0), (1, 0), (0, 0)] (1, 0) = true := by decide
  have hshift : ShiftDefined 1 4 := by decide
  exact ⟨⟨hgeo, hshift, hty, by decide, Or.inl rfl⟩, href,
    (lru_stack_refinement 1 2 4 .WriteBack [⟨"l", 0x0⟩, ⟨"l", 0x4⟩, ⟨"l", 0x8⟩] ⟨"l", 0x4⟩ _
      hgeo hshift hty (by decide) (Or.inl rfl) rfl).1.mpr href⟩

/-! ## C25: the cycle total under write-through -/

/-- With no dirty slot in the grid, the eviction charge of a miss is zero. -/
theorem charge_zero_of_clean (s : Simulator) (hwf : s.WellFormed) (index : Nat)
    (hidx : index < s.cache.sets.length)
    (hclean : ∀ i j sl, s.cache.slot? i j = some sl → sl.dirty = false) (charge : Int)
    (h : charge = 0 ∨ (charge = 100 * s.memoryMultiplier ∧
      ∃ p, p < s.blocks ∧ (s.cache.slotAt index p).dirty = true)) :
    charge = 0 := by
  rcases h with h | ⟨_, p, hp, hd⟩
  · exact h
  · have hi : index < s.sets := by rw [← hwf.1.1]; exact hidx
    have := hclean index p _
      (slot?_eq_some_slotAt s.cache index p hidx (by rw [hwf.1.2 index hi]; exact hp))
    rw [this] at hd
    exact absurd hd Bool.false_ne_true

/-- The closed form of the cycle count under write-through is kept by one `load`. -/
theorem closedForm_load (s : Simulator) (a : Nat) (c : Int) (hwf : s.WellFormed)
    (hclean : ∀ i j sl, s.cache.slot? i j = some sl → sl.dirty = false)
    (h : s.cycles = s.lhits + 101 * s.shits + 100 * s.memoryMultiplier * s.lmisses
      + c * s.smisses) :
    (load s a).cycles = (load s a).lhits + 101 * (load s a).shits
      + 100 * s.memoryMultiplier * (load s a).lmisses + c * (load s a).smisses := by
  have hidx := wellFormed_index_lt s hwf (loadAddress a)
  obtain ⟨h1, h2, h3⟩ := load_delta s a hidx hwf.2.2.1
  rw [h1, h2]
  rcases h3 with ⟨e1, e2, e3⟩ | ⟨e1, e2, ch, e3, hch⟩
  · rw [e1, e2, e3, h]; ring
  · have := charge_zero_of_clean s hwf _ hidx hclean ch hch
    rw [e1, e2, e3, h, this]; ring

/-- The closed form of the cycle count under write-through is kept by one `store`. -/
theorem closedForm_store (s : Simulator) (a : Nat) (hwf : s.WellFormed)
    (hw : s.writePolicy = WritePolicy.WriteThrough)
    (hclean : ∀ i j sl, s.cache.slot? i j = some sl → sl.dirty = false)
    (h : s.cycles = s.lhits + 101 * s.shits + 100 * s.memoryMultiplier * s.lmisses
      + (if s.missPolicy = WriteMissPolicy.NoWriteAllocate then 100
          else 100 * s.memoryMultiplier + 101) * s.smisses) :
    (store s a).cycles = (store s a).lhits + 101 * (store s a).shits
      + 100 * s.memoryMultiplier * (store s a).lmisses
      + (if s.missPolicy = WriteMissPolicy.NoWriteAllocate then 100
          else 100 * s.memoryMultiplier + 101) * (store s a).smisses := by
  have hidx := wellFormed_index_lt s hwf (storeAddress a)
  have hnwb : ¬ s.writePolicy = WritePolicy.WriteBack := fun h' => by
    rw [hw] at h'
    exact WritePolicy.noConfusion h'
  obtain ⟨h1, h2, h3⟩ := store_delta s a hidx (wellFormed_slots_length s hwf _) hwf.2.2.1
  rw [h1, h2]
  rcases h3 with ⟨e1, e2, e3⟩ | ⟨e1, e2, ⟨hm, e3⟩ | ⟨hm, ch, e3, hch⟩⟩
  · rw [if_neg hnwb] at e3
    rw [e1, e2, e3, h]; ring
  · rw [if_pos hm] at h ⊢
    rw [e1, e2, e3, h]; ring
  · have hne : ¬ s.missPolicy = WriteMissPolicy.NoWriteAllocate := fun h' => by
      rw [hm] at h'
      exact WriteMissPolicy.noConfusion h'
    have := charge_zero_of_clean s hwf _ hidx hclean ch hch
    rw [if_neg hnwb] at e3
    rw [if_neg hne] at h ⊢
    rw [e1, e2, e3, h, this]; ring

/-- C25. Under `WriteThrough`, for a validated geometry, either miss policy and either eviction
policy, in the state `s` that `simulate` reaches from the fresh simulator on any lines, with
the counters read as unbounded integers,
`cycles = lhits + 101 * shits + F * lmisses + c * smisses`, where `F = 100 * (size / 4)`
(integer division), `c = 100` under `NoWriteAllocate` and `c = F + 101` under
`WriteAllocate`. -/
theorem writeThrough_cycles_closed_form (sets blocks size : Nat) (miss : WriteMissPolicy)
    (eviction : EvictionPolicy) (lines : List Line) (s : Simulator)
    (hgeo : ValidGeometry sets blocks size)
    (hs : (simulate (Simulator.new sets blocks size miss WritePolicy.WriteThrough eviction)
      lines).2 = s) :
    s.cycles = s.lhits + 101 * s.shits + 100 * ((size / 4 : Nat) : Int) * s.lmisses
      + (if miss = WriteMissPolicy.NoWriteAllocate then 100
          else 100 * ((size / 4 : Nat) : Int) + 101) * s.smisses := by
  have hinv := simulate_invariant
    (fun s' => s'.WellFormed ∧ s'.writePolicy = WritePolicy.WriteThrough ∧
      s'.missPolicy = miss ∧ s'.memoryMultiplier = ((size / 4 : Nat) : Int) ∧
      (∀ i j sl, s'.cache.slot? i j = some sl → sl.dirty = false) ∧
      s'.cycles = s'.lhits + 101 * s'.shits + 100 * s'.memoryMultiplier * s'.lmisses
        + (if s'.missPolicy = WriteMissPolicy.NoWriteAllocate then 100
            else 100 * s'.memoryMultiplier + 101) * s'.smisses)
    (by
      intro s1 a ⟨hw1, hp1, hm1, hmm1, hd1, hc1⟩
      have hstep := load_opStep s1 a (wellFormed_index_lt s1 hw1 _) hw1.2.2.1
      have hw' : (load s1 a).WellFormed := wellFormed_of_opStep s1 _ _ _ hw1 hstep
      have hd' : ∀ i j sl, (load s1 a).cache.slot? i j = some sl → sl.dirty = false :=
        noDirty_of_opStep s1 _ _ _ hp1 hstep hd1
      have hmp : (load s1 a).missPolicy = s1.missPolicy := hstep.2.2.2.1
      have hmm : (load s1 a).memoryMultiplier = s1.memoryMultiplier := hstep.2.2.2.2.2.2.1
      have hc' := closedForm_load s1 a _ hw1 hd1 hc1
      have hc'' : (load s1 a).cycles = (load s1 a).lhits + 101 * (load s1 a).shits
          + 100 * (load s1 a).memoryMultiplier * (load s1 a).lmisses
          + (if (load s1 a).missPolicy = WriteMissPolicy.NoWriteAllocate then 100
              else 100 * (load s1 a).memoryMultiplier + 101) * (load s1 a).smisses := by
        rw [hmp, hmm]; exact hc'
      exact ⟨hw', hstep.2.2.2.2.1.trans hp1, hmp.trans hm1, hmm.trans hmm1, hd', hc''⟩)
    (by
      intro s1 a ⟨hw1, hp1, hm1, hmm1, hd1, hc1⟩
      have hstep := store_opStep s1 a (wellFormed_index_lt s1 hw1 _)
        (wellFormed_slots_length s1 hw1 _) hw1.2.2.1
      have hw' : (store s1 a).WellFormed := wellFormed_of_opStep s1 _ _ _ hw1 hstep
      have hd' : ∀ i j sl, (store s1 a).cache.slot? i j = some sl → sl.dirty = false :=
        noDirty_of_opStep s1 _ _ _ hp1 hstep hd1
      have hmp : (store s1 a).missPolicy = s1.missPolicy := hstep.2.2.2.1
      have hmm : (store s1 a).memoryMultiplier = s1.memoryMultiplier := hstep.2.2.2.2.2.2.1
      have hc' := closedForm_store s1 a hw1 hp1 hd1 hc1
      have hc'' : (store s1 a).cycles = (store s1 a).lhits + 101 * (store s1 a).shits
          + 100 * (store s1 a).memoryMultiplier * (store s1 a).lmisses
          + (if (store s1 a).missPolicy = WriteMissPolicy.NoWriteAllocate then 100
              else 100 * (store s1 a).memoryMultiplier + 101) * (store s1 a).smisses := by
        rw [hmp, hmm]; exact hc'
      exact ⟨hw', hstep.2.2.2.2.1.trans hp1, hmp.trans hm1, hmm.trans hmm1, hd', hc''⟩)
    lines (Simulator.new sets blocks size miss WritePolicy.WriteThrough eviction)
    ⟨new_wellFormed sets blocks size miss _ eviction hgeo, rfl, rfl, rfl,
      fun i j sl h => by rw [new_slot? sets blocks size miss _ eviction i j sl h]; rfl,
      by simp [Simulator.new]⟩
  rw [hs] at hinv
  obtain ⟨_, _, hm, hmm, _, hc⟩ := hinv
  rw [hm, hmm] at hc
  exact hc

/-- Instance of C25: the trace `l 0`, `s 0`, `s 80`, `l 100`, `s 4` on the write-through,
write-allocate single-set two-way cache with 16-byte blocks, under FIFO: no load hit, one
store hit, two load misses and two store misses. -/
theorem writeThrough_cycles_closed_form_witness :
    ValidGeometry 1 2 16 ∧
    (simulate (Simulator.new 1 2 16 .WriteAllocate .WriteThrough .FIFO)
      [⟨"l", 0x0⟩, ⟨"s", 0x0⟩, ⟨"s", 0x80⟩, ⟨"l", 0x100⟩, ⟨"s", 0x4⟩]).2.cycles
      = 0 + 101 * 1 + 100 * 4 * 2 + (100 * 4 + 101) * 2 := by
  have hgeo : ValidGeometry 1 2 16 := ⟨by decide, by decide, by decide, by decide⟩
  have h := writeThrough_cycles_closed_form 1 2 16 .WriteAllocate .FIFO
    [⟨"l", 0x0⟩, ⟨"s", 0x0⟩, ⟨"s", 0x80⟩, ⟨"l", 0x100⟩, ⟨"s", 0x4⟩] _ hgeo rfl
  refine ⟨hgeo, h.trans ?_⟩
  decide

end CacheSim
